import Mathlib

/-!
# Decision-tree construction (`tree.go`): embedding and verified properties

The Go program builds an ID3-style decision tree over rows of strings and
classifies samples with it.  This file embeds `entropy`, `splitData`,
`informationGain`, `mostCommonLabel`, `buildTree` and `predict`.

Modelling conventions

* A Go `map[string]V` is an association list with pairwise distinct keys, kept
  in first-insertion order.  Lookups and updates are the usual ones.
* A `for ... range m` loop over a map visits the entries in an order Go leaves
  unspecified.  Where the result of the loop depends on that order
  (`mostCommonLabel`), the order is an explicit argument (`IterOrder`).  Where
  it does not (sums, insertion into another map), the insertion order is used.
* A run-time panic (index out of range) is the result `none`.
* `float64` arithmetic and `math.Log2` are read over the real numbers in
  `entropy`, `informationGain`, `selectBest` and `buildTree`: these give the
  exact values, do not represent rounding, and are not computable.  What is
  proved of them is proved over the reals.
* What depends only on how computed gains compare is stated on `gainLoopOn`,
  `selectBestOn` and `buildTreeOn`, where the gain values a run computes are a
  parameter ranging over any linearly ordered type; `buildTree` is
  `buildTreeOn` at the exact gains (`buildTree_eq_buildTreeOn`).
-/

namespace DecisionTree

/-- A row: feature values followed by the class label. -/
abbrev Row := List String

/-- The Go struct `Node`: a leaf flag, a label, a feature name and the
children keyed by feature value. -/
inductive Node where
  | mk (IsLeaf : Bool) (Label : String) (Feature : String) (Children : List (String × Node))

/-- Field `IsLeaf`. -/
def Node.IsLeaf : Node → Bool
  | .mk b _ _ _ => b

/-- Field `Label`. -/
def Node.Label : Node → String
  | .mk _ l _ _ => l

/-- Field `Feature`. -/
def Node.Feature : Node → String
  | .mk _ _ f _ => f

/-- Field `Children`. -/
def Node.Children : Node → List (String × Node)
  | .mk _ _ _ c => c

/-- The literal `&Node{IsLeaf: true, Label: label}`. -/
def leafNode (label : String) : Node := Node.mk true label "" []

/-- The literal `&Node{Feature: f, Children: ...}` once its children are attached. -/
def internalNode (feature : String) (children : List (String × Node)) : Node :=
  Node.mk false "" feature children

/-- `counts[label]++` on a `map[string]int`. -/
def increment : List (String × Nat) → String → List (String × Nat)
  | [], label => [(label, 1)]
  | (k, n) :: rest, label =>
    if k = label then (k, n + 1) :: rest else (k, n) :: increment rest label

/-- The counting loop shared by `entropy` and `mostCommonLabel`:
`for _, row := range data { label := row[len(row)-1]; counts[label]++ }`. -/
def countLabels : List Row → List (String × Nat) → Option (List (String × Nat))
  | [], counts => some counts
  | row :: rest, counts =>
    match row.getLast? with
    | none => none
    | some label => countLabels rest (increment counts label)

/-- One term of the entropy sum: `ent -= p * math.Log2(p)` with
`p = count / total`. -/
noncomputable def entropyStep (total : Nat) (ent : ℝ) (kc : String × Nat) : ℝ :=
  ent - ((kc.2 : ℝ) / (total : ℝ)) * Real.logb 2 ((kc.2 : ℝ) / (total : ℝ))

/-- `entropy(data)`, read over the reals: the exact value of the sum, which
does not depend on the order in which the counts map is visited.  Rounding of
the `float64` computation is not represented. -/
noncomputable def entropy (data : List Row) : Option ℝ :=
  if data.length = 0 then some 0
  else
    match countLabels data [] with
    | none => none
    | some counts => some (counts.foldl (entropyStep data.length) 0)

/-- `splits[key] = append(splits[key], row)` on a `map[string][][]string`. -/
def appendRow : List (String × List Row) → String → Row → List (String × List Row)
  | [], key, row => [(key, [row])]
  | (k, rows) :: rest, key, row =>
    if k = key then (k, rows ++ [row]) :: rest else (k, rows) :: appendRow rest key row

/-- The loop of `splitData`, started from the map `splits`. -/
def splitLoop : List Row → Nat → List (String × List Row) → Option (List (String × List Row))
  | [], _, splits => some splits
  | row :: rest, columnIndex, splits =>
    match row[columnIndex]? with
    | none => none
    | some key => splitLoop rest columnIndex (appendRow splits key row)

/-- `splitData(data, columnIndex)`. -/
def splitData (data : List Row) (columnIndex : Nat) : Option (List (String × List Row)) :=
  splitLoop data columnIndex []

/-- The loop of `informationGain` accumulating `weightedEntropy`. -/
noncomputable def weightedLoop (total : Nat) : List (String × List Row) → ℝ → Option ℝ
  | [], acc => some acc
  | (_, subset) :: rest, acc =>
    match entropy subset with
    | none => none
    | some e => weightedLoop total rest (acc + ((subset.length : ℝ) / (total : ℝ)) * e)

/-- `informationGain(data, columnIndex)`, read over the reals: the exact gain.
Rounding of the `float64` computation is not represented. -/
noncomputable def informationGain (data : List Row) (columnIndex : Nat) : Option ℝ :=
  match entropy data with
  | none => none
  | some totalEntropy =>
    match splitData data columnIndex with
    | none => none
    | some splits =>
      match weightedLoop data.length splits 0 with
      | none => none
      | some weightedEntropy => some (totalEntropy - weightedEntropy)

/-- The order in which one `for ... range` loop visits a `map[string]int`: some
rearrangement of its entries. -/
structure IterOrder where
  /-- The visiting order for a map given by its entries. -/
  visit : List (String × Nat) → List (String × Nat)
  /-- Every entry is visited exactly once. -/
  visit_perm : ∀ m, (visit m).Perm m

/-- The iteration that visits the entries in insertion order. -/
def IterOrder.insertion : IterOrder := ⟨fun m => m, fun _ => List.Perm.refl _⟩

/-- The iteration that visits the entries in reverse insertion order. -/
def IterOrder.reversed : IterOrder := ⟨fun m => m.reverse, fun m => List.reverse_perm m⟩

/-- The scan of `mostCommonLabel`:
`for label, count := range counts { if count > max { max = count; result = label } }`. -/
def scanMax : List (String × Nat) → Nat → String → String
  | [], _, result => result
  | (label, count) :: rest, max, result =>
    if count > max then scanMax rest count label else scanMax rest max result

/-- `mostCommonLabel(data)`, the map being visited in the order `it`. -/
def mostCommonLabel (it : IterOrder) (data : List Row) : Option String :=
  match countLabels data [] with
  | none => none
  | some counts => some (scanMax (it.visit counts) 0 "")

/-- `labels[k] = true` on a `map[string]bool`. -/
def insertLabel : List String → String → List String
  | [], k => [k]
  | x :: xs, k => if x = k then x :: xs else x :: insertLabel xs k

/-- The first loop of `buildTree`:
`for _, row := range data { labels[row[len(row)-1]] = true }`. -/
def collectLabels : List Row → List String → Option (List String)
  | [], labels => some labels
  | row :: rest, labels =>
    match row.getLast? with
    | none => none
    | some label => collectLabels rest (insertLabel labels label)

/-- The selection loop of `buildTree` on the exact gains, with `remaining`
iterations left at index `i`:
`for ; i < len(headers)-1; i++ { gain := informationGain(data, i); if gain > bestGain {...} }`.
It is `gainLoopOn` at the exact gains (`gainLoop_eq_gainLoopOn`). -/
noncomputable def gainLoop (data : List Row) : Nat → Nat → ℝ → Int → Option (ℝ × Int)
  | 0, _, bestGain, bestIndex => some (bestGain, bestIndex)
  | remaining + 1, i, bestGain, bestIndex =>
    match informationGain data i with
    | none => none
    | some gain =>
      if gain > bestGain then gainLoop data remaining (i + 1) gain (i : Int)
      else gainLoop data remaining (i + 1) bestGain bestIndex

/-- The value of `bestIndex` after the selection loop of `buildTree` on the
exact gains
(`bestGain := -1.0; bestIndex := -1; for i := 0; i < len(headers)-1; i++`).
It is `selectBestOn` at the exact gains (`selectBest_eq_selectBestOn`). -/
noncomputable def selectBest (data : List Row) (headers : List String) : Option Int :=
  (gainLoop data (headers.length - 1) 0 (-1) (-1)).map Prod.snd

/-- Dropping position `i`: `append(append([]string{}, xs[:i]...), xs[i+1:]...)`. -/
def removeAt (xs : List String) (i : Nat) : List String :=
  xs.take i ++ xs.drop (i + 1)

/-- The loop over `splits` that fills `tree.Children`, given the function
building the child for a value and its projected rows. -/
def attachChildren (build : String → List Row → Option Node) (bestIndex : Nat) :
    List (String × List Row) → Option (List (String × Node))
  | [] => some []
  | (val, subset) :: rest =>
    match build val (subset.map (fun row => removeAt row bestIndex)) with
    | none => none
    | some child =>
      match attachChildren build bestIndex rest with
      | none => none
      | some children => some ((val, child) :: children)

/-- `buildTree(data, headers)` with the gains read over the reals.  The
argument `ord` gives the map iteration order used by the call reached through
the given branch values (the root is reached through `[]`). -/
noncomputable def buildTree (ord : List String → IterOrder) (data : List Row)
    (headers : List String) : Option Node :=
  match collectLabels data [] with
  | none => none
  | some labels =>
    match labels with
    | [label] => some (leafNode label)
    | _ =>
      if headers.length = 1 then
        (mostCommonLabel (ord []) data).map leafNode
      else
        match selectBest data headers with
        | none => none
        | some bestIndex =>
          if bestIndex < 0 then none
          else
            match hf : headers[bestIndex.toNat]? with
            | none => none
            | some bestFeature =>
              match splitData data bestIndex.toNat with
              | none => none
              | some splits =>
                (attachChildren
                  (fun val newSubset =>
                    buildTree (fun path => ord (val :: path)) newSubset
                      (removeAt headers bestIndex.toNat))
                  bestIndex.toNat splits).map (internalNode bestFeature)
termination_by headers.length
decreasing_by
  have hlt : bestIndex.toNat < headers.length := by
    rcases Nat.lt_or_ge bestIndex.toNat headers.length with h | h
    · exact h
    · rw [List.getElem?_eq_none h] at hf
      cases hf
  simp only [removeAt, List.length_append, List.length_take, List.length_drop]
  omega

/-- The lookup loop of `predict`:
`var featureIndex int; for i, h := range headers { if h == feature { featureIndex = i; break } }`,
with `i` the index of the head of the remaining headers. -/
def findFeature : List String → String → Nat → Nat
  | [], _, _ => 0
  | h :: rest, feature, i => if h = feature then i else findFeature rest feature (i + 1)

/-- The value of `featureIndex` after the lookup loop of `predict`. -/
def featureIndex (headers : List String) (feature : String) : Nat :=
  findFeature headers feature 0

mutual
/-- `predict(node, headers, sample)`. -/
def predict : Node → List String → List String → Option String
  | .mk isLeaf label feature children, headers, sample =>
    if isLeaf then some label
    else
      match sample[featureIndex headers feature]? with
      | none => none
      | some val => predictChild children val headers sample
/-- `child, ok := node.Children[val]; if !ok { return "Unknown" }; return predict(child, ...)`. -/
def predictChild : List (String × Node) → String → List String → List String → Option String
  | [], _, _, _ => some "Unknown"
  | (k, child) :: rest, val, headers, sample =>
    if val = k then predict child headers sample else predictChild rest val headers sample
end

/-- The label of a row, `row[len(row)-1]`, for a row known to be non-empty
(the default is never used on such rows). -/
def labelOf (row : Row) : String := row.getLastD ""

/-- The field of a row at a column, `row[c]`, for a row known to be long
enough (the default is never used on such rows). -/
def fieldOf (c : Nat) (row : Row) : String := row.getD c ""

/-- Proof device: the common shape of the map updates `counts[k]++` and
`splits[k] = append(splits[k], row)`, namely `m[k] = f(m[k])` where a missing
key reads as the zero value `d`. -/
def upsert {β : Type} (d : β) (f : β → β) : List (String × β) → String → List (String × β)
  | [], k => [(k, f d)]
  | (k', v) :: rest, k =>
    if k' = k then (k', f v) :: rest else (k', v) :: upsert d f rest k

/-- The number of Internal nodes on the longest path from a node down to a
node without children. -/
def Node.depth : Node → Nat
  | .mk isLeaf _ _ children => if isLeaf then 0 else 1 + depthChildren children
where
  /-- The largest depth among a list of children. -/
  depthChildren : List (String × Node) → Nat
    | [] => 0
    | (_, child) :: rest => max child.depth (depthChildren rest)


/-- The distinct elements of a list in order of first occurrence: the keys of
a Go map after inserting the elements one by one. -/
def firstSeen (xs : List String) : List String := xs.foldl insertLabel []

/-- The number of rows of `data` whose label is `l`. -/
def labelCount (data : List Row) (l : String) : Nat :=
  (data.filter (fun r => labelOf r = l)).length

/-- The rows of `data`, in their original order, whose column `c` holds `v`. -/
def rowsWith (data : List Row) (c : Nat) (v : String) : List Row :=
  data.filter (fun r => fieldOf c r = v)


/-- The summand `-(p * log2 p)` of the Shannon entropy. -/
noncomputable def entTerm (p : ℝ) : ℝ := -(p * Real.logb 2 p)

/-- The Shannon entropy of the labels as the specification writes it:
`-Σ p_c log2 p_c` over the distinct labels `c`, with `p_c = count(c) / total`. -/
noncomputable def entropyValue (data : List Row) : ℝ :=
  ∑ l in (data.map labelOf).toFinset,
    entTerm ((labelCount data l : ℝ) / (data.length : ℝ))

/-- The size-weighted sum of the entropies of the groups of column `c`:
`Σ_v (|group v| / |data|) * entropy(group v)`. -/
noncomputable def weightedValue (data : List Row) (c : Nat) : ℝ :=
  ∑ v in (data.map (fieldOf c)).toFinset,
    ((rowsWith data c v).length : ℝ) / (data.length : ℝ) * entropyValue (rowsWith data c v)

/-- The information gain as the specification writes it. -/
noncomputable def gainValue (data : List Row) (c : Nat) : ℝ :=
  entropyValue data - weightedValue data c


/-- The dataset handed to the child for value `v` when splitting on column
`b`: the rows holding `v` there, in order, each without field `b`. -/
def childData (data : List Row) (b : Nat) (v : String) : List Row :=
  (rowsWith data b v).map (fun row => removeAt row b)

/-- The precondition of `buildTree`: at least the label column, and every row
as long as the header sequence. -/
def WellFormed (data : List Row) (headers : List String) : Prop :=
  1 ≤ headers.length ∧ ∀ r ∈ data, r.length = headers.length


/-- The sample carries, at the position `predict` finds for each feature name
of `hs` in the header sequence `H`, the value row `r` has in that column. -/
def Agrees (hs H sample : List String) (r : Row) : Prop :=
  ∀ i, i < hs.length - 1 → sample[featureIndex H (hs.getD i "")]? = some (fieldOf i r)

/-- The first `k` columns determine the label: rows that agree on all of them
carry the same label. -/
def Determined (k : Nat) (data : List Row) : Prop :=
  ∀ r1 ∈ data, ∀ r2 ∈ data, (∀ i, i < k → fieldOf i r1 = fieldOf i r2) → labelOf r1 = labelOf r2


/-- The feature names carried by the Internal nodes of a tree. -/
def Node.features : Node → List String
  | .mk isLeaf _ feature children =>
    if isLeaf then [] else feature :: featuresChildren children
where
  /-- The feature names occurring in a list of children. -/
  featuresChildren : List (String × Node) → List String
    | [] => []
    | (_, child) :: rest => child.features ++ featuresChildren rest

/-- The labels carried by the leaves of a tree. -/
def Node.leafLabels : Node → List String
  | .mk isLeaf label _ children =>
    if isLeaf then [label] else leafLabelsChildren children
where
  /-- The leaf labels occurring in a list of children. -/
  leafLabelsChildren : List (String × Node) → List String
    | [] => []
    | (_, child) :: rest => child.leafLabels ++ leafLabelsChildren rest


/-- The dataset of Scenario A of the specification. -/
def scenarioA : List Row :=
  [["sunny", "hot", "no"], ["sunny", "cool", "yes"], ["rainy", "cool", "yes"],
    ["rainy", "hot", "no"]]

/-- The headers of Scenario A of the specification. -/
def scenarioAHeaders : List String := ["weather", "temp", "play"]


mutual
/-- The traversal of `predict` with its trace kept: the feature indices
computed on the way, in order, and the label of the leaf reached, or no label
when a child was missing. -/
def traverse : Node → List String → List String → Option (List Nat × Option String)
  | .mk isLeaf label feature children, headers, sample =>
    if isLeaf then some ([], some label)
    else
      match sample[featureIndex headers feature]? with
      | none => none
      | some val =>
        match traverseChild children val headers sample with
        | none => none
        | some (tested, outcome) => some (featureIndex headers feature :: tested, outcome)
/-- The child lookup of `traverse`. -/
def traverseChild :
    List (String × Node) → String → List String → List String →
      Option (List Nat × Option String)
  | [], _, _, _ => some ([], none)
  | (k, child) :: rest, val, headers, sample =>
    if val = k then traverse child headers sample else traverseChild rest val headers sample
end

/-- The value `predict` returns for a traversal outcome: the leaf label, or the
sentinel when a child was missing. -/
def outcomeValue (out : List Nat × Option String) : String :=
  match out.2 with
  | some label => label
  | none => "Unknown"

/-- Distinct feature columns of `hs` are looked up at distinct positions of `H`. -/
def Separated (hs H : List String) : Prop :=
  ∀ i1 i2, i1 < hs.length - 1 → i2 < hs.length - 1 →
    featureIndex H (hs.getD i1 "") = featureIndex H (hs.getD i2 "") → i1 = i2


/-- Headers in which the two feature columns carry the same name. -/
def dupHeaders : List String := ["a", "a", "y"]

/-- Two rows whose second feature column determines the label. -/
def dupData : List Row := [["p", "q", "no"], ["p", "r", "yes"]]


/-- The selection loop of `buildTree` on the gains as a run computes them.
`gain i` is the `float64` value the call `informationGain(data, i)` returned
(`none` if it panicked); the values live in any linearly ordered type, so no
rounding behaviour is assumed (the gains of the source are finite, never NaN,
so `>` compares them as a linear order does).  `remaining` iterations are left
at index `i`:
`for ; i < len(headers)-1; i++ { gain := informationGain(data, i); if gain > bestGain {...} }`. -/
def gainLoopOn {α : Type} [LinearOrder α] (gain : Nat → Option α) :
    Nat → Nat → α → Int → Option (α × Int)
  | 0, _, bestGain, bestIndex => some (bestGain, bestIndex)
  | remaining + 1, i, bestGain, bestIndex =>
    match gain i with
    | none => none
    | some g =>
      if g > bestGain then gainLoopOn gain remaining (i + 1) g (i : Int)
      else gainLoopOn gain remaining (i + 1) bestGain bestIndex

/-- The value of `bestIndex` after the selection loop on computed gains;
`init` is the initial `bestGain`, the constant `-1.0` of the source. -/
def selectBestOn {α : Type} [LinearOrder α] (gain : Nat → Option α) (init : α)
    (headers : List String) : Option Int :=
  (gainLoopOn gain (headers.length - 1) 0 init (-1)).map Prod.snd

/-- `buildTree(data, headers)` with the floating-point computation taken as a
parameter: `gain path data i` is the value `informationGain(data, i)` returns
in the call reached through the branch values `path`, and `init` is the initial
`bestGain`.  Everything else is the body of `buildTree`. -/
def buildTreeOn {α : Type} [LinearOrder α] (init : α)
    (gain : List String → List Row → Nat → Option α) (ord : List String → IterOrder)
    (data : List Row) (headers : List String) : Option Node :=
  match collectLabels data [] with
  | none => none
  | some labels =>
    match labels with
    | [label] => some (leafNode label)
    | _ =>
      if headers.length = 1 then
        (mostCommonLabel (ord []) data).map leafNode
      else
        match selectBestOn (gain [] data) init headers with
        | none => none
        | some bestIndex =>
          if bestIndex < 0 then none
          else
            match hf : headers[bestIndex.toNat]? with
            | none => none
            | some bestFeature =>
              match splitData data bestIndex.toNat with
              | none => none
              | some splits =>
                (attachChildren
                  (fun val newSubset =>
                    buildTreeOn init (fun path => gain (val :: path))
                      (fun path => ord (val :: path)) newSubset
                      (removeAt headers bestIndex.toNat))
                  bestIndex.toNat splits).map (internalNode bestFeature)
termination_by headers.length
decreasing_by
  have hlt : bestIndex.toNat < headers.length := by
    rcases Nat.lt_or_ge bestIndex.toNat headers.length with h | h
    · exact h
    · rw [List.getElem?_eq_none h] at hf
      cases hf
  simp only [removeAt, List.length_append, List.length_take, List.length_drop]
  omega

end DecisionTree

/-! ## Theorems -/

namespace DecisionTree

/-! ### Go maps as association lists -/

theorem insertLabel_eq (ks : List String) (k : String) :
    insertLabel ks k = if k ∈ ks then ks else ks ++ [k] := by
  induction ks with
  | nil => simp [insertLabel]
  | cons x xs ih =>
    by_cases hx : x = k
    · simp [insertLabel, hx]
    · have hx' : ¬ k = x := fun h => hx h.symm
      by_cases hk : k ∈ xs
      · simp [insertLabel, hx, hx', hk, ih]
      · simp [insertLabel, hx, hx', hk, ih]

theorem keys_upsert {β : Type} (d : β) (f : β → β) (m : List (String × β)) (k : String) :
    (upsert d f m k).map Prod.fst = insertLabel (m.map Prod.fst) k := by
  induction m with
  | nil => simp [upsert, insertLabel]
  | cons p rest ih =>
    obtain ⟨k', v⟩ := p
    by_cases hk : k' = k
    · simp [upsert, insertLabel, hk]
    · simp [upsert, insertLabel, hk, ih]

theorem lookup_cons_ite {β : Type} (a k : String) (b : β) (es : List (String × β)) :
    List.lookup a ((k, b) :: es) = if a = k then some b else List.lookup a es := by
  rw [List.lookup_cons]
  by_cases h : a = k
  · simp [h]
  · have hb : (a == k) = false := by simpa using h
    simp [h, hb]

theorem lookup_upsert {β : Type} (d : β) (f : β → β) (m : List (String × β)) (k k' : String) :
    (upsert d f m k).lookup k' =
      if k' = k then some (f ((m.lookup k).getD d)) else m.lookup k' := by
  induction m with
  | nil =>
    by_cases h : k' = k
    · simp [upsert, lookup_cons_ite, h]
    · simp [upsert, lookup_cons_ite, h]
  | cons p rest ih =>
    obtain ⟨k0, v⟩ := p
    by_cases hk : k0 = k
    · subst hk
      by_cases h : k' = k0
      · simp [upsert, lookup_cons_ite, h]
      · simp [upsert, lookup_cons_ite, h]
    · have hk2 : ¬ k = k0 := fun h => hk h.symm
      by_cases h : k' = k
      · subst h
        simp [upsert, lookup_cons_ite, hk, hk2, ih]
      · by_cases h0 : k' = k0
        · simp [upsert, lookup_cons_ite, hk, h, h0]
        · simp [upsert, lookup_cons_ite, hk, h, h0, ih]

theorem increment_eq_upsert (m : List (String × Nat)) (k : String) :
    increment m k = upsert 0 (fun n => n + 1) m k := by
  induction m with
  | nil => simp [increment, upsert]
  | cons p rest ih =>
    obtain ⟨k', v⟩ := p
    by_cases hk : k' = k
    · simp [increment, upsert, hk]
    · simp [increment, upsert, hk, ih]

theorem appendRow_eq_upsert (m : List (String × List Row)) (k : String) (row : Row) :
    appendRow m k row = upsert [] (fun rows => rows ++ [row]) m k := by
  induction m with
  | nil => simp [appendRow, upsert]
  | cons p rest ih =>
    obtain ⟨k', v⟩ := p
    by_cases hk : k' = k
    · simp [appendRow, upsert, hk]
    · simp [appendRow, upsert, hk, ih]

end DecisionTree

namespace DecisionTree

theorem nodup_insertLabel (ks : List String) (k : String) (h : ks.Nodup) :
    (insertLabel ks k).Nodup := by
  rw [insertLabel_eq]
  by_cases hk : k ∈ ks
  · simpa [hk] using h
  · simp only [hk, if_false]
    exact List.Nodup.append h (List.nodup_singleton k) (by simpa using hk)

theorem mem_insertLabel (ks : List String) (k x : String) :
    x ∈ insertLabel ks k ↔ x ∈ ks ∨ x = k := by
  rw [insertLabel_eq]
  by_cases hk : k ∈ ks
  · simp only [hk, if_true]
    constructor
    · exact fun h => Or.inl h
    · rintro (h | h)
      · exact h
      · exact h ▸ hk
  · simp [hk]

theorem nodup_foldl_insertLabel (ls ks : List String) (h : ks.Nodup) :
    (ls.foldl insertLabel ks).Nodup := by
  induction ls generalizing ks with
  | nil => simpa using h
  | cons l rest ih => exact ih _ (nodup_insertLabel ks l h)

theorem mem_foldl_insertLabel (ls ks : List String) (x : String) :
    x ∈ ls.foldl insertLabel ks ↔ x ∈ ks ∨ x ∈ ls := by
  induction ls generalizing ks with
  | nil => simp
  | cons l rest ih =>
    simp only [List.foldl_cons, ih, mem_insertLabel, List.mem_cons]
    tauto

/-- The map obtained by running `m[key x] = F x (m[key x])` over the items `xs`. -/
theorem keys_foldl_upsert {α β : Type} (d : β) (F : α → β → β) (key : α → String)
    (xs : List α) (m : List (String × β)) :
    (xs.foldl (fun acc x => upsert d (F x) acc (key x)) m).map Prod.fst =
      (xs.map key).foldl insertLabel (m.map Prod.fst) := by
  induction xs generalizing m with
  | nil => simp
  | cons x rest ih => simp only [List.foldl_cons, List.map_cons, ih, keys_upsert]

theorem lookup_foldl_upsert {α β : Type} (d : β) (F : α → β → β) (key : α → String)
    (xs : List α) (m : List (String × β)) (k : String) :
    (xs.foldl (fun acc x => upsert d (F x) acc (key x)) m).lookup k =
      if k ∈ xs.map key then
        some ((xs.filter (fun x => key x = k)).foldl (fun acc x => F x acc)
          ((m.lookup k).getD d))
      else m.lookup k := by
  induction xs generalizing m with
  | nil => simp
  | cons x rest ih =>
    simp only [List.foldl_cons, ih, lookup_upsert, List.map_cons, List.mem_cons]
    by_cases hx : key x = k
    · subst hx
      by_cases hr : key x ∈ rest.map key
      · simp [hr, List.filter_cons]
      · have hnil : rest.filter (fun y => key y = key x) = [] := by
          rw [List.filter_eq_nil_iff]
          intro y hy hyk
          exact hr (List.mem_map.2 ⟨y, hy, by simpa using hyk⟩)
        simp [hr, List.filter_cons, hnil]
    · have hx' : ¬ k = key x := fun h => hx h.symm
      by_cases hr : k ∈ rest.map key
      · simp [hr, hx, hx', List.filter_cons]
      · simp [hr, hx, hx']

theorem mem_of_lookup {β : Type} (m : List (String × β)) (k : String) (v : β)
    (h : m.lookup k = some v) : (k, v) ∈ m := by
  induction m with
  | nil => simp at h
  | cons p rest ih =>
    obtain ⟨k0, v0⟩ := p
    rw [lookup_cons_ite] at h
    by_cases hk : k = k0
    · simp only [hk, if_true, Option.some.injEq] at h
      simp [hk, h]
    · simp only [hk, if_false] at h
      exact List.mem_cons_of_mem _ (ih h)

theorem lookup_of_mem {β : Type} (m : List (String × β)) (k : String) (v : β)
    (hnd : (m.map Prod.fst).Nodup) (h : (k, v) ∈ m) : m.lookup k = some v := by
  induction m with
  | nil => simp at h
  | cons p rest ih =>
    obtain ⟨k0, v0⟩ := p
    rw [lookup_cons_ite]
    simp only [List.map_cons, List.nodup_cons] at hnd
    rcases List.mem_cons.1 h with heq | hmem
    · simp only [Prod.mk.injEq] at heq
      simp [heq.1, heq.2]
    · have hne : k ≠ k0 := by
        intro hk
        exact hnd.1 (List.mem_map.2 ⟨(k, v), hmem, hk⟩)
      simp only [hne, if_false]
      exact ih hnd.2 hmem

theorem lookup_eq_none_iff_not_mem {β : Type} (m : List (String × β)) (k : String) :
    m.lookup k = none ↔ k ∉ m.map Prod.fst := by
  induction m with
  | nil => simp
  | cons p rest ih =>
    obtain ⟨k0, v0⟩ := p
    rw [lookup_cons_ite]
    by_cases hk : k = k0
    · simp [hk]
    · simp [hk, ih]

/-- An association list is determined by its keys once each value is known as
a function of its key. -/
theorem assoc_eq_map_keys {β : Type} (m : List (String × β)) (g : String → β)
    (h : ∀ k v, (k, v) ∈ m → v = g k) :
    m = (m.map Prod.fst).map (fun k => (k, g k)) := by
  induction m with
  | nil => rfl
  | cons p rest ih =>
    obtain ⟨k0, v0⟩ := p
    have h0 : v0 = g k0 := h k0 v0 (List.mem_cons_self _ _)
    have hrest := ih (fun k v hm => h k v (List.mem_cons_of_mem _ hm))
    simp only [List.map_cons, List.cons.injEq, Prod.mk.injEq, true_and]
    exact ⟨h0, hrest⟩

end DecisionTree

namespace DecisionTree

/-! ### The loops over rows, on well-formed rows -/

theorem getLast?_eq_labelOf (r : Row) (h : r ≠ []) : r.getLast? = some (labelOf r) := by
  cases r with
  | nil => exact absurd rfl h
  | cons a rest =>
    rw [List.getLast?_eq_getLast _ (by simp)]
    simp [labelOf, List.getLastD_eq_getLast?, List.getLast?_eq_getLast]

theorem getElem?_eq_fieldOf (c : Nat) (r : Row) (h : c < r.length) :
    r[c]? = some (fieldOf c r) := by
  simp [fieldOf, List.getD_eq_getElem?_getD, List.getElem?_eq_getElem h]

theorem nodup_firstSeen (xs : List String) : (firstSeen xs).Nodup :=
  nodup_foldl_insertLabel xs [] List.nodup_nil

theorem mem_firstSeen (xs : List String) (x : String) : x ∈ firstSeen xs ↔ x ∈ xs := by
  simp [firstSeen, mem_foldl_insertLabel]

theorem countLabels_eq_foldl (data : List Row) (m : List (String × Nat))
    (h : ∀ r ∈ data, r ≠ []) :
    countLabels data m =
      some (data.foldl (fun acc r => upsert 0 (fun n => n + 1) acc (labelOf r)) m) := by
  induction data generalizing m with
  | nil => simp [countLabels]
  | cons r rest ih =>
    have hr : r ≠ [] := h r (List.mem_cons_self _ _)
    simp only [countLabels, getLast?_eq_labelOf r hr, List.foldl_cons, increment_eq_upsert]
    exact ih _ (fun r' hr' => h r' (List.mem_cons_of_mem _ hr'))

theorem countLabels_eq_none (data : List Row) (m : List (String × Nat))
    (h : ∃ r ∈ data, r = []) : countLabels data m = none := by
  induction data generalizing m with
  | nil => simp at h
  | cons r rest ih =>
    cases r with
    | nil => simp [countLabels]
    | cons a as =>
      obtain ⟨r', hr', hnil⟩ := h
      have hmem : r' ∈ rest := by
        rcases List.mem_cons.1 hr' with h1 | h1
        · rw [hnil] at h1; cases h1
        · exact h1
      simp only [countLabels, getLast?_eq_labelOf (a :: as) (by simp)]
      exact ih _ ⟨r', hmem, hnil⟩

theorem collectLabels_eq_foldl (data : List Row) (ks : List String)
    (h : ∀ r ∈ data, r ≠ []) :
    collectLabels data ks = some ((data.map labelOf).foldl insertLabel ks) := by
  induction data generalizing ks with
  | nil => simp [collectLabels]
  | cons r rest ih =>
    have hr : r ≠ [] := h r (List.mem_cons_self _ _)
    simp only [collectLabels, getLast?_eq_labelOf r hr, List.map_cons, List.foldl_cons]
    exact ih _ (fun r' hr' => h r' (List.mem_cons_of_mem _ hr'))

theorem collectLabels_eq_none (data : List Row) (ks : List String)
    (h : ∃ r ∈ data, r = []) : collectLabels data ks = none := by
  induction data generalizing ks with
  | nil => simp at h
  | cons r rest ih =>
    cases r with
    | nil => simp [collectLabels]
    | cons a as =>
      obtain ⟨r', hr', hnil⟩ := h
      have hmem : r' ∈ rest := by
        rcases List.mem_cons.1 hr' with h1 | h1
        · rw [hnil] at h1; cases h1
        · exact h1
      simp only [collectLabels, getLast?_eq_labelOf (a :: as) (by simp)]
      exact ih _ ⟨r', hmem, hnil⟩

theorem splitLoop_eq_foldl (data : List Row) (c : Nat) (m : List (String × List Row))
    (h : ∀ r ∈ data, c < r.length) :
    splitLoop data c m =
      some (data.foldl (fun acc r => upsert [] (fun rows => rows ++ [r]) acc (fieldOf c r)) m) := by
  induction data generalizing m with
  | nil => simp [splitLoop]
  | cons r rest ih =>
    have hr : c < r.length := h r (List.mem_cons_self _ _)
    simp only [splitLoop, getElem?_eq_fieldOf c r hr, List.foldl_cons, appendRow_eq_upsert]
    exact ih _ (fun r' hr' => h r' (List.mem_cons_of_mem _ hr'))

theorem splitLoop_eq_none (data : List Row) (c : Nat) (m : List (String × List Row))
    (h : ∃ r ∈ data, r.length ≤ c) : splitLoop data c m = none := by
  induction data generalizing m with
  | nil => simp at h
  | cons r rest ih =>
    by_cases hr : c < r.length
    · obtain ⟨r', hr', hle⟩ := h
      have hmem : r' ∈ rest := by
        rcases List.mem_cons.1 hr' with h1 | h1
        · rw [h1] at hle; omega
        · exact h1
      simp only [splitLoop, getElem?_eq_fieldOf c r hr]
      exact ih _ ⟨r', hmem, hle⟩
    · simp [splitLoop, List.getElem?_eq_none (Nat.le_of_not_lt hr)]

end DecisionTree

namespace DecisionTree

theorem foldl_upsert_eq_map {α β : Type} (d : β) (F : α → β → β) (key : α → String)
    (xs : List α) :
    xs.foldl (fun acc x => upsert d (F x) acc (key x)) [] =
      (firstSeen (xs.map key)).map
        (fun k => (k, (xs.filter (fun x => key x = k)).foldl (fun acc x => F x acc) d)) := by
  have hkeys := keys_foldl_upsert d F key xs []
  simp only [List.map_nil] at hkeys
  have hnd : ((xs.foldl (fun acc x => upsert d (F x) acc (key x)) []).map Prod.fst).Nodup := by
    rw [hkeys]; exact nodup_firstSeen _
  have hval : ∀ k v, (k, v) ∈ xs.foldl (fun acc x => upsert d (F x) acc (key x)) [] →
      v = (xs.filter (fun x => key x = k)).foldl (fun acc x => F x acc) d := by
    intro k v hmem
    have hl := lookup_of_mem _ k v hnd hmem
    rw [lookup_foldl_upsert] at hl
    have hk : k ∈ xs.map key := by
      have : k ∈ (xs.foldl (fun acc x => upsert d (F x) acc (key x)) []).map Prod.fst :=
        List.mem_map.2 ⟨(k, v), hmem, rfl⟩
      rw [hkeys] at this
      exact (mem_firstSeen _ _).1 this
    simp only [hk, if_true, List.lookup_nil, Option.getD_none, Option.some.injEq] at hl
    exact hl.symm
  have h := assoc_eq_map_keys _ _ hval
  rw [hkeys] at h
  exact h

theorem foldl_succ_eq_length {α : Type} (xs : List α) (n : Nat) :
    xs.foldl (fun acc _ => acc + 1) n = n + xs.length := by
  induction xs generalizing n with
  | nil => simp
  | cons x rest ih => simp only [List.foldl_cons, ih, List.length_cons]; omega

theorem foldl_snoc_eq_append {α : Type} (xs ys : List α) :
    xs.foldl (fun acc x => acc ++ [x]) ys = ys ++ xs := by
  induction xs generalizing ys with
  | nil => simp
  | cons x rest ih => simp [List.foldl_cons, ih]

/-- The counting loop on rows that all have a label: one entry per distinct
label, in order of first occurrence, holding the number of rows with it. -/
theorem countLabels_eq (data : List Row) (h : ∀ r ∈ data, r ≠ []) :
    countLabels data [] =
      some ((firstSeen (data.map labelOf)).map (fun l => (l, labelCount data l))) := by
  rw [countLabels_eq_foldl data [] h, foldl_upsert_eq_map]
  congr 1
  apply List.map_congr_left
  intro l _
  simp [labelCount, foldl_succ_eq_length]

/-- The first loop of `buildTree` on rows that all have a label. -/
theorem collectLabels_eq (data : List Row) (h : ∀ r ∈ data, r ≠ []) :
    collectLabels data [] = some (firstSeen (data.map labelOf)) := by
  rw [collectLabels_eq_foldl data [] h]; rfl

/-- The partition loop on rows that all have column `c`: one group per
distinct value, in order of first occurrence, holding the rows with it. -/
theorem splitData_eq (data : List Row) (c : Nat) (h : ∀ r ∈ data, c < r.length) :
    splitData data c =
      some ((firstSeen (data.map (fieldOf c))).map (fun v => (v, rowsWith data c v))) := by
  rw [splitData, splitLoop_eq_foldl data c [] h, foldl_upsert_eq_map]
  congr 1
  apply List.map_congr_left
  intro v _
  simp [rowsWith, foldl_snoc_eq_append]

end DecisionTree

namespace DecisionTree

/-! ### The numeric functions as sums over the reals -/

theorem toFinset_firstSeen (xs : List String) : (firstSeen xs).toFinset = xs.toFinset := by
  ext x
  simp [mem_firstSeen]

theorem foldl_entropyStep (total : Nat) (counts : List (String × Nat)) (a : ℝ) :
    counts.foldl (entropyStep total) a =
      a + (counts.map (fun kc => entTerm ((kc.2 : ℝ) / (total : ℝ)))).sum := by
  induction counts generalizing a with
  | nil => simp
  | cons kc rest ih =>
    simp only [List.foldl_cons, ih, List.map_cons, List.sum_cons, entropyStep, entTerm]
    ring

/-- The entropy loop computes the specification's sum, on rows that all have
a label (the empty dataset included: both sides are 0). -/
theorem entropy_eq (data : List Row) (h : ∀ r ∈ data, r ≠ []) :
    entropy data = some (entropyValue data) := by
  unfold entropy
  by_cases h0 : data.length = 0
  · have : data = [] := List.length_eq_zero.1 h0
    subst this
    simp [entropyValue]
  · simp only [h0, if_false, countLabels_eq data h, foldl_entropyStep, zero_add,
      List.map_map, Option.some.injEq]
    rw [entropyValue, ← toFinset_firstSeen, List.sum_toFinset _ (nodup_firstSeen _)]
    rfl

theorem entropy_eq_none (data : List Row) (h : ∃ r ∈ data, r = []) : entropy data = none := by
  unfold entropy
  have h0 : data.length ≠ 0 := by
    obtain ⟨r, hr, _⟩ := h
    intro hl
    rw [List.length_eq_zero.1 hl] at hr
    cases hr
  simp [h0, countLabels_eq_none data [] h]

theorem weightedLoop_eq (total : Nat) (splits : List (String × List Row)) (acc : ℝ)
    (h : ∀ kv ∈ splits, ∀ r ∈ kv.2, r ≠ []) :
    weightedLoop total splits acc =
      some (acc + (splits.map (fun kv =>
        ((kv.2.length : ℝ) / (total : ℝ)) * entropyValue kv.2)).sum) := by
  induction splits generalizing acc with
  | nil => simp [weightedLoop]
  | cons kv rest ih =>
    obtain ⟨v, subset⟩ := kv
    have hs : ∀ r ∈ subset, r ≠ [] := h (v, subset) (List.mem_cons_self _ _)
    simp only [weightedLoop, entropy_eq subset hs, List.map_cons, List.sum_cons]
    rw [ih _ (fun kv hkv => h kv (List.mem_cons_of_mem _ hkv))]
    congr 1
    ring

theorem mem_rowsWith (data : List Row) (c : Nat) (v : String) (r : Row) :
    r ∈ rowsWith data c v ↔ r ∈ data ∧ fieldOf c r = v := by
  simp [rowsWith, List.mem_filter]

/-- The information-gain computation yields the specification's value, on
rows that all have column `c`. -/
theorem informationGain_eq (data : List Row) (c : Nat) (h : ∀ r ∈ data, c < r.length) :
    informationGain data c = some (gainValue data c) := by
  have hne : ∀ r ∈ data, r ≠ [] := by
    intro r hr hnil
    have := h r hr
    rw [hnil] at this
    simp at this
  unfold informationGain
  simp only [entropy_eq data hne, splitData_eq data c h]
  rw [weightedLoop_eq]
  · simp only [zero_add, List.map_map, Option.some.injEq, gainValue, weightedValue]
    rw [← toFinset_firstSeen, List.sum_toFinset _ (nodup_firstSeen _)]
    rfl
  · intro kv hkv r hr
    obtain ⟨v, _, rfl⟩ := List.mem_map.1 hkv
    exact hne r ((mem_rowsWith data c v r).1 hr).1

end DecisionTree

namespace DecisionTree

/-! ### Real-analysis facts about the entropy summand -/

theorem entTerm_eq_negMulLog (p : ℝ) : entTerm p = (Real.log 2)⁻¹ * Real.negMulLog p := by
  simp only [entTerm, Real.logb, Real.negMulLog]
  field_simp

theorem log_two_pos : 0 < Real.log 2 := Real.log_pos (by norm_num)

theorem entTerm_zero : entTerm 0 = 0 := by simp [entTerm]

theorem entTerm_one : entTerm 1 = 0 := by simp [entTerm]

theorem entTerm_nonneg (p : ℝ) (h0 : 0 ≤ p) (h1 : p ≤ 1) : 0 ≤ entTerm p := by
  have hlog : Real.logb 2 p ≤ 0 := Real.logb_nonpos (by norm_num) h0 h1
  have : p * Real.logb 2 p ≤ 0 := mul_nonpos_of_nonneg_of_nonpos h0 hlog
  simp only [entTerm]
  linarith

theorem entTerm_eq_zero_iff (p : ℝ) (h0 : 0 < p) (h1 : p ≤ 1) : entTerm p = 0 ↔ p = 1 := by
  constructor
  · intro h
    simp only [entTerm, neg_eq_zero, mul_eq_zero] at h
    rcases h with h | h
    · exact absurd h (ne_of_gt h0)
    · rw [Real.logb_eq_zero] at h
      rcases h with h | h | h | h | h | h
      · norm_num at h
      · norm_num at h
      · norm_num at h
      · exact absurd h (ne_of_gt h0)
      · exact h
      · linarith
  · intro h
    rw [h]
    exact entTerm_one

theorem concaveOn_entTerm : ConcaveOn ℝ (Set.Ici 0) entTerm := by
  have h := Real.concaveOn_negMulLog.smul (le_of_lt (inv_pos.2 log_two_pos))
  have heq : (fun x => (Real.log 2)⁻¹ • Real.negMulLog x) = entTerm := by
    funext x
    simp [entTerm_eq_negMulLog]
  rw [heq] at h
  exact h

/-- Jensen's inequality for the entropy summand, with weights `w` summing to 1. -/
theorem entTerm_jensen (S : Finset String) (w x : String → ℝ)
    (hw : ∀ v ∈ S, 0 ≤ w v) (hsum : ∑ v in S, w v = 1) (hx : ∀ v ∈ S, 0 ≤ x v) :
    ∑ v in S, w v * entTerm (x v) ≤ entTerm (∑ v in S, w v * x v) := by
  have h := concaveOn_entTerm.le_map_sum hw hsum (fun v hv => Set.mem_Ici.2 (hx v hv))
  simpa [smul_eq_mul] using h

end DecisionTree

namespace DecisionTree

/-! ### Counting rows by group -/

theorem labelCount_eq_countP (data : List Row) (l : String) :
    labelCount data l = data.countP (fun r => decide (labelOf r = l)) := by
  simp [labelCount, List.countP_eq_length_filter]

/-- Splitting a list by the value of a key and counting in each part counts
every element once. -/
theorem sum_countP_fiber {α : Type} (xs : List α) (key : α → String) (p : α → Bool)
    (S : Finset String) (hS : ∀ x ∈ xs, key x ∈ S) :
    ∑ v in S, (xs.filter (fun x => decide (key x = v))).countP p = xs.countP p := by
  induction xs with
  | nil => simp
  | cons x rest ih =>
    have hx : key x ∈ S := hS x (List.mem_cons_self _ _)
    have hrest := ih (fun y hy => hS y (List.mem_cons_of_mem _ hy))
    have hstep : ∀ v ∈ S, ((x :: rest).filter (fun y => decide (key y = v))).countP p =
        (rest.filter (fun y => decide (key y = v))).countP p +
          (if key x = v then (if p x = true then 1 else 0) else 0) := by
      intro v _
      by_cases hv : key x = v
      · simp [List.filter_cons, hv, List.countP_cons]
      · simp [List.filter_cons, hv]
    rw [Finset.sum_congr rfl hstep, Finset.sum_add_distrib, hrest, Finset.sum_ite_eq S (key x)]
    simp [hx, List.countP_cons]

theorem sum_length_rowsWith (data : List Row) (c : Nat) :
    ∑ v in (data.map (fieldOf c)).toFinset, (rowsWith data c v).length = data.length := by
  have h := sum_countP_fiber data (fieldOf c) (fun _ => true) (data.map (fieldOf c)).toFinset
    (fun x hx => List.mem_toFinset.2 (List.mem_map_of_mem _ hx))
  simpa [rowsWith, List.countP_eq_length_filter] using h

theorem sum_labelCount_rowsWith (data : List Row) (c : Nat) (l : String) :
    ∑ v in (data.map (fieldOf c)).toFinset, labelCount (rowsWith data c v) l =
      labelCount data l := by
  have h := sum_countP_fiber data (fieldOf c) (fun r => decide (labelOf r = l))
    (data.map (fieldOf c)).toFinset
    (fun x hx => List.mem_toFinset.2 (List.mem_map_of_mem _ hx))
  simpa [rowsWith, labelCount_eq_countP] using h

theorem sum_labelCount (data : List Row) :
    ∑ l in (data.map labelOf).toFinset, labelCount data l = data.length := by
  have h := sum_countP_fiber data labelOf (fun _ => true) (data.map labelOf).toFinset
    (fun x hx => List.mem_toFinset.2 (List.mem_map_of_mem _ hx))
  simpa [labelCount, List.countP_eq_length_filter] using h

theorem labelCount_pos (data : List Row) (l : String) (h : l ∈ data.map labelOf) :
    0 < labelCount data l := by
  obtain ⟨r, hr, hl⟩ := List.mem_map.1 h
  rw [labelCount, List.length_pos_iff_exists_mem]
  exact ⟨r, List.mem_filter.2 ⟨hr, by simpa using hl⟩⟩

theorem labelCount_le (data : List Row) (l : String) : labelCount data l ≤ data.length :=
  List.length_filter_le _ _

theorem labelCount_eq_zero (data : List Row) (l : String) (h : l ∉ data.map labelOf) :
    labelCount data l = 0 := by
  rw [labelCount, List.length_eq_zero, List.filter_eq_nil_iff]
  intro r hr hl
  exact h (List.mem_map.2 ⟨r, hr, by simpa using hl⟩)

theorem rowsWith_length_pos (data : List Row) (c : Nat) (v : String)
    (h : v ∈ data.map (fieldOf c)) : 0 < (rowsWith data c v).length := by
  obtain ⟨r, hr, hv⟩ := List.mem_map.1 h
  rw [List.length_pos_iff_exists_mem]
  exact ⟨r, (mem_rowsWith data c v r).2 ⟨hr, hv⟩⟩

end DecisionTree

namespace DecisionTree

/-! ### Entropy and information gain: bounds -/

theorem entropyValue_nonneg (data : List Row) : 0 ≤ entropyValue data := by
  apply Finset.sum_nonneg
  intro l _
  by_cases h0 : data.length = 0
  · simp [h0, entTerm_zero]
  · have hN : (0 : ℝ) < data.length := by exact_mod_cast Nat.pos_of_ne_zero h0
    apply entTerm_nonneg
    · positivity
    · rw [div_le_one hN]
      exact_mod_cast labelCount_le data l

/-- The entropy of a group, written as a sum over the labels of the whole
dataset (labels absent from the group contribute 0). -/
theorem entropyValue_rowsWith (data : List Row) (c : Nat) (v : String) :
    entropyValue (rowsWith data c v) =
      ∑ l in (data.map labelOf).toFinset,
        entTerm ((labelCount (rowsWith data c v) l : ℝ) / ((rowsWith data c v).length : ℝ)) := by
  unfold entropyValue
  apply Finset.sum_subset
  · intro l hl
    rw [List.mem_toFinset] at hl ⊢
    obtain ⟨r, hr, hrl⟩ := List.mem_map.1 hl
    exact List.mem_map.2 ⟨r, ((mem_rowsWith data c v r).1 hr).1, hrl⟩
  · intro l _ hl
    rw [List.mem_toFinset] at hl
    rw [labelCount_eq_zero _ l hl]
    simp [entTerm_zero]

theorem weightedValue_nonneg (data : List Row) (c : Nat) : 0 ≤ weightedValue data c := by
  apply Finset.sum_nonneg
  intro v _
  exact mul_nonneg (by positivity) (entropyValue_nonneg _)

/-- Conditioning on a column does not increase the entropy. -/
theorem weightedValue_le_entropyValue (data : List Row) (c : Nat) :
    weightedValue data c ≤ entropyValue data := by
  by_cases h0 : data.length = 0
  · have : data = [] := List.length_eq_zero.1 h0
    subst this
    simp [weightedValue, entropyValue]
  have hN : (0 : ℝ) < data.length := by exact_mod_cast Nat.pos_of_ne_zero h0
  have hNne : (data.length : ℝ) ≠ 0 := ne_of_gt hN
  have hwsum : ∑ v in (data.map (fieldOf c)).toFinset,
      ((rowsWith data c v).length : ℝ) / (data.length : ℝ) = 1 := by
    rw [← Finset.sum_div, ← Nat.cast_sum, sum_length_rowsWith, div_self hNne]
  have hcomm : weightedValue data c =
      ∑ l in (data.map labelOf).toFinset, ∑ v in (data.map (fieldOf c)).toFinset,
        ((rowsWith data c v).length : ℝ) / (data.length : ℝ) *
          entTerm ((labelCount (rowsWith data c v) l : ℝ) / ((rowsWith data c v).length : ℝ)) := by
    unfold weightedValue
    rw [Finset.sum_comm]
    apply Finset.sum_congr rfl
    intro v _
    rw [entropyValue_rowsWith, Finset.mul_sum]
  rw [hcomm]
  unfold entropyValue
  apply Finset.sum_le_sum
  intro l _
  have hj := entTerm_jensen (data.map (fieldOf c)).toFinset
    (fun v => ((rowsWith data c v).length : ℝ) / (data.length : ℝ))
    (fun v => (labelCount (rowsWith data c v) l : ℝ) / ((rowsWith data c v).length : ℝ))
    (fun v _ => by positivity) hwsum (fun v _ => by positivity)
  have harg : ∑ v in (data.map (fieldOf c)).toFinset,
      ((rowsWith data c v).length : ℝ) / (data.length : ℝ) *
        ((labelCount (rowsWith data c v) l : ℝ) / ((rowsWith data c v).length : ℝ)) =
      (labelCount data l : ℝ) / (data.length : ℝ) := by
    rw [← sum_labelCount_rowsWith data c l, Nat.cast_sum, Finset.sum_div]
    apply Finset.sum_congr rfl
    intro v hv
    have hpos : (0 : ℝ) < (rowsWith data c v).length := by
      exact_mod_cast rowsWith_length_pos data c v (List.mem_toFinset.1 hv)
    field_simp
    ring
  simp only [harg] at hj
  exact hj

theorem gainValue_nonneg (data : List Row) (c : Nat) : 0 ≤ gainValue data c := by
  have := weightedValue_le_entropyValue data c
  unfold gainValue
  linarith

theorem gainValue_le_entropyValue (data : List Row) (c : Nat) :
    gainValue data c ≤ entropyValue data := by
  have := weightedValue_nonneg data c
  unfold gainValue
  linarith

end DecisionTree

namespace DecisionTree

/-! ### The selection loop -/

/-- What the selection loop returns when every gain it needs is defined: the
running best is either untouched (no candidate beat it) or it is the first
candidate attaining the largest gain, which then beats the initial best. -/
theorem gainLoop_spec (data : List Row) (g : Nat → ℝ) (n i : Nat) (bg : ℝ) (bi : Int)
    (hg : ∀ j, i ≤ j → j < i + n → informationGain data j = some (g j)) :
    ∃ bg' bi', gainLoop data n i bg bi = some (bg', bi') ∧
      ((bi' = bi ∧ bg' = bg ∧ ∀ j, i ≤ j → j < i + n → g j ≤ bg) ∨
       (∃ b, i ≤ b ∧ b < i + n ∧ bi' = (b : Int) ∧ bg' = g b ∧ bg < g b ∧
          (∀ j, i ≤ j → j < i + n → g j ≤ g b) ∧ (∀ j, i ≤ j → j < b → g j < g b))) := by
  induction n generalizing i bg bi with
  | zero =>
    refine ⟨bg, bi, by simp [gainLoop], Or.inl ⟨rfl, rfl, ?_⟩⟩
    intro j h1 h2
    omega
  | succ n ih =>
    have hgi : informationGain data i = some (g i) := hg i (Nat.le_refl _) (by omega)
    have hg' : ∀ j, i + 1 ≤ j → j < i + 1 + n → informationGain data j = some (g j) :=
      fun j h1 h2 => hg j (by omega) (by omega)
    by_cases hgt : g i > bg
    · obtain ⟨bg', bi', hrun, hcase⟩ := ih (i + 1) (g i) (i : Int) hg'
      refine ⟨bg', bi', by simp [gainLoop, hgi, hgt, hrun], Or.inr ?_⟩
      rcases hcase with ⟨hbi, hbg, hall⟩ | ⟨b, hb1, hb2, hbi, hbg, hlt, hall, hfirst⟩
      · refine ⟨i, Nat.le_refl _, by omega, hbi, hbg, hgt, ?_, ?_⟩
        · intro j h1 h2
          rcases Nat.eq_or_lt_of_le h1 with h | h
          · rw [← h]
          · exact hall j h (by omega)
        · intro j h1 h2
          omega
      · refine ⟨b, by omega, by omega, hbi, hbg, lt_trans hgt hlt, ?_, ?_⟩
        · intro j h1 h2
          rcases Nat.eq_or_lt_of_le h1 with h | h
          · rw [← h]; exact le_of_lt hlt
          · exact hall j h (by omega)
        · intro j h1 h2
          rcases Nat.eq_or_lt_of_le h1 with h | h
          · rw [← h]; exact hlt
          · exact hfirst j h h2
    · obtain ⟨bg', bi', hrun, hcase⟩ := ih (i + 1) bg bi hg'
      refine ⟨bg', bi', by simp [gainLoop, hgi, hgt, hrun], ?_⟩
      rcases hcase with ⟨hbi, hbg, hall⟩ | ⟨b, hb1, hb2, hbi, hbg, hlt, hall, hfirst⟩
      · refine Or.inl ⟨hbi, hbg, ?_⟩
        intro j h1 h2
        rcases Nat.eq_or_lt_of_le h1 with h | h
        · rw [← h]; exact not_lt.1 hgt
        · exact hall j h (by omega)
      · refine Or.inr ⟨b, by omega, by omega, hbi, hbg, hlt, ?_, ?_⟩
        · intro j h1 h2
          rcases Nat.eq_or_lt_of_le h1 with h | h
          · rw [← h]; exact le_trans (not_lt.1 hgt) (le_of_lt hlt)
          · exact hall j h (by omega)
        · intro j h1 h2
          rcases Nat.eq_or_lt_of_le h1 with h | h
          · rw [← h]; exact lt_of_le_of_lt (not_lt.1 hgt) hlt
          · exact hfirst j h h2

/-- On rows as long as the headers, with at least one feature column, the
selection loop ends on the first feature index of largest gain. -/
theorem selectBest_spec (data : List Row) (headers : List String)
    (hlen : ∀ r ∈ data, r.length = headers.length) (hk : 2 ≤ headers.length) :
    ∃ b : Nat, selectBest data headers = some (b : Int) ∧ b < headers.length - 1 ∧
      (∀ j, j < headers.length - 1 → gainValue data j ≤ gainValue data b) ∧
      (∀ j, j < b → gainValue data j < gainValue data b) := by
  have hg : ∀ j, 0 ≤ j → j < 0 + (headers.length - 1) →
      informationGain data j = some (gainValue data j) := by
    intro j _ hj
    apply informationGain_eq
    intro r hr
    rw [hlen r hr]
    omega
  obtain ⟨bg', bi', hrun, hcase⟩ :=
    gainLoop_spec data (gainValue data) (headers.length - 1) 0 (-1) (-1) hg
  rcases hcase with ⟨_, _, hall⟩ | ⟨b, _, hb2, hbi, _, _, hall, hfirst⟩
  · have h0 := hall 0 (Nat.le_refl _) (by omega)
    have := gainValue_nonneg data 0
    linarith
  · refine ⟨b, by simp [selectBest, hrun, hbi], by omega, ?_, ?_⟩
    · intro j hj
      exact hall j (Nat.zero_le _) (by omega)
    · intro j hj
      exact hfirst j (Nat.zero_le _) hj

end DecisionTree

namespace DecisionTree

/-! ### Unfolding `buildTree` -/

theorem buildTree_pure (ord : List String → IterOrder) (data : List Row)
    (headers : List String) (label : String) (h : collectLabels data [] = some [label]) :
    buildTree ord data headers = some (leafNode label) := by
  rw [buildTree]
  simp [h]

theorem buildTree_majority (ord : List String → IterOrder) (data : List Row)
    (headers : List String) (labels : List String) (h : collectLabels data [] = some labels)
    (hl : labels.length ≠ 1) (hh : headers.length = 1) :
    buildTree ord data headers = (mostCommonLabel (ord []) data).map leafNode := by
  rw [buildTree]
  simp only [h]
  split
  · simp at hl
  · simp [hh]

theorem buildTree_split (ord : List String → IterOrder) (data : List Row)
    (headers : List String) (labels : List String) (b : Nat) (feature : String)
    (splits : List (String × List Row))
    (h : collectLabels data [] = some labels) (hl : labels.length ≠ 1)
    (hh : headers.length ≠ 1) (hsel : selectBest data headers = some (b : Int))
    (hf : headers[b]? = some feature) (hs : splitData data b = some splits) :
    buildTree ord data headers =
      (attachChildren
        (fun val newSubset =>
          buildTree (fun path => ord (val :: path)) newSubset (removeAt headers b))
        b splits).map (internalNode feature) := by
  rw [buildTree]
  simp only [h]
  split
  · simp at hl
  · simp only [hh, if_false, hsel]
    have hnn : ¬ ((b : Int) < 0) := by omega
    simp only [hnn, if_false, Int.toNat_ofNat]
    split
    · rename_i hnone
      rw [hf] at hnone
      cases hnone
    · rename_i f hsome
      rw [hf] at hsome
      cases hsome
      simp [hs]

end DecisionTree

namespace DecisionTree

/-! ### One step of `buildTree` on well-formed input -/

theorem removeAt_length (xs : List String) (i : Nat) (h : i < xs.length) :
    (removeAt xs i).length = xs.length - 1 := by
  simp only [removeAt, List.length_append, List.length_take, List.length_drop]
  omega

theorem WellFormed.rows_ne_nil {data : List Row} {headers : List String}
    (h : WellFormed data headers) : ∀ r ∈ data, r ≠ [] := by
  intro r hr hnil
  have := h.2 r hr
  have h1 := h.1
  rw [hnil] at this
  simp at this
  omega

theorem wellFormed_childData (data : List Row) (headers : List String) (b : Nat) (v : String)
    (h : WellFormed data headers) (hk : 2 ≤ headers.length) (hb : b < headers.length) :
    WellFormed (childData data b v) (removeAt headers b) := by
  constructor
  · rw [removeAt_length headers b hb]; omega
  · intro r hr
    obtain ⟨r0, hr0, rfl⟩ := List.mem_map.1 hr
    have hlen := h.2 r0 ((mem_rowsWith data b v r0).1 hr0).1
    rw [removeAt_length r0 b (by omega), removeAt_length headers b hb, hlen]

/-- Filling the children map succeeds when every child build does, and the
result pairs each key with the node built for it. -/
theorem attachChildren_spec (build : String → List Row → Option Node) (b : Nat)
    (G : String → List Row) (Q : String → Node → Prop) (keys : List String)
    (h : ∀ v ∈ keys, ∃ c, build v ((G v).map (fun row => removeAt row b)) = some c ∧ Q v c) :
    ∃ children, attachChildren build b (keys.map (fun v => (v, G v))) = some children ∧
      children.map Prod.fst = keys ∧
      ∀ v c, (v, c) ∈ children →
        build v ((G v).map (fun row => removeAt row b)) = some c ∧ Q v c := by
  induction keys with
  | nil => exact ⟨[], by simp [attachChildren], rfl, by simp⟩
  | cons k rest ih =>
    obtain ⟨c, hc, hq⟩ := h k (List.mem_cons_self _ _)
    obtain ⟨children, hrun, hkeys, hall⟩ := ih (fun v hv => h v (List.mem_cons_of_mem _ hv))
    refine ⟨(k, c) :: children, by simp [attachChildren, hc, hrun], by simp [hkeys], ?_⟩
    intro v c' hmem
    rcases List.mem_cons.1 hmem with heq | hmem'
    · simp only [Prod.mk.injEq] at heq
      rw [heq.1, heq.2]
      exact ⟨hc, hq⟩
    · exact hall v c' hmem'

/-- The recursive-split step: on well-formed input with at least one feature
column and labels that are not uniform, `buildTree` selects the first index of
largest gain and, provided every child build succeeds, returns the Internal
node over the children built from the projected groups. -/
theorem buildTree_step (ord : List String → IterOrder) (data : List Row)
    (headers : List String) (Q : String → Node → Prop)
    (hwf : WellFormed data headers) (hk : 2 ≤ headers.length)
    (hl : (firstSeen (data.map labelOf)).length ≠ 1)
    (hchild : ∀ b, b < headers.length - 1 → ∀ v ∈ firstSeen (data.map (fieldOf b)),
      ∃ c, buildTree (fun path => ord (v :: path)) (childData data b v) (removeAt headers b)
        = some c ∧ Q v c) :
    ∃ (b : Nat) (feature : String) (children : List (String × Node)),
      selectBest data headers = some (b : Int) ∧ b < headers.length - 1 ∧
      (∀ j, j < headers.length - 1 → gainValue data j ≤ gainValue data b) ∧
      (∀ j, j < b → gainValue data j < gainValue data b) ∧
      headers[b]? = some feature ∧
      buildTree ord data headers = some (internalNode feature children) ∧
      children.map Prod.fst = firstSeen (data.map (fieldOf b)) ∧
      ∀ v c, (v, c) ∈ children →
        buildTree (fun path => ord (v :: path)) (childData data b v) (removeAt headers b)
          = some c ∧ Q v c := by
  obtain ⟨b, hsel, hb, hmax, hfirst⟩ := selectBest_spec data headers hwf.2 hk
  have hbl : b < headers.length := by omega
  have hcols : ∀ r ∈ data, b < r.length := by
    intro r hr
    rw [hwf.2 r hr]
    exact hbl
  obtain ⟨children, hrun, hkeys, hall⟩ :=
    attachChildren_spec
      (fun val newSubset =>
        buildTree (fun path => ord (val :: path)) newSubset (removeAt headers b))
      b (rowsWith data b) Q (firstSeen (data.map (fieldOf b))) (hchild b hb)
  refine ⟨b, headers[b], children, hsel, hb, hmax, hfirst, List.getElem?_eq_getElem hbl, ?_,
    hkeys, hall⟩
  rw [buildTree_split ord data headers _ b headers[b] _
    (collectLabels_eq data hwf.rows_ne_nil) hl (by omega) hsel
    (List.getElem?_eq_getElem hbl) (splitData_eq data b hcols), hrun]
  rfl

end DecisionTree

namespace DecisionTree

/-! ### Induction over the recursion of `buildTree` -/

theorem mostCommonLabel_eq (it : IterOrder) (data : List Row) (h : ∀ r ∈ data, r ≠ []) :
    mostCommonLabel it data =
      some (scanMax (it.visit ((firstSeen (data.map labelOf)).map
        (fun l => (l, labelCount data l)))) 0 "") := by
  simp [mostCommonLabel, countLabels_eq data h]

/-- Totality of `buildTree` together with an induction principle: on
well-formed input `buildTree` returns a node, and a property holds of that node
as soon as it holds of the two kinds of leaves and passes from the children of
a split to the Internal node over them. -/
theorem buildTree_induction
    (P : (List String → IterOrder) → List Row → List String → Node → Prop)
    (hpure : ∀ ord data headers label, WellFormed data headers →
      firstSeen (data.map labelOf) = [label] → P ord data headers (leafNode label))
    (hmaj : ∀ ord data headers l, WellFormed data headers → headers.length = 1 →
      (firstSeen (data.map labelOf)).length ≠ 1 →
      mostCommonLabel (ord []) data = some l → P ord data headers (leafNode l))
    (hsplit : ∀ ord data headers (b : Nat) feature children, WellFormed data headers →
      2 ≤ headers.length → (firstSeen (data.map labelOf)).length ≠ 1 →
      selectBest data headers = some (b : Int) → b < headers.length - 1 →
      headers[b]? = some feature →
      children.map Prod.fst = firstSeen (data.map (fieldOf b)) →
      (∀ v c, (v, c) ∈ children →
        buildTree (fun path => ord (v :: path)) (childData data b v) (removeAt headers b)
          = some c ∧
        P (fun path => ord (v :: path)) (childData data b v) (removeAt headers b) c) →
      P ord data headers (internalNode feature children))
    (ord : List String → IterOrder) (data : List Row) (headers : List String)
    (hwf : WellFormed data headers) :
    ∃ t, buildTree ord data headers = some t ∧ P ord data headers t := by
  obtain ⟨n, hn⟩ : ∃ n, headers.length = n + 1 := ⟨headers.length - 1, by have := hwf.1; omega⟩
  induction n generalizing ord data headers with
  | zero =>
    by_cases hl : (firstSeen (data.map labelOf)).length = 1
    · obtain ⟨label, hlabel⟩ := List.length_eq_one.1 hl
      refine ⟨leafNode label, ?_, hpure ord data headers label hwf hlabel⟩
      exact buildTree_pure ord data headers label
        (by rw [collectLabels_eq data hwf.rows_ne_nil, hlabel])
    · have hm := mostCommonLabel_eq (ord []) data hwf.rows_ne_nil
      refine ⟨leafNode _, ?_, hmaj ord data headers _ hwf (by omega) hl hm⟩
      rw [buildTree_majority ord data headers _ (collectLabels_eq data hwf.rows_ne_nil) hl
        (by omega), hm]
      rfl
  | succ n ih =>
    by_cases hl : (firstSeen (data.map labelOf)).length = 1
    · obtain ⟨label, hlabel⟩ := List.length_eq_one.1 hl
      refine ⟨leafNode label, ?_, hpure ord data headers label hwf hlabel⟩
      exact buildTree_pure ord data headers label
        (by rw [collectLabels_eq data hwf.rows_ne_nil, hlabel])
    · have hk : 2 ≤ headers.length := by omega
      obtain ⟨b, feature, children, hsel, hb, _, _, hf, hrun, hkeys, hall⟩ :=
        buildTree_step ord data headers
          (fun v c => ∀ b, b < headers.length - 1 → buildTree (fun path => ord (v :: path))
            (childData data b v) (removeAt headers b) = some c →
            P (fun path => ord (v :: path)) (childData data b v) (removeAt headers b) c)
          hwf hk hl
          (by
            intro b hb v _
            have hwfc := wellFormed_childData data headers b v hwf hk (by omega)
            obtain ⟨c, hc, hp⟩ := ih (fun path => ord (v :: path)) (childData data b v)
              (removeAt headers b) hwfc (by rw [removeAt_length headers b (by omega)]; omega)
            refine ⟨c, hc, ?_⟩
            intro b' hb' hc'
            have hwfc' := wellFormed_childData data headers b' v hwf hk (by omega)
            obtain ⟨c2, hc2, hp2⟩ := ih (fun path => ord (v :: path)) (childData data b' v)
              (removeAt headers b') hwfc'
              (by rw [removeAt_length headers b' (by omega)]; omega)
            rw [hc'] at hc2
            cases hc2
            exact hp2)
      refine ⟨internalNode feature children, hrun, ?_⟩
      apply hsplit ord data headers b feature children hwf hk hl hsel hb hf hkeys
      intro v c hmem
      obtain ⟨hbuild, hq⟩ := hall v c hmem
      exact ⟨hbuild, hq b hb hbuild⟩

end DecisionTree

namespace DecisionTree

/-! ### Unfolding `predict` -/

theorem predict_leafNode (label : String) (headers sample : List String) :
    predict (leafNode label) headers sample = some label := by
  simp [leafNode, predict]

theorem predictChild_eq_lookup (children : List (String × Node)) (val : String)
    (headers sample : List String) :
    predictChild children val headers sample =
      match children.lookup val with
      | none => some "Unknown"
      | some child => predict child headers sample := by
  induction children with
  | nil => simp [predictChild]
  | cons p rest ih =>
    obtain ⟨k, child⟩ := p
    rw [lookup_cons_ite]
    by_cases hk : val = k
    · simp [predictChild, hk]
    · simp [predictChild, hk, ih]

/-- The body of `predict` at a node that is not a leaf. -/
theorem predict_internal (node : Node) (headers sample : List String)
    (h : node.IsLeaf = false) :
    predict node headers sample =
      match sample[featureIndex headers node.Feature]? with
      | none => none
      | some val =>
        match node.Children.lookup val with
        | none => some "Unknown"
        | some child => predict child headers sample := by
  obtain ⟨isLeaf, label, feature, children⟩ := node
  simp only [Node.IsLeaf] at h
  subst h
  simp only [predict, Node.Feature, Node.Children]
  cases sample[featureIndex headers feature]? with
  | none => simp
  | some val => simp [predictChild_eq_lookup]

theorem predict_leaf (node : Node) (headers sample : List String) (h : node.IsLeaf = true) :
    predict node headers sample = some node.Label := by
  obtain ⟨isLeaf, label, feature, children⟩ := node
  simp only [Node.IsLeaf] at h
  subst h
  simp [predict, Node.Label]

/-! ### The feature lookup of `predict` -/

theorem findFeature_le (headers : List String) (feature : String) (i j : Nat)
    (h : headers[j]? = some feature) : findFeature headers feature i ≤ i + j := by
  induction headers generalizing i j with
  | nil => simp at h
  | cons x rest ih =>
    by_cases hx : x = feature
    · simp [findFeature, hx]
    · cases j with
      | zero =>
        simp only [List.getElem?_cons_zero, Option.some.injEq] at h
        exact absurd h hx
      | succ j =>
        simp only [List.getElem?_cons_succ] at h
        have := ih (i + 1) j h
        simp only [findFeature, hx, if_false]
        omega

theorem findFeature_nodup (headers : List String) (feature : String) (i j : Nat)
    (hnd : headers.Nodup) (h : headers[j]? = some feature) :
    findFeature headers feature i = i + j := by
  induction headers generalizing i j with
  | nil => simp at h
  | cons x rest ih =>
    simp only [List.nodup_cons] at hnd
    cases j with
    | zero =>
      simp only [List.getElem?_cons_zero, Option.some.injEq] at h
      simp [findFeature, h]
    | succ j =>
      simp only [List.getElem?_cons_succ] at h
      have hx : x ≠ feature := by
        intro hx
        rw [hx] at hnd
        exact hnd.1 (List.getElem?_mem h)
      have := ih (i + 1) j hnd.2 h
      simp only [findFeature, hx, if_false]
      omega

/-- The lookup never lands after a position that carries the name. -/
theorem featureIndex_le (headers : List String) (feature : String) (j : Nat)
    (h : headers[j]? = some feature) : featureIndex headers feature ≤ j := by
  have := findFeature_le headers feature 0 j h
  simpa [featureIndex] using this

/-- With pairwise distinct names the lookup lands on the position of the name. -/
theorem featureIndex_nodup (headers : List String) (feature : String) (j : Nat)
    (hnd : headers.Nodup) (h : headers[j]? = some feature) :
    featureIndex headers feature = j := by
  have := findFeature_nodup headers feature 0 j hnd h
  simpa [featureIndex] using this

end DecisionTree

namespace DecisionTree

/-! ### Dropping a column -/

theorem getElem?_removeAt (xs : List String) (b i : Nat) :
    (removeAt xs b)[i]? = if i < b then xs[i]? else xs[i + 1]? := by
  simp only [removeAt, List.getElem?_append, List.getElem?_take, List.getElem?_drop,
    List.length_take]
  by_cases hib : i < b
  · by_cases hil : i < xs.length
    · have : i < min b xs.length := by omega
      simp [hib, this]
    · have h1 : ¬ i < min b xs.length := by omega
      have h2 : xs[i]? = none := List.getElem?_eq_none (by omega)
      have h3 : xs[b + 1 + (i - min b xs.length)]? = none := List.getElem?_eq_none (by omega)
      simp [hib, h1, h2, h3]
  · have h1 : ¬ i < min b xs.length := by omega
    simp only [hib, h1, if_false]
    by_cases hbl : b ≤ xs.length
    · have : b + 1 + (i - min b xs.length) = i + 1 := by omega
      rw [this]
    · rw [List.getElem?_eq_none (by omega), List.getElem?_eq_none (by omega)]

theorem fieldOf_removeAt (r : Row) (b i : Nat) :
    fieldOf i (removeAt r b) = if i < b then fieldOf i r else fieldOf (i + 1) r := by
  simp only [fieldOf, List.getD_eq_getElem?_getD, getElem?_removeAt]
  by_cases h : i < b
  · simp [h]
  · simp [h]

theorem getLast?_removeAt (r : Row) (b : Nat) (h : b + 1 < r.length) :
    (removeAt r b).getLast? = r.getLast? := by
  simp only [removeAt, List.getLast?_append, List.getLast?_drop]
  have : ¬ r.length ≤ b + 1 := by omega
  simp only [this, if_false]
  cases hr : r.getLast? with
  | none =>
    rw [List.getLast?_eq_none_iff] at hr
    rw [hr] at h
    simp at h
  | some l => simp

theorem labelOf_removeAt (r : Row) (b : Nat) (h : b + 1 < r.length) :
    labelOf (removeAt r b) = labelOf r := by
  simp [labelOf, List.getLastD_eq_getLast?, getLast?_removeAt r b h]

theorem nodup_removeAt (xs : List String) (b : Nat) (h : xs.Nodup) : (removeAt xs b).Nodup := by
  have hsub : (removeAt xs b).Sublist xs := by
    have h1 : (xs.take b ++ xs.drop (b + 1)).Sublist (xs.take b ++ xs.drop b) :=
      List.Sublist.append (List.Sublist.refl _)
        (by rw [← List.drop_drop 1 b xs]; exact List.drop_sublist _ _)
    rw [List.take_append_drop] at h1
    exact h1
  exact h.sublist hsub

end DecisionTree

namespace DecisionTree

/-! ### Training rows through the tree -/

theorem firstSeen_eq_singleton (xs : List String) (L : String) (hne : xs ≠ [])
    (hall : ∀ x ∈ xs, x = L) : firstSeen xs = [L] := by
  have hnd := nodup_firstSeen xs
  have hmem : ∀ x ∈ firstSeen xs, x = L := fun x hx => hall x ((mem_firstSeen xs x).1 hx)
  have hL : L ∈ firstSeen xs := by
    obtain ⟨x, hx⟩ := List.exists_mem_of_ne_nil xs hne
    rw [mem_firstSeen, ← hall x hx]
    exact hx
  match hfs : firstSeen xs with
  | [] => rw [hfs] at hL; simp at hL
  | [a] =>
    have := hmem a (by rw [hfs]; simp)
    rw [this]
  | a :: b :: rest =>
    rw [hfs] at hnd hmem
    have ha := hmem a (by simp)
    have hb := hmem b (by simp)
    simp only [List.nodup_cons, List.mem_cons] at hnd
    exact absurd (Or.inl (ha.trans hb.symm)) hnd.1

theorem mem_childData (data : List Row) (b : Nat) (r : Row) (h : r ∈ data) :
    removeAt r b ∈ childData data b (fieldOf b r) :=
  List.mem_map.2 ⟨r, (mem_rowsWith data b _ r).2 ⟨h, rfl⟩, rfl⟩

theorem getD_removeAt (xs : List String) (b i : Nat) :
    (removeAt xs b).getD i "" = if i < b then xs.getD i "" else xs.getD (i + 1) "" := by
  simp only [List.getD_eq_getElem?_getD, getElem?_removeAt]
  by_cases h : i < b
  · simp [h]
  · simp [h]

theorem agrees_child (hs H sample : List String) (r : Row) (b : Nat) (hb : b < hs.length - 1)
    (h : Agrees hs H sample r) : Agrees (removeAt hs b) H sample (removeAt r b) := by
  intro i hi
  rw [removeAt_length hs b (by omega)] at hi
  rw [getD_removeAt, fieldOf_removeAt]
  by_cases hib : i < b
  · simp only [hib, if_true]
    exact h i (by omega)
  · simp only [hib, if_false]
    exact h (i + 1) (by omega)

theorem determined_child (data : List Row) (headers : List String) (b : Nat) (v : String)
    (hwf : WellFormed data headers) (hb : b < headers.length - 1)
    (h : Determined (headers.length - 1) data) :
    Determined ((removeAt headers b).length - 1) (childData data b v) := by
  intro r1 hr1 r2 hr2 hagree
  obtain ⟨p1, hp1, rfl⟩ := List.mem_map.1 hr1
  obtain ⟨p2, hp2, rfl⟩ := List.mem_map.1 hr2
  rw [mem_rowsWith] at hp1 hp2
  rw [removeAt_length headers b (by omega)] at hagree
  rw [labelOf_removeAt p1 b (by rw [hwf.2 p1 hp1.1]; omega),
    labelOf_removeAt p2 b (by rw [hwf.2 p2 hp2.1]; omega)]
  apply h p1 hp1.1 p2 hp2.1
  intro i hi
  rcases Nat.lt_trichotomy i b with hlt | heq | hgt
  · have := hagree i (by omega)
    simpa [fieldOf_removeAt, hlt] using this
  · rw [heq, hp1.2, hp2.2]
  · have := hagree (i - 1) (by omega)
    have hnl : ¬ (i - 1 < b) := by omega
    have hi1 : i - 1 + 1 = i := by omega
    simpa [fieldOf_removeAt, hnl, hi1] using this

/-- On well-formed input whose features determine the label, the tree sends
every training row to its own label, whatever header sequence and sample the
traversal reads the row's values from. -/
theorem buildTree_roundTrip (ord : List String → IterOrder) (data : List Row)
    (hs : List String) (hwf : WellFormed data hs) :
    ∃ t, buildTree ord data hs = some t ∧
      (Determined (hs.length - 1) data → ∀ H sample r, r ∈ data → Agrees hs H sample r →
        predict t H sample = some (labelOf r)) := by
  apply buildTree_induction
    (fun _ data hs t => Determined (hs.length - 1) data → ∀ H sample r, r ∈ data →
      Agrees hs H sample r → predict t H sample = some (labelOf r))
  · intro _ data hs label _ hlabel _ H sample r hr _
    have : labelOf r ∈ firstSeen (data.map labelOf) :=
      (mem_firstSeen _ _).2 (List.mem_map_of_mem _ hr)
    rw [hlabel, List.mem_singleton] at this
    rw [predict_leafNode, this]
  · intro _ data hs l _ hh hl _ hdet H sample r hr _
    exfalso
    apply hl
    have hne : data.map labelOf ≠ [] := by
      intro hnil
      rw [List.map_eq_nil_iff] at hnil
      rw [hnil] at hr
      cases hr
    rw [firstSeen_eq_singleton (data.map labelOf) (labelOf r) hne]
    · rfl
    · intro x hx
      obtain ⟨r', hr', rfl⟩ := List.mem_map.1 hx
      apply hdet r' hr' r hr
      intro i hi
      omega
  · intro ord data hs b feature children hwf hk _ _ hb hf hkeys hall hdet H sample r hr hag
    have hfeat : hs.getD b "" = feature := by
      simp [List.getD_eq_getElem?_getD, hf]
    have hval := hag b hb
    rw [hfeat] at hval
    rw [predict_internal _ _ _ (by rfl)]
    simp only [internalNode, Node.Feature, Node.Children, hval]
    cases hlook : children.lookup (fieldOf b r) with
    | none =>
      exfalso
      rw [lookup_eq_none_iff_not_mem, hkeys, mem_firstSeen] at hlook
      exact hlook (List.mem_map_of_mem _ hr)
    | some c =>
      obtain ⟨_, hp⟩ := hall _ c (mem_of_lookup _ _ _ hlook)
      have := hp (determined_child data hs b _ hwf hb hdet) H sample (removeAt r b)
        (mem_childData data b r hr) (agrees_child hs H sample r b hb hag)
      rw [labelOf_removeAt r b (by rw [hwf.2 r hr]; omega)] at this
      simpa using this
  · exact hwf

end DecisionTree

namespace DecisionTree

/-! ### Rows read through `getLast?`, `dropLast` and indexing -/

theorem labelOf_eq_of_getLast? (r : Row) (l : String) (h : r.getLast? = some l) :
    labelOf r = l := by
  simp [labelOf, List.getLastD_eq_getLast?, h]

theorem ne_nil_of_getLast? (r : Row) (l : String) (h : r.getLast? = some l) : r ≠ [] := by
  intro hnil
  rw [hnil] at h
  simp at h

theorem dropLast_eq_of_fields (r1 r2 : Row) (k : Nat) (h1 : r1.length = k + 1)
    (h2 : r2.length = k + 1) (h : ∀ i, i < k → fieldOf i r1 = fieldOf i r2) :
    r1.dropLast = r2.dropLast := by
  apply List.ext_getElem?
  intro i
  rw [List.getElem?_dropLast, List.getElem?_dropLast, h1, h2]
  by_cases hi : i < k
  · have e1 := getElem?_eq_fieldOf i r1 (by omega)
    have e2 := getElem?_eq_fieldOf i r2 (by omega)
    simp [hi, e1, e2, h i hi]
  · simp [hi]

theorem fields_eq_of_dropLast (r1 r2 : Row) (h : r1.dropLast = r2.dropLast)
    (hlen : r1.length = r2.length) (i : Nat) (hi : i < r1.length - 1) :
    fieldOf i r1 = fieldOf i r2 := by
  have e1 : r1.dropLast[i]? = r1[i]? := by simp [List.getElem?_dropLast, hi]
  have e2 : r2.dropLast[i]? = r2[i]? := by
    have : i < r2.length - 1 := by omega
    simp [List.getElem?_dropLast, this]
  have : r1[i]? = r2[i]? := by rw [← e1, ← e2, h]
  simp [fieldOf, List.getD_eq_getElem?_getD, this]

/-! ### Claims about the whole pipeline -/

/-- C1 (predictor round-trip).  For headers with pairwise distinct names, a
dataset whose rows all have the length of the headers and whose feature fields
determine the label, and any row `r` of the dataset with label `l`:
`buildTree` returns a tree, and `predict` on that tree, the same headers and
the feature fields of `r` returns exactly `l`.  This holds for every map
iteration order `ord`. -/
theorem predict_roundTrip (ord : List String → IterOrder) (data : List Row)
    (headers : List String) (r : Row) (l : String)
    (hnd : headers.Nodup)
    (hlen : ∀ row ∈ data, row.length = headers.length)
    (hdet : ∀ r1 ∈ data, ∀ r2 ∈ data, r1.dropLast = r2.dropLast → r1.getLast? = r2.getLast?)
    (hr : r ∈ data) (hl : r.getLast? = some l) :
    ∃ t, buildTree ord data headers = some t ∧ predict t headers r.dropLast = some l := by
  have hrne := ne_nil_of_getLast? r l hl
  have hpos : 1 ≤ headers.length := by
    rw [← hlen r hr]
    exact Nat.pos_of_ne_zero (fun h => hrne (List.length_eq_zero.1 h))
  have hwf : WellFormed data headers := ⟨hpos, hlen⟩
  obtain ⟨t, ht, hp⟩ := buildTree_roundTrip ord data headers hwf
  refine ⟨t, ht, ?_⟩
  rw [← labelOf_eq_of_getLast? r l hl]
  apply hp _ headers r.dropLast r hr
  · intro i hi
    have hget : headers[i]? = some (headers.getD i "") := by
      simp [List.getD_eq_getElem?_getD, List.getElem?_eq_getElem (show i < headers.length by omega)]
    rw [featureIndex_nodup headers _ i hnd hget, List.getElem?_dropLast, hlen r hr]
    simp only [hi, if_true]
    exact getElem?_eq_fieldOf i r (by rw [hlen r hr]; omega)
  · intro r1 hr1 r2 hr2 hag
    have h1 := hlen r1 hr1
    have h2 := hlen r2 hr2
    have hd := dropLast_eq_of_fields r1 r2 (headers.length - 1) (by omega) (by omega) hag
    have hlast := hdet r1 hr1 r2 hr2 hd
    have e1 := getLast?_eq_labelOf r1 (hwf.rows_ne_nil r1 hr1)
    have e2 := getLast?_eq_labelOf r2 (hwf.rows_ne_nil r2 hr2)
    rw [e1, e2] at hlast
    exact Option.some.inj hlast

/-- Scenario A of the specification: the tree built from the four weather rows
predicts "no" for the sample sunny, hot. -/
theorem predict_roundTrip_witness :
    ∃ t, buildTree (fun _ => IterOrder.insertion)
        [["sunny", "hot", "no"], ["sunny", "cool", "yes"], ["rainy", "cool", "yes"],
          ["rainy", "hot", "no"]]
        ["weather", "temp", "play"] = some t ∧
      predict t ["weather", "temp", "play"] ["sunny", "hot"] = some "no" :=
  predict_roundTrip (fun _ => IterOrder.insertion)
    [["sunny", "hot", "no"], ["sunny", "cool", "yes"], ["rainy", "cool", "yes"],
      ["rainy", "hot", "no"]]
    ["weather", "temp", "play"] ["sunny", "hot", "no"] "no"
    (by decide) (by decide) (by decide) (by decide) (by decide)

/-- C2 (pure-label termination).  For every non-empty dataset whose rows all
carry the label `L`, and every header sequence, `buildTree` returns the leaf
labelled `L`, and `predict` on it returns `L` for every header sequence and
sample. -/
theorem buildTree_pure_label (ord : List String → IterOrder) (data : List Row)
    (headers : List String) (L : String) (hne : data ≠ [])
    (hall : ∀ r ∈ data, r.getLast? = some L) :
    buildTree ord data headers = some (leafNode L) ∧ (leafNode L).IsLeaf = true ∧
      (leafNode L).Label = L ∧
      ∀ H sample, predict (leafNode L) H sample = some L := by
  have hrows : ∀ r ∈ data, r ≠ [] := fun r hr => ne_nil_of_getLast? r L (hall r hr)
  have hfs : firstSeen (data.map labelOf) = [L] := by
    apply firstSeen_eq_singleton
    · simpa using hne
    · intro x hx
      obtain ⟨r, hr, rfl⟩ := List.mem_map.1 hx
      exact labelOf_eq_of_getLast? r L (hall r hr)
  refine ⟨?_, rfl, rfl, fun H sample => predict_leafNode L H sample⟩
  apply buildTree_pure
  rw [collectLabels_eq data hrows, hfs]

/-- Scenario C of the specification: three rows with different features and
the one label "yes" give the single leaf "yes". -/
theorem buildTree_pure_label_witness :
    buildTree (fun _ => IterOrder.insertion)
        [["sunny", "hot", "yes"], ["rainy", "cool", "yes"], ["sunny", "cool", "yes"]]
        ["weather", "temp", "play"] = some (leafNode "yes") ∧
      (leafNode "yes").IsLeaf = true ∧ (leafNode "yes").Label = "yes" ∧
      ∀ H sample, predict (leafNode "yes") H sample = some "yes" :=
  buildTree_pure_label (fun _ => IterOrder.insertion)
    [["sunny", "hot", "yes"], ["rainy", "cool", "yes"], ["sunny", "cool", "yes"]]
    ["weather", "temp", "play"] "yes" (by decide) (by decide)

end DecisionTree

namespace DecisionTree

/-! ### Reading an Internal root back -/

theorem attachChildren_keys (build : String → List Row → Option Node) (b : Nat)
    (splits : List (String × List Row)) (children : List (String × Node))
    (h : attachChildren build b splits = some children) :
    children.map Prod.fst = splits.map Prod.fst := by
  induction splits generalizing children with
  | nil =>
    simp only [attachChildren, Option.some.injEq] at h
    rw [← h]
    rfl
  | cons p rest ih =>
    obtain ⟨v, subset⟩ := p
    simp only [attachChildren] at h
    cases hb : build v (subset.map (fun row => removeAt row b)) with
    | none => simp [hb] at h
    | some child =>
      cases hr : attachChildren build b rest with
      | none => simp [hb, hr] at h
      | some cs =>
        simp only [hb, hr, Option.some.injEq] at h
        rw [← h]
        simp [ih cs hr]

theorem splitData_rows (data : List Row) (c : Nat) (splits : List (String × List Row))
    (h : splitData data c = some splits) : ∀ r ∈ data, c < r.length := by
  intro r hr
  by_contra hlt
  have := splitLoop_eq_none data c [] ⟨r, hr, Nat.le_of_not_lt hlt⟩
  rw [splitData, this] at h
  cases h

/-- A node returned by `buildTree` that is not a leaf comes from the split
branch: the selection loop chose a column `b`, the node carries the name of
that column, and its children are keyed by the distinct values of column `b`. -/
theorem buildTree_internal_inv (ord : List String → IterOrder) (data : List Row)
    (headers : List String) (t : Node) (h : buildTree ord data headers = some t)
    (hint : t.IsLeaf = false) :
    ∃ (b : Nat) (children : List (String × Node)),
      selectBest data headers = some (b : Int) ∧ headers[b]? = some t.Feature ∧
      (∀ r ∈ data, b < r.length) ∧ t = internalNode t.Feature children ∧
      children.map Prod.fst = firstSeen (data.map (fieldOf b)) := by
  rw [buildTree] at h
  cases hc : collectLabels data [] with
  | none => simp [hc] at h
  | some labels =>
    simp only [hc] at h
    split at h
    · simp only [Option.some.injEq] at h
      rw [← h] at hint
      simp [leafNode, Node.IsLeaf] at hint
    · by_cases hh : headers.length = 1
      · simp only [hh, if_true] at h
        cases hm : mostCommonLabel (ord []) data with
        | none => simp [hm] at h
        | some l =>
          simp only [hm, Option.map_some', Option.some.injEq] at h
          rw [← h] at hint
          simp [leafNode, Node.IsLeaf] at hint
      · simp only [hh, if_false] at h
        cases hsel : selectBest data headers with
        | none => simp [hsel] at h
        | some bi =>
          simp only [hsel] at h
          by_cases hneg : bi < 0
          · simp [hneg] at h
          · simp only [hneg, if_false] at h
            split at h
            · cases h
            · rename_i feature hf
              cases hs : splitData data bi.toNat with
              | none => simp [hs] at h
              | some splits =>
                simp only [hs] at h
                cases ha : attachChildren
                    (fun val newSubset =>
                      buildTree (fun path => ord (val :: path)) newSubset
                        (removeAt headers bi.toNat))
                    bi.toNat splits with
                | none => simp [ha] at h
                | some children =>
                  simp only [ha, Option.map_some', Option.some.injEq] at h
                  have hrows := splitData_rows data bi.toNat splits hs
                  have hkeys := attachChildren_keys _ _ _ _ ha
                  rw [splitData_eq data bi.toNat hrows] at hs
                  simp only [Option.some.injEq] at hs
                  rw [← hs, List.map_map] at hkeys
                  have hfeat : t.Feature = feature := by rw [← h]; rfl
                  refine ⟨bi.toNat, children, ?_, ?_, hrows, ?_, ?_⟩
                  · rw [Int.toNat_of_nonneg (not_lt.1 hneg)]
                  · rw [hfeat]; exact hf
                  · rw [hfeat]; exact h.symm
                  · rw [hkeys]
                    have hid : (Prod.fst ∘ fun v => (v, rowsWith data bi.toNat v)) = id := rfl
                    rw [hid, List.map_id]

end DecisionTree

namespace DecisionTree

/-! ### A concrete run: one feature, two rows -/

theorem selectBest_weather :
    selectBest [["sunny", "no"], ["rainy", "yes"]] ["weather", "play"] = some 0 := by
  obtain ⟨b, hsel, hb, _, _⟩ :=
    selectBest_spec [["sunny", "no"], ["rainy", "yes"]] ["weather", "play"]
      (by decide) (by decide)
  have hb0 : b = 0 := by
    simp only [List.length_cons, List.length_nil] at hb
    omega
  rw [hsel, hb0]
  rfl

theorem buildTree_weather (ord : List String → IterOrder) :
    buildTree ord [["sunny", "no"], ["rainy", "yes"]] ["weather", "play"] =
      some (internalNode "weather" [("sunny", leafNode "no"), ("rainy", leafNode "yes")]) := by
  rw [buildTree_split ord [["sunny", "no"], ["rainy", "yes"]] ["weather", "play"]
    ["no", "yes"] 0 "weather" [("sunny", [["sunny", "no"]]), ("rainy", [["rainy", "yes"]])]
    (by decide) (by decide) (by decide) selectBest_weather (by decide) (by decide)]
  have h1 : ∀ o : List String → IterOrder,
      buildTree o [["no"]] ["play"] = some (leafNode "no") :=
    fun o => buildTree_pure o _ _ "no" (by decide)
  have h2 : ∀ o : List String → IterOrder,
      buildTree o [["yes"]] ["play"] = some (leafNode "yes") :=
    fun o => buildTree_pure o _ _ "yes" (by decide)
  simp [attachChildren, removeAt, h1, h2]

/-- C3 (unknown-value outcome).  At a node that is not a leaf, when the sample
holds `val` at the position where the lookup loop finds the node's feature name
in the headers: if `val` is not a key of the node's children, `predict` returns
the sentinel "Unknown"; and if the node is the root `buildTree` returned for
`data` and `val` occurs in no row of `data` at the column `b` the root was split
on, `predict` returns "Unknown" as well. -/
theorem predict_unknown (node : Node) (headers sample : List String) (val : String)
    (hint : node.IsLeaf = false)
    (hval : sample[featureIndex headers node.Feature]? = some val) :
    (val ∉ node.Children.map Prod.fst → predict node headers sample = some "Unknown") ∧
    (∀ (ord : List String → IterOrder) (data : List Row) (b : Nat),
      buildTree ord data headers = some node → selectBest data headers = some (b : Int) →
      (∀ r ∈ data, r[b]? ≠ some val) → predict node headers sample = some "Unknown") := by
  have hkey : val ∉ node.Children.map Prod.fst →
      predict node headers sample = some "Unknown" := by
    intro hk
    rw [predict_internal node headers sample hint]
    simp only [hval]
    rw [(lookup_eq_none_iff_not_mem node.Children val).2 hk]
  refine ⟨hkey, ?_⟩
  intro ord data b hbuild hsel hnever
  apply hkey
  obtain ⟨b', children, hsel', _, hrows, hnode, hkeys⟩ :=
    buildTree_internal_inv ord data headers node hbuild hint
  have hbb : b' = b := by
    rw [hsel] at hsel'
    have := Option.some.inj hsel'
    omega
  subst hbb
  have hch : node.Children = children := by
    rw [hnode]
    rfl
  rw [hch, hkeys, mem_firstSeen]
  intro hmem
  obtain ⟨r, hr, hrv⟩ := List.mem_map.1 hmem
  apply hnever r hr
  rw [getElem?_eq_fieldOf b' r (hrows r hr), hrv]

/-- Scenario B of the specification: the tree built from a sunny and a rainy
row answers "Unknown" for the weather value "snowy", which occurs in no row. -/
theorem predict_unknown_witness :
    buildTree (fun _ => IterOrder.insertion) [["sunny", "no"], ["rainy", "yes"]]
        ["weather", "play"] =
      some (internalNode "weather" [("sunny", leafNode "no"), ("rainy", leafNode "yes")]) ∧
    predict (internalNode "weather" [("sunny", leafNode "no"), ("rainy", leafNode "yes")])
      ["weather", "play"] ["snowy"] = some "Unknown" :=
  ⟨buildTree_weather _,
    (predict_unknown
      (internalNode "weather" [("sunny", leafNode "no"), ("rainy", leafNode "yes")])
      ["weather", "play"] ["snowy"] "snowy" (by decide) (by decide)).2
      (fun _ => IterOrder.insertion) [["sunny", "no"], ["rainy", "yes"]] 0
      (buildTree_weather _) selectBest_weather (by decide)⟩

end DecisionTree

namespace DecisionTree

/-! ### Features, leaf labels and depth of a tree -/

theorem mem_featuresChildren (children : List (String × Node)) (f : String) :
    f ∈ Node.features.featuresChildren children ↔
      ∃ v c, (v, c) ∈ children ∧ f ∈ c.features := by
  induction children with
  | nil => simp [Node.features.featuresChildren]
  | cons p rest ih =>
    obtain ⟨k, child⟩ := p
    simp only [Node.features.featuresChildren, List.mem_append, ih, List.mem_cons,
      Prod.mk.injEq]
    constructor
    · rintro (h | ⟨v, c, hmem, hf⟩)
      · exact ⟨k, child, Or.inl ⟨rfl, rfl⟩, h⟩
      · exact ⟨v, c, Or.inr hmem, hf⟩
    · rintro ⟨v, c, (⟨_, rfl⟩ | hmem), hf⟩
      · exact Or.inl hf
      · exact Or.inr ⟨v, c, hmem, hf⟩

theorem mem_leafLabelsChildren (children : List (String × Node)) (l : String) :
    l ∈ Node.leafLabels.leafLabelsChildren children ↔
      ∃ v c, (v, c) ∈ children ∧ l ∈ c.leafLabels := by
  induction children with
  | nil => simp [Node.leafLabels.leafLabelsChildren]
  | cons p rest ih =>
    obtain ⟨k, child⟩ := p
    simp only [Node.leafLabels.leafLabelsChildren, List.mem_append, ih, List.mem_cons,
      Prod.mk.injEq]
    constructor
    · rintro (h | ⟨v, c, hmem, hf⟩)
      · exact ⟨k, child, Or.inl ⟨rfl, rfl⟩, h⟩
      · exact ⟨v, c, Or.inr hmem, hf⟩
    · rintro ⟨v, c, (⟨_, rfl⟩ | hmem), hf⟩
      · exact Or.inl hf
      · exact Or.inr ⟨v, c, hmem, hf⟩

theorem features_leafNode (l : String) : (leafNode l).features = [] := by
  simp [leafNode, Node.features]

theorem leafLabels_leafNode (l : String) : (leafNode l).leafLabels = [l] := by
  simp [leafNode, Node.leafLabels]

theorem mem_features_internalNode (feature : String) (children : List (String × Node))
    (f : String) :
    f ∈ (internalNode feature children).features ↔
      f = feature ∨ ∃ v c, (v, c) ∈ children ∧ f ∈ c.features := by
  simp [internalNode, Node.features, mem_featuresChildren]

theorem mem_leafLabels_internalNode (feature : String) (children : List (String × Node))
    (l : String) :
    l ∈ (internalNode feature children).leafLabels ↔
      ∃ v c, (v, c) ∈ children ∧ l ∈ c.leafLabels := by
  simp [internalNode, Node.leafLabels, mem_leafLabelsChildren]

theorem depthChildren_le (children : List (String × Node)) (d : Nat)
    (h : ∀ v c, (v, c) ∈ children → c.depth ≤ d) : Node.depth.depthChildren children ≤ d := by
  induction children with
  | nil => simp [Node.depth.depthChildren]
  | cons p rest ih =>
    obtain ⟨k, child⟩ := p
    simp only [Node.depth.depthChildren, max_le_iff]
    exact ⟨h k child (List.mem_cons_self _ _),
      ih (fun v c hm => h v c (List.mem_cons_of_mem _ hm))⟩

theorem depth_leafNode (l : String) : (leafNode l).depth = 0 := by
  simp [leafNode, Node.depth]

theorem depth_internalNode (feature : String) (children : List (String × Node)) :
    (internalNode feature children).depth = 1 + Node.depth.depthChildren children := by
  simp [internalNode, Node.depth]

end DecisionTree

namespace DecisionTree

/-- Every feature name of a built tree is the name of a feature column of the
headers, and a traversal whose lookups stay inside the sample returns a leaf
label of the tree or the sentinel. -/
theorem buildTree_features (ord : List String → IterOrder) (data : List Row)
    (hs : List String) (hwf : WellFormed data hs) :
    ∃ t, buildTree ord data hs = some t ∧
      (∀ f ∈ t.features, ∃ i, i < hs.length - 1 ∧ hs[i]? = some f) ∧
      (∀ H sample, (∀ f ∈ t.features, featureIndex H f < sample.length) →
        ∃ s, predict t H sample = some s ∧ (s = "Unknown" ∨ s ∈ t.leafLabels)) := by
  apply buildTree_induction
    (fun _ _ hs t => (∀ f ∈ t.features, ∃ i, i < hs.length - 1 ∧ hs[i]? = some f) ∧
      (∀ H sample, (∀ f ∈ t.features, featureIndex H f < sample.length) →
        ∃ s, predict t H sample = some s ∧ (s = "Unknown" ∨ s ∈ t.leafLabels)))
  · intro _ _ _ label _ _
    refine ⟨by simp [features_leafNode], fun H sample _ => ⟨label, predict_leafNode _ _ _, ?_⟩⟩
    simp [leafLabels_leafNode]
  · intro _ _ _ l _ _ _ _
    refine ⟨by simp [features_leafNode], fun H sample _ => ⟨l, predict_leafNode _ _ _, ?_⟩⟩
    simp [leafLabels_leafNode]
  · intro ord data hs b feature children _ hk _ _ hb hf _ hall
    constructor
    · intro f hfm
      rcases (mem_features_internalNode feature children f).1 hfm with rfl | ⟨v, c, hmem, hfc⟩
      · exact ⟨b, hb, hf⟩
      · obtain ⟨i, hi, hget⟩ := (hall v c hmem).2.1 f hfc
        rw [removeAt_length hs b (by omega)] at hi
        rw [getElem?_removeAt] at hget
        by_cases hib : i < b
        · simp only [hib, if_true] at hget
          exact ⟨i, by omega, hget⟩
        · simp only [hib, if_false] at hget
          exact ⟨i + 1, by omega, hget⟩
    · intro H sample hrange
      have hfi : featureIndex H feature < sample.length :=
        hrange feature ((mem_features_internalNode feature children feature).2 (Or.inl rfl))
      rw [predict_internal _ _ _ (by rfl)]
      simp only [internalNode, Node.Feature, Node.Children, List.getElem?_eq_getElem hfi]
      cases hlook : children.lookup sample[featureIndex H feature] with
      | none => exact ⟨"Unknown", rfl, Or.inl rfl⟩
      | some c =>
        have hmem := mem_of_lookup _ _ _ hlook
        obtain ⟨s, hs1, hs2⟩ := (hall _ c hmem).2.2 H sample
          (fun f hfc => hrange f
            ((mem_features_internalNode feature children f).2 (Or.inr ⟨_, c, hmem, hfc⟩)))
        refine ⟨s, hs1, ?_⟩
        rcases hs2 with h | h
        · exact Or.inl h
        · exact Or.inr
            ((mem_leafLabels_internalNode feature children s).2 ⟨_, c, hmem, h⟩)
  · exact hwf

/-- C4 (prediction is total).  For headers of length at least 1, a dataset
whose rows all have the length of the headers and a sample with one value per
feature column: `buildTree` returns a tree, every feature index the lookup loop
of `predict` can compute on that tree is below `len(headers) - 1` (so inside
the sample), and `predict` returns a value that is a leaf label of the tree or
the sentinel "Unknown". -/
theorem predict_total (ord : List String → IterOrder) (data : List Row)
    (headers sample : List String) (hpos : 1 ≤ headers.length)
    (hlen : ∀ row ∈ data, row.length = headers.length)
    (hsample : sample.length = headers.length - 1) :
    ∃ t, buildTree ord data headers = some t ∧
      (∀ f ∈ t.features, featureIndex headers f < headers.length - 1) ∧
      ∃ s, predict t headers sample = some s ∧ (s = "Unknown" ∨ s ∈ t.leafLabels) := by
  obtain ⟨t, ht, hfeat, hpred⟩ := buildTree_features ord data headers ⟨hpos, hlen⟩
  have hidx : ∀ f ∈ t.features, featureIndex headers f < headers.length - 1 := by
    intro f hf
    obtain ⟨i, hi, hget⟩ := hfeat f hf
    exact lt_of_le_of_lt (featureIndex_le headers f i hget) hi
  refine ⟨t, ht, hidx, hpred headers sample ?_⟩
  intro f hf
  rw [hsample]
  exact hidx f hf

/-- The weather rows of Scenario A with a sample holding a value never seen in
training: the traversal still returns a value. -/
theorem predict_total_witness :
    ∃ t, buildTree (fun _ => IterOrder.insertion)
        [["sunny", "hot", "no"], ["sunny", "cool", "yes"], ["rainy", "cool", "yes"],
          ["rainy", "hot", "no"]]
        ["weather", "temp", "play"] = some t ∧
      (∀ f ∈ t.features, featureIndex ["weather", "temp", "play"] f < 3 - 1) ∧
      ∃ s, predict t ["weather", "temp", "play"] ["snowy", "mild"] = some s ∧
        (s = "Unknown" ∨ s ∈ t.leafLabels) :=
  predict_total (fun _ => IterOrder.insertion)
    [["sunny", "hot", "no"], ["sunny", "cool", "yes"], ["rainy", "cool", "yes"],
      ["rainy", "hot", "no"]]
    ["weather", "temp", "play"] ["snowy", "mild"] (by decide) (by decide) (by decide)

end DecisionTree

namespace DecisionTree

/-! ### The gain selector -/

theorem buildTree_total (ord : List String → IterOrder) (data : List Row)
    (headers : List String) (hwf : WellFormed data headers) :
    ∃ t, buildTree ord data headers = some t := by
  obtain ⟨t, ht, _⟩ := buildTree_induction (fun _ _ _ _ => True)
    (fun _ _ _ _ _ _ => trivial) (fun _ _ _ _ _ _ _ _ => trivial)
    (fun _ _ _ _ _ _ _ _ _ _ _ _ _ _ => trivial) ord data headers hwf
  exact ⟨t, ht⟩

theorem labels_not_uniform (data : List Row) (hrows : ∀ r ∈ data, r ≠ [])
    (h : ∃ r1 ∈ data, ∃ r2 ∈ data, r1.getLast? ≠ r2.getLast?) :
    (firstSeen (data.map labelOf)).length ≠ 1 := by
  intro hlen
  obtain ⟨L, hL⟩ := List.length_eq_one.1 hlen
  obtain ⟨r1, hr1, r2, hr2, hne⟩ := h
  have hall : ∀ r ∈ data, r.getLast? = some L := by
    intro r hr
    have : labelOf r ∈ firstSeen (data.map labelOf) :=
      (mem_firstSeen _ _).2 (List.mem_map_of_mem _ hr)
    rw [hL, List.mem_singleton] at this
    rw [getLast?_eq_labelOf r (hrows r hr), this]
  exact hne ((hall r1 hr1).trans (hall r2 hr2).symm)

end DecisionTree

namespace DecisionTree

/-! ### The partitioner -/

theorem rowsWith_eq_filter (data : List Row) (c : Nat) (v : String)
    (h : ∀ r ∈ data, c < r.length) :
    rowsWith data c v = data.filter (fun r => decide (r[c]? = some v)) := by
  unfold rowsWith
  apply List.filter_congr
  intro r hr
  rw [getElem?_eq_fieldOf c r (h r hr)]
  simp

/-- C6 (the partitioner is a total, disjoint, order-preserving grouping).  For
a dataset whose rows all have column `c`, `splitData` returns a map whose keys
are pairwise distinct and are exactly the values occurring in column `c`; the
group under key `v` is the sub-list of `data`, in the original order and with
the rows unchanged, of the rows whose column `c` equals `v`; no group is
empty; every row lies in the group of its own value; and the group sizes sum
to `len(data)`. -/
theorem splitData_partition (data : List Row) (c : Nat) (h : ∀ r ∈ data, c < r.length) :
    ∃ splits, splitData data c = some splits ∧
      (splits.map Prod.fst).Nodup ∧
      (∀ v, v ∈ splits.map Prod.fst ↔ ∃ r ∈ data, r[c]? = some v) ∧
      (∀ v g, (v, g) ∈ splits →
        g = data.filter (fun r => decide (r[c]? = some v)) ∧ g ≠ []) ∧
      (∀ r ∈ data, ∀ v, r[c]? = some v → ∃ g, (v, g) ∈ splits ∧ r ∈ g) ∧
      (splits.map (fun kv => kv.2.length)).sum = data.length := by
  have hkeys : ((firstSeen (data.map (fieldOf c))).map
      (fun v => (v, rowsWith data c v))).map Prod.fst = firstSeen (data.map (fieldOf c)) := by
    rw [List.map_map]
    have hid : (Prod.fst ∘ fun v => (v, rowsWith data c v)) = id := rfl
    rw [hid, List.map_id]
  have hvals : ∀ v, v ∈ firstSeen (data.map (fieldOf c)) ↔ ∃ r ∈ data, r[c]? = some v := by
    intro v
    rw [mem_firstSeen, List.mem_map]
    constructor
    · rintro ⟨r, hr, hv⟩
      exact ⟨r, hr, by rw [getElem?_eq_fieldOf c r (h r hr), hv]⟩
    · rintro ⟨r, hr, hv⟩
      rw [getElem?_eq_fieldOf c r (h r hr)] at hv
      exact ⟨r, hr, Option.some.inj hv⟩
  refine ⟨_, splitData_eq data c h, ?_, ?_, ?_, ?_, ?_⟩
  · rw [hkeys]
    exact nodup_firstSeen _
  · intro v
    rw [hkeys]
    exact hvals v
  · intro v g hmem
    obtain ⟨v', hv', heq⟩ := List.mem_map.1 hmem
    simp only [Prod.mk.injEq] at heq
    obtain ⟨rfl, rfl⟩ := heq
    refine ⟨rowsWith_eq_filter data c v' h, ?_⟩
    have := rowsWith_length_pos data c v' ((mem_firstSeen _ _).1 hv')
    exact List.ne_nil_of_length_pos this
  · intro r hr v hv
    refine ⟨rowsWith data c v, List.mem_map.2 ⟨v, (hvals v).2 ⟨r, hr, hv⟩, rfl⟩, ?_⟩
    rw [getElem?_eq_fieldOf c r (h r hr)] at hv
    exact (mem_rowsWith data c v r).2 ⟨hr, Option.some.inj hv⟩
  · rw [List.map_map]
    have := sum_length_rowsWith data c
    rw [← toFinset_firstSeen, List.sum_toFinset _ (nodup_firstSeen _)] at this
    exact this

/-- The weather rows of Scenario A split on column 0. -/
theorem splitData_partition_witness :
    ∃ splits, splitData [["sunny", "hot", "no"], ["sunny", "cool", "yes"],
        ["rainy", "cool", "yes"], ["rainy", "hot", "no"]] 0 = some splits ∧
      (splits.map Prod.fst).Nodup ∧
      (∀ v, v ∈ splits.map Prod.fst ↔
        ∃ r ∈ [["sunny", "hot", "no"], ["sunny", "cool", "yes"], ["rainy", "cool", "yes"],
          ["rainy", "hot", "no"]], r[0]? = some v) ∧
      (∀ v g, (v, g) ∈ splits →
        g = ([["sunny", "hot", "no"], ["sunny", "cool", "yes"], ["rainy", "cool", "yes"],
          ["rainy", "hot", "no"]] : List Row).filter (fun r => decide (r[0]? = some v)) ∧
        g ≠ []) ∧
      (∀ r ∈ ([["sunny", "hot", "no"], ["sunny", "cool", "yes"], ["rainy", "cool", "yes"],
          ["rainy", "hot", "no"]] : List Row), ∀ v, r[0]? = some v →
        ∃ g, (v, g) ∈ splits ∧ r ∈ g) ∧
      (splits.map (fun kv => kv.2.length)).sum = 4 :=
  splitData_partition [["sunny", "hot", "no"], ["sunny", "cool", "yes"],
    ["rainy", "cool", "yes"], ["rainy", "hot", "no"]] 0 (by decide)

end DecisionTree

namespace DecisionTree

/-! ### The most common label -/

/-- What the running-maximum scan returns: the initial result when no count
exceeds the initial maximum, otherwise the first visited entry whose count is
the largest of all. -/
theorem scanMax_spec (es : List (String × Nat)) (m : Nat) (res : String) :
    (scanMax es m res = res ∧ ∀ e ∈ es, e.2 ≤ m) ∨
    (∃ pre k c post, es = pre ++ (k, c) :: post ∧ scanMax es m res = k ∧ m < c ∧
      (∀ e ∈ pre, e.2 < c) ∧ (∀ e ∈ post, e.2 ≤ c)) := by
  induction es generalizing m res with
  | nil => exact Or.inl ⟨rfl, by simp⟩
  | cons p rest ih =>
    obtain ⟨k0, c0⟩ := p
    by_cases hgt : c0 > m
    · simp only [scanMax, hgt, if_true]
      right
      rcases ih c0 k0 with ⟨hres, hall⟩ | ⟨pre, k, c, post, hes, hres, hlt, hpre, hpost⟩
      · exact ⟨[], k0, c0, rest, rfl, hres, hgt, by simp, hall⟩
      · refine ⟨(k0, c0) :: pre, k, c, post, by rw [hes]; rfl, hres, by omega, ?_, hpost⟩
        intro e he
        rcases List.mem_cons.1 he with rfl | he'
        · exact hlt
        · exact hpre e he'
    · simp only [scanMax, hgt, if_false]
      rcases ih m res with ⟨hres, hall⟩ | ⟨pre, k, c, post, hes, hres, hlt, hpre, hpost⟩
      · left
        refine ⟨hres, ?_⟩
        intro e he
        rcases List.mem_cons.1 he with rfl | he'
        · exact Nat.le_of_not_lt hgt
        · exact hall e he'
      · right
        refine ⟨(k0, c0) :: pre, k, c, post, by rw [hes]; rfl, hres, hlt, ?_, hpost⟩
        intro e he
        rcases List.mem_cons.1 he with rfl | he'
        · simp only
          omega
        · exact hpre e he'

/-- On a non-empty list of rows that all have a label, `mostCommonLabel`
returns the first entry the iteration visits whose count is the largest. -/
theorem mostCommonLabel_spec (it : IterOrder) (data : List Row) (hne : data ≠ [])
    (hrows : ∀ r ∈ data, r ≠ []) :
    ∃ l pre post,
      it.visit ((firstSeen (data.map labelOf)).map (fun l => (l, labelCount data l))) =
        pre ++ (l, labelCount data l) :: post ∧
      mostCommonLabel it data = some l ∧ l ∈ data.map labelOf ∧
      (∀ e ∈ pre, e.2 < labelCount data l) ∧ (∀ e ∈ post, e.2 ≤ labelCount data l) ∧
      ∀ l', labelCount data l' ≤ labelCount data l := by
  have hperm := it.visit_perm
    ((firstSeen (data.map labelOf)).map (fun l => (l, labelCount data l)))
  have hmemc : ∀ e, e ∈ it.visit
      ((firstSeen (data.map labelOf)).map (fun l => (l, labelCount data l))) ↔
      e.1 ∈ data.map labelOf ∧ e.2 = labelCount data e.1 := by
    intro e
    rw [hperm.mem_iff, List.mem_map]
    constructor
    · rintro ⟨l, hl, rfl⟩
      exact ⟨(mem_firstSeen _ _).1 hl, rfl⟩
    · rintro ⟨h1, h2⟩
      exact ⟨e.1, (mem_firstSeen _ _).2 h1, by rw [← h2]⟩
  rcases scanMax_spec (it.visit
      ((firstSeen (data.map labelOf)).map (fun l => (l, labelCount data l)))) 0 "" with
    ⟨_, hall⟩ | ⟨pre, k, c, post, hes, hres, _, hpre, hpost⟩
  · exfalso
    obtain ⟨r, hr⟩ := List.exists_mem_of_ne_nil data hne
    have hmem : labelOf r ∈ data.map labelOf := List.mem_map_of_mem _ hr
    have := hall (labelOf r, labelCount data (labelOf r)) ((hmemc _).2 ⟨hmem, rfl⟩)
    have hpos := labelCount_pos data (labelOf r) hmem
    simp only at this
    omega
  · have hk := (hmemc (k, c)).1 (by rw [hes]; simp)
    simp only at hk
    obtain ⟨hkl, hkc⟩ := hk
    subst hkc
    refine ⟨k, pre, post, hes, ?_, hkl, hpre, hpost, ?_⟩
    · rw [mostCommonLabel_eq it data hrows, hres]
    · intro l'
      by_cases hl' : l' ∈ data.map labelOf
      · have hin := (hmemc (l', labelCount data l')).2 ⟨hl', rfl⟩
        rw [hes, List.mem_append, List.mem_cons] at hin
        rcases hin with h | h | h
        · exact le_of_lt (hpre _ h)
        · simp only [Prod.mk.injEq] at h
          rw [h.2]
        · exact hpost _ h
      · rw [labelCount_eq_zero data l' hl']
        exact Nat.zero_le _

theorem labelCount_eq_filter (data : List Row) (l : String) (hrows : ∀ r ∈ data, r ≠ []) :
    labelCount data l = (data.filter (fun r => decide (r.getLast? = some l))).length := by
  unfold labelCount
  congr 1
  apply List.filter_congr
  intro r hr
  rw [getLast?_eq_labelOf r (hrows r hr)]
  simp

end DecisionTree

namespace DecisionTree

/-- C7 (no-features-left termination).  For a header sequence of length 1 and
a dataset of rows that all have a label, two of them with different labels:
`buildTree` returns a leaf whose label is the label of some row and is a most
frequent label, that is, no label occurs in strictly more rows.  This holds for
every map iteration order. -/
theorem buildTree_majority_leaf (ord : List String → IterOrder) (data : List Row)
    (headers : List String) (hh : headers.length = 1) (hrows : ∀ r ∈ data, r ≠ [])
    (hlabels : ∃ r1 ∈ data, ∃ r2 ∈ data, r1.getLast? ≠ r2.getLast?) :
    ∃ l, buildTree ord data headers = some (leafNode l) ∧ (leafNode l).IsLeaf = true ∧
      (∃ r ∈ data, r.getLast? = some l) ∧
      ∀ l', (data.filter (fun r => decide (r.getLast? = some l'))).length ≤
        (data.filter (fun r => decide (r.getLast? = some l))).length := by
  have hne : data ≠ [] := by
    obtain ⟨r1, hr1, _⟩ := hlabels
    exact List.ne_nil_of_mem hr1
  obtain ⟨l, _, _, _, hm, hl, _, _, hmax⟩ := mostCommonLabel_spec (ord []) data hne hrows
  refine ⟨l, ?_, rfl, ?_, ?_⟩
  · rw [buildTree_majority ord data headers _ (collectLabels_eq data hrows)
      (labels_not_uniform data hrows hlabels) hh, hm]
    rfl
  · obtain ⟨r, hr, hrl⟩ := List.mem_map.1 hl
    exact ⟨r, hr, by rw [getLast?_eq_labelOf r (hrows r hr), hrl]⟩
  · intro l'
    rw [← labelCount_eq_filter data l' hrows, ← labelCount_eq_filter data l hrows]
    exact hmax l'

/-- Three label-only rows, "yes" twice and "no" once. -/
theorem buildTree_majority_leaf_witness :
    ∃ l, buildTree (fun _ => IterOrder.insertion) [["yes"], ["no"], ["yes"]] ["play"] =
        some (leafNode l) ∧ (leafNode l).IsLeaf = true ∧
      (∃ r ∈ ([["yes"], ["no"], ["yes"]] : List Row), r.getLast? = some l) ∧
      ∀ l', (([["yes"], ["no"], ["yes"]] : List Row).filter
          (fun r => decide (r.getLast? = some l'))).length ≤
        (([["yes"], ["no"], ["yes"]] : List Row).filter
          (fun r => decide (r.getLast? = some l))).length :=
  buildTree_majority_leaf (fun _ => IterOrder.insertion) [["yes"], ["no"], ["yes"]] ["play"]
    (by decide) (by decide) (by decide)

/-- C8, the claim refuted.  The rows with labels "a" then "b" tie at one row
each and "a" is encountered first; when the counts map is visited in the
reverse of insertion order, which Go permits, `mostCommonLabel` returns "b". -/
theorem mostCommonLabel_not_first_encountered :
    mostCommonLabel IterOrder.insertion [["a"], ["b"]] = some "a" ∧
    mostCommonLabel IterOrder.reversed [["a"], ["b"]] = some "b" ∧
    mostCommonLabel IterOrder.reversed [["a"], ["b"]] ≠ some "a" := by
  decide

/-- C8 as amended.  For a non-empty list of rows that all have a label,
`mostCommonLabel` returns a label of maximum count, and among the labels
sharing the maximum count it returns the one the iteration over the counts map
visits first: every entry visited before it has a strictly smaller count.  The
counts map itself lists the labels in order of first occurrence. -/
theorem mostCommonLabel_first_visited (it : IterOrder) (data : List Row) (hne : data ≠ [])
    (hrows : ∀ r ∈ data, r ≠ []) :
    ∃ counts l c pre post,
      countLabels data [] = some counts ∧
      counts.map Prod.fst = firstSeen (data.map labelOf) ∧
      it.visit counts = pre ++ (l, c) :: post ∧
      mostCommonLabel it data = some l ∧
      c = (data.filter (fun r => decide (r.getLast? = some l))).length ∧
      (∀ e ∈ pre, e.2 < c) ∧ (∀ e ∈ post, e.2 ≤ c) ∧
      ∀ l', (data.filter (fun r => decide (r.getLast? = some l'))).length ≤ c := by
  obtain ⟨l, pre, post, hvisit, hm, _, hpre, hpost, hmax⟩ :=
    mostCommonLabel_spec it data hne hrows
  refine ⟨_, l, labelCount data l, pre, post, countLabels_eq data hrows, ?_, hvisit, hm,
    labelCount_eq_filter data l hrows, hpre, hpost, ?_⟩
  · rw [List.map_map]
    have hid : (Prod.fst ∘ fun l => (l, labelCount data l)) = id := rfl
    rw [hid, List.map_id]
  · intro l'
    rw [← labelCount_eq_filter data l' hrows]
    exact hmax l'

/-- The tied rows "a", "b" under the reversed iteration. -/
theorem mostCommonLabel_first_visited_witness :
    ∃ counts l c pre post,
      countLabels [["a"], ["b"]] [] = some counts ∧
      counts.map Prod.fst = firstSeen (([["a"], ["b"]] : List Row).map labelOf) ∧
      IterOrder.reversed.visit counts = pre ++ (l, c) :: post ∧
      mostCommonLabel IterOrder.reversed [["a"], ["b"]] = some l ∧
      c = (([["a"], ["b"]] : List Row).filter
        (fun r => decide (r.getLast? = some l))).length ∧
      (∀ e ∈ pre, e.2 < c) ∧ (∀ e ∈ post, e.2 ≤ c) ∧
      ∀ l', (([["a"], ["b"]] : List Row).filter
        (fun r => decide (r.getLast? = some l'))).length ≤ c :=
  mostCommonLabel_first_visited IterOrder.reversed [["a"], ["b"]] (by decide) (by decide)

end DecisionTree

namespace DecisionTree

/-! ### Termination and depth -/

/-- C9 (structural termination and depth bound).  For headers of length at
least 1 and a dataset whose rows all have the length of the headers,
`buildTree` returns a tree; that tree has at most `len(headers) - 1` Internal
nodes on any path from the root; and when the root is Internal, each child is
the result of the recursive call on a header list exactly one shorter than
`headers` (the headers without the selected column). -/
theorem buildTree_terminates_depth (ord : List String → IterOrder) (data : List Row)
    (headers : List String) (hpos : 1 ≤ headers.length)
    (hlen : ∀ row ∈ data, row.length = headers.length) :
    ∃ t, buildTree ord data headers = some t ∧ t.depth ≤ headers.length - 1 ∧
      (t.IsLeaf = false →
        ∃ b : Nat, selectBest data headers = some (b : Int) ∧
          (removeAt headers b).length + 1 = headers.length ∧
          ∀ v c, (v, c) ∈ t.Children →
            buildTree (fun path => ord (v :: path)) (childData data b v) (removeAt headers b)
              = some c) := by
  apply buildTree_induction
    (fun ord data headers t => t.depth ≤ headers.length - 1 ∧
      (t.IsLeaf = false →
        ∃ b : Nat, selectBest data headers = some (b : Int) ∧
          (removeAt headers b).length + 1 = headers.length ∧
          ∀ v c, (v, c) ∈ t.Children →
            buildTree (fun path => ord (v :: path)) (childData data b v) (removeAt headers b)
              = some c))
  · intro _ _ _ label _ _
    exact ⟨by simp [depth_leafNode], fun h => by simp [leafNode, Node.IsLeaf] at h⟩
  · intro _ _ _ l _ _ _ _
    exact ⟨by simp [depth_leafNode], fun h => by simp [leafNode, Node.IsLeaf] at h⟩
  · intro ord data headers b feature children _ hk _ hsel hb _ _ hall
    have hrem : (removeAt headers b).length = headers.length - 1 :=
      removeAt_length headers b (by omega)
    constructor
    · rw [depth_internalNode]
      have := depthChildren_le children (headers.length - 1 - 1) (by
        intro v c hmem
        have := (hall v c hmem).2.1
        rw [hrem] at this
        exact this)
      omega
    · intro _
      exact ⟨b, hsel, by omega, fun v c hmem => (hall v c hmem).1⟩
  · exact ⟨hpos, hlen⟩

/-- The weather rows of Scenario A: the tree has at most two Internal nodes on
a path. -/
theorem buildTree_terminates_depth_witness :
    ∃ t, buildTree (fun _ => IterOrder.insertion)
        [["sunny", "hot", "no"], ["sunny", "cool", "yes"], ["rainy", "cool", "yes"],
          ["rainy", "hot", "no"]]
        ["weather", "temp", "play"] = some t ∧ t.depth ≤ 3 - 1 ∧
      (t.IsLeaf = false →
        ∃ b : Nat, selectBest [["sunny", "hot", "no"], ["sunny", "cool", "yes"],
            ["rainy", "cool", "yes"], ["rainy", "hot", "no"]]
            ["weather", "temp", "play"] = some (b : Int) ∧
          (removeAt ["weather", "temp", "play"] b).length + 1 = 3 ∧
          ∀ v c, (v, c) ∈ t.Children →
            buildTree (fun path => IterOrder.insertion)
              (childData [["sunny", "hot", "no"], ["sunny", "cool", "yes"],
                ["rainy", "cool", "yes"], ["rainy", "hot", "no"]] b v)
              (removeAt ["weather", "temp", "play"] b) = some c) :=
  buildTree_terminates_depth (fun _ => IterOrder.insertion)
    [["sunny", "hot", "no"], ["sunny", "cool", "yes"], ["rainy", "cool", "yes"],
      ["rainy", "hot", "no"]]
    ["weather", "temp", "play"] (by decide) (by decide)

end DecisionTree

namespace DecisionTree

/-! ### The range of the entropy -/

theorem entTerm_eq_mul_log_inv (p : ℝ) :
    entTerm p = (Real.log 2)⁻¹ * (p * Real.log p⁻¹) := by
  simp only [entTerm, Real.logb, Real.log_inv]
  field_simp

theorem labelProb_pos (data : List Row) (l : String) (h : l ∈ data.map labelOf) :
    (0 : ℝ) < (labelCount data l : ℝ) / (data.length : ℝ) := by
  have h1 : (0 : ℝ) < labelCount data l := by exact_mod_cast labelCount_pos data l h
  have h2 : (0 : ℝ) < data.length := by
    have := lt_of_lt_of_le (labelCount_pos data l h) (labelCount_le data l)
    exact_mod_cast this
  exact div_pos h1 h2

theorem labelProb_le_one (data : List Row) (l : String) (hne : data ≠ []) :
    (labelCount data l : ℝ) / (data.length : ℝ) ≤ 1 := by
  have h2 : (0 : ℝ) < data.length := by
    exact_mod_cast List.length_pos.2 hne
  rw [div_le_one h2]
  exact_mod_cast labelCount_le data l

theorem sum_labelProb (data : List Row) (hne : data ≠ []) :
    ∑ l in (data.map labelOf).toFinset, (labelCount data l : ℝ) / (data.length : ℝ) = 1 := by
  have h2 : (data.length : ℝ) ≠ 0 := by
    have := List.length_pos.2 hne
    exact_mod_cast (Nat.pos_iff_ne_zero.1 this)
  rw [← Finset.sum_div, ← Nat.cast_sum, sum_labelCount, div_self h2]

/-- The entropy of a non-empty dataset is at most `log2` of the number of
distinct labels. -/
theorem entropyValue_le_logb (data : List Row) (hne : data ≠ []) :
    entropyValue data ≤ Real.logb 2 ((data.map labelOf).toFinset.card : ℝ) := by
  have hj := (strictConcaveOn_log_Ioi.concaveOn).le_map_sum
    (t := (data.map labelOf).toFinset)
    (w := fun l => (labelCount data l : ℝ) / (data.length : ℝ))
    (p := fun l => ((labelCount data l : ℝ) / (data.length : ℝ))⁻¹)
    (fun l hl => le_of_lt (labelProb_pos data l (List.mem_toFinset.1 hl)))
    (sum_labelProb data hne)
    (fun l hl => Set.mem_Ioi.2 (inv_pos.2 (labelProb_pos data l (List.mem_toFinset.1 hl))))
  simp only [smul_eq_mul] at hj
  have hone : ∑ l in (data.map labelOf).toFinset,
      (labelCount data l : ℝ) / (data.length : ℝ) *
        ((labelCount data l : ℝ) / (data.length : ℝ))⁻¹ =
      ((data.map labelOf).toFinset.card : ℝ) := by
    rw [Finset.card_eq_sum_ones, Nat.cast_sum]
    apply Finset.sum_congr rfl
    intro l hl
    have := labelProb_pos data l (List.mem_toFinset.1 hl)
    rw [mul_inv_cancel₀ (ne_of_gt this)]
    simp
  rw [hone] at hj
  have hval : entropyValue data = (Real.log 2)⁻¹ *
      ∑ l in (data.map labelOf).toFinset,
        (labelCount data l : ℝ) / (data.length : ℝ) *
          Real.log ((labelCount data l : ℝ) / (data.length : ℝ))⁻¹ := by
    unfold entropyValue
    rw [Finset.mul_sum]
    apply Finset.sum_congr rfl
    intro l _
    exact entTerm_eq_mul_log_inv _
  rw [hval, Real.logb, div_eq_inv_mul]
  exact mul_le_mul_of_nonneg_left hj (le_of_lt (inv_pos.2 log_two_pos))

/-- The entropy of a non-empty dataset is 0 exactly when all rows carry the
same label. -/
theorem entropyValue_eq_zero_iff (data : List Row) (hne : data ≠ []) :
    entropyValue data = 0 ↔ ∃ L, ∀ r ∈ data, labelOf r = L := by
  have hnonneg : ∀ l ∈ (data.map labelOf).toFinset,
      0 ≤ entTerm ((labelCount data l : ℝ) / (data.length : ℝ)) := by
    intro l hl
    exact entTerm_nonneg _ (le_of_lt (labelProb_pos data l (List.mem_toFinset.1 hl)))
      (labelProb_le_one data l hne)
  have hN : (0 : ℝ) < data.length := by exact_mod_cast List.length_pos.2 hne
  unfold entropyValue
  rw [Finset.sum_eq_zero_iff_of_nonneg hnonneg]
  constructor
  · intro hall
    obtain ⟨r0, hr0⟩ := List.exists_mem_of_ne_nil data hne
    refine ⟨labelOf r0, ?_⟩
    have hmem : labelOf r0 ∈ data.map labelOf := List.mem_map_of_mem _ hr0
    have h1 := (entTerm_eq_zero_iff _ (labelProb_pos data _ hmem)
      (labelProb_le_one data _ hne)).1 (hall _ (List.mem_toFinset.2 hmem))
    rw [div_eq_one_iff_eq (ne_of_gt hN)] at h1
    have h2 : labelCount data (labelOf r0) = data.length := by exact_mod_cast h1
    unfold labelCount at h2
    rw [List.filter_length_eq_length] at h2
    intro r hr
    simpa using h2 r hr
  · rintro ⟨L, hL⟩ l hl
    obtain ⟨r, hr, rfl⟩ := List.mem_map.1 (List.mem_toFinset.1 hl)
    have h2 : labelCount data (labelOf r) = data.length := by
      unfold labelCount
      rw [List.filter_length_eq_length]
      intro r' hr'
      simp [hL r' hr', hL r hr]
    rw [h2, div_self (ne_of_gt hN)]
    exact entTerm_one

/-- C10 (entropy range).  For a non-empty list of non-empty rows, `entropy`
returns a value; read over the reals it is the sum `-Σ p_c log2 p_c` over the
distinct labels, it lies between 0 and `log2 d` where `d` is the number of
distinct labels (the number of keys of the counts map), and it is 0 exactly
when all rows share one label. -/
theorem entropy_range (data : List Row) (hne : data ≠ []) (hrows : ∀ r ∈ data, r ≠ []) :
    ∃ counts e, countLabels data [] = some counts ∧ entropy data = some e ∧
      e = entropyValue data ∧
      counts.length = (data.map labelOf).toFinset.card ∧
      0 ≤ e ∧ e ≤ Real.logb 2 (counts.length : ℝ) ∧
      (e = 0 ↔ ∃ L, ∀ r ∈ data, r.getLast? = some L) := by
  have hcard : ((firstSeen (data.map labelOf)).map
      (fun l => (l, labelCount data l))).length = (data.map labelOf).toFinset.card := by
    rw [List.length_map, ← toFinset_firstSeen, List.toFinset_card_of_nodup (nodup_firstSeen _)]
  refine ⟨_, entropyValue data, countLabels_eq data hrows, entropy_eq data hrows, rfl, hcard,
    entropyValue_nonneg data, ?_, ?_⟩
  · rw [hcard]
    exact entropyValue_le_logb data hne
  · rw [entropyValue_eq_zero_iff data hne]
    constructor
    · rintro ⟨L, hL⟩
      exact ⟨L, fun r hr => by rw [getLast?_eq_labelOf r (hrows r hr), hL r hr]⟩
    · rintro ⟨L, hL⟩
      exact ⟨L, fun r hr => labelOf_eq_of_getLast? r L (hL r hr)⟩

/-- The weather rows of Scenario A: two labels, two rows each. -/
theorem entropy_range_witness :
    ∃ counts e, countLabels [["sunny", "hot", "no"], ["sunny", "cool", "yes"],
        ["rainy", "cool", "yes"], ["rainy", "hot", "no"]] [] = some counts ∧
      entropy [["sunny", "hot", "no"], ["sunny", "cool", "yes"], ["rainy", "cool", "yes"],
        ["rainy", "hot", "no"]] = some e ∧
      e = entropyValue [["sunny", "hot", "no"], ["sunny", "cool", "yes"],
        ["rainy", "cool", "yes"], ["rainy", "hot", "no"]] ∧
      counts.length = (([["sunny", "hot", "no"], ["sunny", "cool", "yes"],
        ["rainy", "cool", "yes"], ["rainy", "hot", "no"]] : List Row).map
          labelOf).toFinset.card ∧
      0 ≤ e ∧ e ≤ Real.logb 2 (counts.length : ℝ) ∧
      (e = 0 ↔ ∃ L, ∀ r ∈ ([["sunny", "hot", "no"], ["sunny", "cool", "yes"],
        ["rainy", "cool", "yes"], ["rainy", "hot", "no"]] : List Row), r.getLast? = some L) :=
  entropy_range [["sunny", "hot", "no"], ["sunny", "cool", "yes"], ["rainy", "cool", "yes"],
    ["rainy", "hot", "no"]] (by decide) (by decide)

end DecisionTree

namespace DecisionTree

/-! ### The selection loop on arbitrary rows -/

/-- A gain that is defined is the specification's value, and every row has
the column. -/
theorem informationGain_some (data : List Row) (c : Nat) (g : ℝ)
    (h : informationGain data c = some g) :
    (∀ r ∈ data, c < r.length) ∧ g = gainValue data c := by
  have hrows : ∀ r ∈ data, c < r.length := by
    unfold informationGain at h
    cases he : entropy data with
    | none => simp [he] at h
    | some e =>
      cases hs : splitData data c with
      | none => simp [he, hs] at h
      | some splits => exact splitData_rows data c splits hs
  refine ⟨hrows, ?_⟩
  rw [informationGain_eq data c hrows] at h
  exact (Option.some.inj h).symm

/-- When the selection loop completes, every gain it asked for was defined. -/
theorem gainLoop_defined (data : List Row) (n i : Nat) (bg : ℝ) (bi : Int) (out : ℝ × Int)
    (h : gainLoop data n i bg bi = some out) :
    ∀ j, i ≤ j → j < i + n → informationGain data j = some (gainValue data j) := by
  induction n generalizing i bg bi with
  | zero =>
    intro j h1 h2
    omega
  | succ n ih =>
    intro j h1 h2
    simp only [gainLoop] at h
    cases hg : informationGain data i with
    | none => simp [hg] at h
    | some g =>
      simp only [hg] at h
      rcases Nat.eq_or_lt_of_le h1 with heq | hlt
      · rw [← heq, hg, (informationGain_some data i g hg).2]
      · by_cases hgt : g > bg
        · simp only [hgt, if_true] at h
          exact ih (i + 1) g (i : Int) h j hlt (by omega)
        · simp only [hgt, if_false] at h
          exact ih (i + 1) bg bi h j hlt (by omega)

/-- Whenever the selection loop ends on a feature index, that index is the
first one of largest gain. -/
theorem selectBest_argmax (data : List Row) (headers : List String) (b : Nat)
    (h : selectBest data headers = some (b : Int)) :
    b < headers.length - 1 ∧
    (∀ j, j < headers.length - 1 → informationGain data j = some (gainValue data j)) ∧
    (∀ j, j < headers.length - 1 → gainValue data j ≤ gainValue data b) ∧
    (∀ j, j < b → gainValue data j < gainValue data b) := by
  unfold selectBest at h
  cases hrun : gainLoop data (headers.length - 1) 0 (-1) (-1) with
  | none => simp [hrun] at h
  | some out =>
    have hdef := gainLoop_defined data _ 0 (-1) (-1) out hrun
    obtain ⟨bg', bi', hrun', hcase⟩ :=
      gainLoop_spec data (gainValue data) (headers.length - 1) 0 (-1) (-1) hdef
    rw [hrun'] at h
    simp only [Option.map_some', Option.some.injEq] at h
    rcases hcase with ⟨hbi, _, _⟩ | ⟨b', _, hb2, hbi, _, _, hall, hfirst⟩
    · rw [hbi] at h
      omega
    · have hbb : b' = b := by
        rw [hbi] at h
        omega
      subst hbb
      exact ⟨by omega, fun j hj => hdef j (Nat.zero_le _) (by omega),
        fun j hj => hall j (Nat.zero_le _) (by omega), fun j hj => hfirst j (Nat.zero_le _) hj⟩

/-- A leaf returned by `buildTree` comes from one of the two termination
rules. -/
theorem buildTree_leaf_inv (ord : List String → IterOrder) (data : List Row)
    (headers : List String) (t : Node) (h : buildTree ord data headers = some t)
    (hleaf : t.IsLeaf = true) :
    (∃ label, collectLabels data [] = some [label] ∧ t = leafNode label) ∨
    (headers.length = 1 ∧ ∃ l, mostCommonLabel (ord []) data = some l ∧ t = leafNode l) := by
  rw [buildTree] at h
  cases hc : collectLabels data [] with
  | none => simp [hc] at h
  | some labels =>
    simp only [hc] at h
    split at h
    · rename_i label
      left
      exact ⟨label, rfl, (Option.some.inj h).symm⟩
    · by_cases hh : headers.length = 1
      · simp only [hh, if_true] at h
        cases hm : mostCommonLabel (ord []) data with
        | none => simp [hm] at h
        | some l =>
          simp only [hm, Option.map_some', Option.some.injEq] at h
          exact Or.inr ⟨hh, l, rfl, h.symm⟩
      · exfalso
        simp only [hh, if_false] at h
        cases hsel : selectBest data headers with
        | none => simp [hsel] at h
        | some bi =>
          simp only [hsel] at h
          by_cases hneg : bi < 0
          · simp [hneg] at h
          · simp only [hneg, if_false] at h
            split at h
            · cases h
            · cases hs : splitData data bi.toNat with
              | none => simp [hs] at h
              | some splits =>
                simp only [hs] at h
                cases ha : attachChildren
                    (fun val newSubset =>
                      buildTree (fun path => ord (val :: path)) newSubset
                        (removeAt headers bi.toNat))
                    bi.toNat splits with
                | none => simp [ha] at h
                | some children =>
                  simp only [ha, Option.map_some', Option.some.injEq] at h
                  rw [← h] at hleaf
                  simp [internalNode, Node.IsLeaf] at hleaf

theorem rows_of_collectLabels (data : List Row) (labels : List String)
    (h : collectLabels data [] = some labels) : ∀ r ∈ data, r ≠ [] := by
  intro r hr hnil
  rw [collectLabels_eq_none data [] ⟨r, hr, hnil⟩] at h
  cases h

end DecisionTree

namespace DecisionTree

/-- The first-argmax property of the selection loop with the gains read over
the reals.  For a dataset with two rows of
different labels and headers with at least one feature column: every node
`buildTree` returns is Internal, its feature is `headers[b]` for the index `b`
left by the selection loop, `b` is a feature index, and the information gain of
`b` is at least that of every feature index and strictly larger than that of
every smaller index; hence when all gains are equal `b` is 0, and an index
whose gain strictly exceeds every other is `b`.  When every row has the length
of the headers, `buildTree` does return a node. -/
theorem selectBest_first_argmax (ord : List String → IterOrder) (data : List Row)
    (headers : List String)
    (hk : 1 ≤ headers.length - 1)
    (hlabels : ∃ r1 ∈ data, ∃ r2 ∈ data, r1.getLast? ≠ r2.getLast?) :
    (∀ t, buildTree ord data headers = some t →
      t.IsLeaf = false ∧
      ∃ (b : Nat) (gb : ℝ),
        selectBest data headers = some (b : Int) ∧ b < headers.length - 1 ∧
        headers[b]? = some t.Feature ∧
        informationGain data b = some gb ∧
        (∀ i, i < headers.length - 1 → ∃ gi, informationGain data i = some gi ∧ gi ≤ gb) ∧
        (∀ j, j < b → ∃ gj, informationGain data j = some gj ∧ gj < gb) ∧
        ((∀ i, i < headers.length - 1 → informationGain data i = informationGain data 0) →
          b = 0) ∧
        (∀ c, c < headers.length - 1 →
          (∀ i, i < headers.length - 1 → i ≠ c →
            ∃ gi gc, informationGain data i = some gi ∧ informationGain data c = some gc ∧
              gi < gc) → b = c)) ∧
    ((∀ row ∈ data, row.length = headers.length) →
      ∃ t, buildTree ord data headers = some t) := by
  constructor
  · intro t ht
    have hint : t.IsLeaf = false := by
      cases hleaf : t.IsLeaf with
      | false => rfl
      | true =>
        exfalso
        rcases buildTree_leaf_inv ord data headers t ht hleaf with ⟨label, hc, _⟩ | ⟨hh, _⟩
        · have hrows := rows_of_collectLabels data _ hc
          rw [collectLabels_eq data hrows] at hc
          have := labels_not_uniform data hrows hlabels
          rw [Option.some.inj hc] at this
          exact this rfl
        · omega
    refine ⟨hint, ?_⟩
    obtain ⟨b, _, hsel, hf, _, _, _⟩ := buildTree_internal_inv ord data headers t ht hint
    obtain ⟨hb, hgain, hmax, hfirst⟩ := selectBest_argmax data headers b hsel
    refine ⟨b, gainValue data b, hsel, hb, hf, hgain b hb, ?_, ?_, ?_, ?_⟩
    · intro i hi
      exact ⟨gainValue data i, hgain i hi, hmax i hi⟩
    · intro j hj
      exact ⟨gainValue data j, hgain j (by omega), hfirst j hj⟩
    · intro hall
      by_contra hb0
      have h0 := hfirst 0 (Nat.pos_of_ne_zero hb0)
      have heq := hall b hb
      rw [hgain b hb, hgain 0 (by omega)] at heq
      have := Option.some.inj heq
      linarith
    · intro c hc hstrict
      by_contra hbc
      obtain ⟨gi, gc, hgi, hgc, hlt⟩ := hstrict b hb hbc
      rw [hgain b hb] at hgi
      rw [hgain c hc] at hgc
      have e1 := Option.some.inj hgi
      have e2 := Option.some.inj hgc
      have := hmax c hc
      linarith
  · intro hlen
    exact buildTree_total ord data headers ⟨by omega, hlen⟩

/-- The weather rows of Scenario A: two feature columns, labels "no" and
"yes"; a tree is returned and its root is the first index of largest gain. -/
theorem selectBest_first_argmax_witness :
    ∃ t, buildTree (fun _ => IterOrder.insertion)
        [["sunny", "hot", "no"], ["sunny", "cool", "yes"], ["rainy", "cool", "yes"],
          ["rainy", "hot", "no"]] ["weather", "temp", "play"] = some t ∧
      t.IsLeaf = false ∧
      ∃ (b : Nat) (gb : ℝ),
        selectBest [["sunny", "hot", "no"], ["sunny", "cool", "yes"],
          ["rainy", "cool", "yes"], ["rainy", "hot", "no"]]
          ["weather", "temp", "play"] = some (b : Int) ∧
        b < 2 ∧ ["weather", "temp", "play"][b]? = some t.Feature ∧
        informationGain [["sunny", "hot", "no"], ["sunny", "cool", "yes"],
          ["rainy", "cool", "yes"], ["rainy", "hot", "no"]] b = some gb ∧
        (∀ i, i < 2 → ∃ gi, informationGain [["sunny", "hot", "no"],
          ["sunny", "cool", "yes"], ["rainy", "cool", "yes"], ["rainy", "hot", "no"]] i
            = some gi ∧ gi ≤ gb) ∧
        (∀ j, j < b → ∃ gj, informationGain [["sunny", "hot", "no"],
          ["sunny", "cool", "yes"], ["rainy", "cool", "yes"], ["rainy", "hot", "no"]] j
            = some gj ∧ gj < gb) := by
  have h := selectBest_first_argmax (fun _ => IterOrder.insertion)
    [["sunny", "hot", "no"], ["sunny", "cool", "yes"], ["rainy", "cool", "yes"],
      ["rainy", "hot", "no"]]
    ["weather", "temp", "play"] (by decide) (by decide)
  obtain ⟨t, ht⟩ := h.2 (by decide)
  obtain ⟨hint, b, gb, hsel, hb, hf, hgb, hmax, hfirst, _, _⟩ := h.1 t ht
  exact ⟨t, ht, hint, b, gb, hsel, hb, hf, hgb, hmax, hfirst⟩

end DecisionTree

namespace DecisionTree

/-! ### Information gain: bounds and the perfectly determining column -/

/-- The weighted entropy as the list sum over the groups `splitData` returns. -/
theorem weightedValue_eq_sum (data : List Row) (c : Nat) :
    (((firstSeen (data.map (fieldOf c))).map (fun v => (v, rowsWith data c v))).map
      (fun kv => ((kv.2.length : ℝ) / (data.length : ℝ)) * entropyValue kv.2)).sum =
      weightedValue data c := by
  rw [List.map_map, weightedValue, ← toFinset_firstSeen,
    List.sum_toFinset _ (nodup_firstSeen _)]
  rfl

theorem rows_ne_nil_of_col (data : List Row) (c : Nat) (h : ∀ r ∈ data, c < r.length) :
    ∀ r ∈ data, r ≠ [] := by
  intro r hr hnil
  have := h r hr
  rw [hnil] at this
  simp at this

theorem entropy_group (data : List Row) (c : Nat) (h : ∀ r ∈ data, c < r.length)
    (kv : String × List Row)
    (hkv : kv ∈ (firstSeen (data.map (fieldOf c))).map (fun v => (v, rowsWith data c v))) :
    entropy kv.2 = some (entropyValue kv.2) := by
  obtain ⟨v, _, rfl⟩ := List.mem_map.1 hkv
  apply entropy_eq
  intro r hr
  exact rows_ne_nil_of_col data c h r ((mem_rowsWith data c v r).1 hr).1

/-- C20 (information gain is non-negative).  For a dataset whose rows all have
column `c`, `informationGain` returns a value which, over the reals, is
`entropy(data)` minus the sum over the groups of `splitData(data, c)` of
`(|group| / |data|) * entropy(group)`; that value is at least 0 and at most
`entropy(data)`. -/
theorem informationGain_bounds (data : List Row) (c : Nat) (h : ∀ r ∈ data, c < r.length) :
    ∃ g e splits, informationGain data c = some g ∧ entropy data = some e ∧
      splitData data c = some splits ∧
      (∀ kv ∈ splits, entropy kv.2 = some (entropyValue kv.2)) ∧
      g = e - (splits.map
        (fun kv => ((kv.2.length : ℝ) / (data.length : ℝ)) * entropyValue kv.2)).sum ∧
      0 ≤ g ∧ g ≤ e := by
  refine ⟨gainValue data c, entropyValue data, _, informationGain_eq data c h,
    entropy_eq data (rows_ne_nil_of_col data c h), splitData_eq data c h,
    entropy_group data c h, ?_, gainValue_nonneg data c, gainValue_le_entropyValue data c⟩
  rw [weightedValue_eq_sum]
  rfl

/-- The weather rows of Scenario A, column 0. -/
theorem informationGain_bounds_witness :
    ∃ g e splits,
      informationGain [["sunny", "hot", "no"], ["sunny", "cool", "yes"],
        ["rainy", "cool", "yes"], ["rainy", "hot", "no"]] 0 = some g ∧
      entropy [["sunny", "hot", "no"], ["sunny", "cool", "yes"], ["rainy", "cool", "yes"],
        ["rainy", "hot", "no"]] = some e ∧
      splitData [["sunny", "hot", "no"], ["sunny", "cool", "yes"], ["rainy", "cool", "yes"],
        ["rainy", "hot", "no"]] 0 = some splits ∧
      (∀ kv ∈ splits, entropy kv.2 = some (entropyValue kv.2)) ∧
      g = e - (splits.map
        (fun kv => ((kv.2.length : ℝ) /
          (([["sunny", "hot", "no"], ["sunny", "cool", "yes"], ["rainy", "cool", "yes"],
            ["rainy", "hot", "no"]] : List Row).length : ℝ)) * entropyValue kv.2)).sum ∧
      0 ≤ g ∧ g ≤ e :=
  informationGain_bounds [["sunny", "hot", "no"], ["sunny", "cool", "yes"],
    ["rainy", "cool", "yes"], ["rainy", "hot", "no"]] 0 (by decide)

/-- When column `c` determines the label, every group of the partition has
entropy 0 and the weighted entropy vanishes. -/
theorem weightedValue_determining (data : List Row) (c : Nat)
    (hdet : ∀ r1 ∈ data, ∀ r2 ∈ data, fieldOf c r1 = fieldOf c r2 → labelOf r1 = labelOf r2) :
    (∀ v ∈ data.map (fieldOf c), entropyValue (rowsWith data c v) = 0) ∧
      weightedValue data c = 0 := by
  have hgroup : ∀ v ∈ data.map (fieldOf c), entropyValue (rowsWith data c v) = 0 := by
    intro v hv
    have hpos := rowsWith_length_pos data c v hv
    rw [entropyValue_eq_zero_iff _ (List.ne_nil_of_length_pos hpos)]
    obtain ⟨r0, hr0⟩ := List.exists_mem_of_ne_nil _ (List.ne_nil_of_length_pos hpos)
    refine ⟨labelOf r0, ?_⟩
    intro r hr
    rw [mem_rowsWith] at hr hr0
    exact hdet r hr.1 r0 hr0.1 (by rw [hr.2, hr0.2])
  refine ⟨hgroup, ?_⟩
  unfold weightedValue
  apply Finset.sum_eq_zero
  intro v hv
  rw [hgroup v (List.mem_toFinset.1 hv), mul_zero]

/-- The perfectly determining column, over the reals.  For a dataset whose rows
all have column `c`, in which any two rows with the same value in column `c` have the
same label: every group of `splitData(data, c)` has entropy 0 and
`informationGain(data, c)` equals `entropy(data)`. -/
theorem informationGain_determining (data : List Row) (c : Nat)
    (h : ∀ r ∈ data, c < r.length)
    (hdet : ∀ r1 ∈ data, ∀ r2 ∈ data, r1[c]? = r2[c]? → r1.getLast? = r2.getLast?) :
    ∃ g splits, informationGain data c = some g ∧ entropy data = some g ∧
      splitData data c = some splits ∧ ∀ kv ∈ splits, entropy kv.2 = some 0 := by
  have hne := rows_ne_nil_of_col data c h
  have hdet' : ∀ r1 ∈ data, ∀ r2 ∈ data, fieldOf c r1 = fieldOf c r2 →
      labelOf r1 = labelOf r2 := by
    intro r1 hr1 r2 hr2 hf
    have := hdet r1 hr1 r2 hr2
      (by rw [getElem?_eq_fieldOf c r1 (h r1 hr1), getElem?_eq_fieldOf c r2 (h r2 hr2), hf])
    rw [getLast?_eq_labelOf r1 (hne r1 hr1), getLast?_eq_labelOf r2 (hne r2 hr2)] at this
    exact Option.some.inj this
  obtain ⟨hgroup, hw⟩ := weightedValue_determining data c hdet'
  refine ⟨gainValue data c, _, informationGain_eq data c h, ?_, splitData_eq data c h, ?_⟩
  · rw [entropy_eq data hne, gainValue, hw, sub_zero]
  · intro kv hkv
    rw [entropy_group data c h kv hkv]
    obtain ⟨v, hv, rfl⟩ := List.mem_map.1 hkv
    rw [hgroup v ((mem_firstSeen _ _).1 hv)]

/-- The weather rows of Scenario A: column 1 ("temp") determines the label. -/
theorem informationGain_determining_witness :
    ∃ g splits,
      informationGain [["sunny", "hot", "no"], ["sunny", "cool", "yes"],
        ["rainy", "cool", "yes"], ["rainy", "hot", "no"]] 1 = some g ∧
      entropy [["sunny", "hot", "no"], ["sunny", "cool", "yes"], ["rainy", "cool", "yes"],
        ["rainy", "hot", "no"]] = some g ∧
      splitData [["sunny", "hot", "no"], ["sunny", "cool", "yes"], ["rainy", "cool", "yes"],
        ["rainy", "hot", "no"]] 1 = some splits ∧
      ∀ kv ∈ splits, entropy kv.2 = some 0 :=
  informationGain_determining [["sunny", "hot", "no"], ["sunny", "cool", "yes"],
    ["rainy", "cool", "yes"], ["rainy", "hot", "no"]] 1 (by decide) (by decide)

end DecisionTree

namespace DecisionTree

/-! ### Evaluating the numeric functions on concrete rows -/

theorem logb_two_half : Real.logb 2 (1 / 2) = -1 := by
  rw [one_div, Real.logb_inv, Real.logb_self_eq_one (by norm_num)]

/-- Two labels with the same count give entropy 1. -/
theorem entropy_balanced (data : List Row) (a b : String) (n : Nat)
    (hc : countLabels data [] = some [(a, n), (b, n)]) (hlen : data.length = 2 * n)
    (hn : 0 < n) : entropy data = some 1 := by
  have h0 : data.length ≠ 0 := by omega
  have hn' : (n : ℝ) ≠ 0 := by exact_mod_cast (Nat.pos_iff_ne_zero.1 hn)
  have hhalf : (n : ℝ) / ((2 * n : Nat) : ℝ) = 1 / 2 := by
    push_cast
    field_simp
    ring
  unfold entropy
  rw [if_neg h0]
  simp only [hc, List.foldl_cons, List.foldl_nil, entropyStep, hlen, hhalf, logb_two_half]
  norm_num

/-- A single label gives entropy 0. -/
theorem entropy_single (data : List Row) (a : String) (n : Nat)
    (hc : countLabels data [] = some [(a, n)]) (hlen : data.length = n) (hn : 0 < n) :
    entropy data = some 0 := by
  have h0 : data.length ≠ 0 := by omega
  have hn' : (n : ℝ) ≠ 0 := by exact_mod_cast (Nat.pos_iff_ne_zero.1 hn)
  unfold entropy
  rw [if_neg h0]
  simp only [hc, List.foldl_cons, List.foldl_nil, entropyStep, hlen, div_self hn',
    Real.logb_one]
  norm_num

theorem entropy_scenarioA : entropy scenarioA = some 1 :=
  entropy_balanced scenarioA "no" "yes" 2 (by decide) (by decide) (by decide)

/-- Splitting Scenario A on "weather" leaves entropy 1 in each branch, so the
gain of column 0 is 0. -/
theorem gain_scenarioA_weather :
    splitData scenarioA 0 =
      some [("sunny", [["sunny", "hot", "no"], ["sunny", "cool", "yes"]]),
        ("rainy", [["rainy", "cool", "yes"], ["rainy", "hot", "no"]])] ∧
    entropy [["sunny", "hot", "no"], ["sunny", "cool", "yes"]] = some 1 ∧
    entropy [["rainy", "cool", "yes"], ["rainy", "hot", "no"]] = some 1 ∧
    informationGain scenarioA 0 = some 0 := by
  have hs : splitData scenarioA 0 =
      some [("sunny", [["sunny", "hot", "no"], ["sunny", "cool", "yes"]]),
        ("rainy", [["rainy", "cool", "yes"], ["rainy", "hot", "no"]])] := by decide
  have h1 : entropy [["sunny", "hot", "no"], ["sunny", "cool", "yes"]] = some 1 :=
    entropy_balanced _ "no" "yes" 1 (by decide) (by decide) (by decide)
  have h2 : entropy [["rainy", "cool", "yes"], ["rainy", "hot", "no"]] = some 1 :=
    entropy_balanced _ "yes" "no" 1 (by decide) (by decide) (by decide)
  refine ⟨hs, h1, h2, ?_⟩
  have hl : scenarioA.length = 4 := by decide
  unfold informationGain
  simp only [entropy_scenarioA, hs, weightedLoop, h1, h2, hl, List.length_cons,
    List.length_nil]
  norm_num

/-- Splitting Scenario A on "temp" leaves entropy 0 in each branch, so the gain
of column 1 is 1. -/
theorem gain_scenarioA_temp :
    splitData scenarioA 1 =
      some [("hot", [["sunny", "hot", "no"], ["rainy", "hot", "no"]]),
        ("cool", [["sunny", "cool", "yes"], ["rainy", "cool", "yes"]])] ∧
    entropy [["sunny", "hot", "no"], ["rainy", "hot", "no"]] = some 0 ∧
    entropy [["sunny", "cool", "yes"], ["rainy", "cool", "yes"]] = some 0 ∧
    informationGain scenarioA 1 = some 1 := by
  have hs : splitData scenarioA 1 =
      some [("hot", [["sunny", "hot", "no"], ["rainy", "hot", "no"]]),
        ("cool", [["sunny", "cool", "yes"], ["rainy", "cool", "yes"]])] := by decide
  have h1 : entropy [["sunny", "hot", "no"], ["rainy", "hot", "no"]] = some 0 :=
    entropy_single _ "no" 2 (by decide) (by decide) (by decide)
  have h2 : entropy [["sunny", "cool", "yes"], ["rainy", "cool", "yes"]] = some 0 :=
    entropy_single _ "yes" 2 (by decide) (by decide) (by decide)
  refine ⟨hs, h1, h2, ?_⟩
  have hl : scenarioA.length = 4 := by decide
  unfold informationGain
  simp only [entropy_scenarioA, hs, weightedLoop, h1, h2, hl, List.length_cons,
    List.length_nil]
  norm_num

theorem selectBest_scenarioA : selectBest scenarioA scenarioAHeaders = some 1 := by
  have hk : scenarioAHeaders.length - 1 = 2 := by decide
  unfold selectBest
  rw [hk]
  simp only [gainLoop, gain_scenarioA_weather.2.2.2, gain_scenarioA_temp.2.2.2]
  norm_num

/-- The tree `buildTree` returns for Scenario A: the root tests "temp". -/
theorem buildTree_scenarioA (ord : List String → IterOrder) :
    buildTree ord scenarioA scenarioAHeaders =
      some (internalNode "temp" [("hot", leafNode "no"), ("cool", leafNode "yes")]) := by
  rw [buildTree_split ord scenarioA scenarioAHeaders ["no", "yes"] 1 "temp" _
    (by decide) (by decide) (by decide) selectBest_scenarioA (by decide)
    gain_scenarioA_temp.1]
  have h1 : ∀ o : List String → IterOrder,
      buildTree o [["sunny", "no"], ["rainy", "no"]] ["weather", "play"] =
        some (leafNode "no") :=
    fun o => buildTree_pure o _ _ "no" (by decide)
  have h2 : ∀ o : List String → IterOrder,
      buildTree o [["sunny", "yes"], ["rainy", "yes"]] ["weather", "play"] =
        some (leafNode "yes") :=
    fun o => buildTree_pure o _ _ "yes" (by decide)
  simp [attachChildren, removeAt, scenarioAHeaders, h1, h2]

end DecisionTree

namespace DecisionTree

/-! ### Scenario A -/

/-- C12, the claim refuted.  On Scenario A the branches of "weather" have
entropy 1, not 0, and the root `buildTree` returns tests "temp", not
"weather". -/
theorem scenarioA_root_not_weather :
    splitData scenarioA 0 =
      some [("sunny", [["sunny", "hot", "no"], ["sunny", "cool", "yes"]]),
        ("rainy", [["rainy", "cool", "yes"], ["rainy", "hot", "no"]])] ∧
    entropy [["sunny", "hot", "no"], ["sunny", "cool", "yes"]] ≠ some 0 ∧
    entropy [["rainy", "cool", "yes"], ["rainy", "hot", "no"]] ≠ some 0 ∧
    ∃ t, buildTree (fun _ => IterOrder.insertion)
        [["sunny", "hot", "no"], ["sunny", "cool", "yes"], ["rainy", "cool", "yes"],
          ["rainy", "hot", "no"]] ["weather", "temp", "play"] = some t ∧
      t.IsLeaf = false ∧ t.Feature ≠ "weather" := by
  obtain ⟨hs, h1, h2, _⟩ := gain_scenarioA_weather
  refine ⟨hs, ?_, ?_, _, buildTree_scenarioA _, rfl, by decide⟩
  · rw [h1]
    norm_num
  · rw [h2]
    norm_num

/-- C12 as amended.  On Scenario A the feature "weather" leaves entropy 1 in
each branch (gain 0) while "temp" leaves entropy 0 in each branch (gain 1);
`buildTree` returns an Internal root whose feature is "temp" and whose every
child is a Leaf: "hot" gives "no", "cool" gives "yes". -/
theorem scenarioA_tree_shape (ord : List String → IterOrder) :
    scenarioA = [["sunny", "hot", "no"], ["sunny", "cool", "yes"], ["rainy", "cool", "yes"],
      ["rainy", "hot", "no"]] ∧
    scenarioAHeaders = ["weather", "temp", "play"] ∧
    informationGain scenarioA 0 = some 0 ∧ informationGain scenarioA 1 = some 1 ∧
    (∃ splits, splitData scenarioA 0 = some splits ∧ ∀ kv ∈ splits, entropy kv.2 = some 1) ∧
    (∃ splits, splitData scenarioA 1 = some splits ∧ ∀ kv ∈ splits, entropy kv.2 = some 0) ∧
    ∃ t, buildTree ord scenarioA scenarioAHeaders = some t ∧
      t.IsLeaf = false ∧ t.Feature = "temp" ∧
      t.Children = [("hot", leafNode "no"), ("cool", leafNode "yes")] ∧
      ∀ vc ∈ t.Children, vc.2.IsLeaf = true := by
  obtain ⟨hs, h1, h2, hg⟩ := gain_scenarioA_temp
  obtain ⟨hs0, h10, h20, hg0⟩ := gain_scenarioA_weather
  refine ⟨rfl, rfl, hg0, hg, ⟨_, hs0, ?_⟩, ⟨_, hs, ?_⟩, _, buildTree_scenarioA ord,
    rfl, rfl, rfl, ?_⟩
  · intro kv hkv
    simp only [List.mem_cons, List.mem_singleton, List.not_mem_nil, or_false] at hkv
    rcases hkv with rfl | rfl
    · exact h10
    · exact h20
  · intro kv hkv
    simp only [List.mem_cons, List.mem_singleton, List.not_mem_nil, or_false] at hkv
    rcases hkv with rfl | rfl
    · exact h1
    · exact h2
  · intro vc hvc
    simp only [internalNode, Node.Children, List.mem_cons, List.mem_singleton,
      List.not_mem_nil, or_false] at hvc
    rcases hvc with rfl | rfl <;> rfl

/-! ### Inputs outside and inside the domain of `buildTree` -/

/-- C13, the claim refuted.  With no header at all the length check does not
fire: on the empty dataset the selection loop makes no iteration and
`headers[bestIndex]` is `headers[-1]`; on a dataset holding one row of length 0
the label lookup `row[len(row)-1]` is out of range. -/
theorem buildTree_no_headers_fails :
    selectBest [] [] = some (-1) ∧
    buildTree (fun _ => IterOrder.insertion) [] [] = none ∧
    buildTree (fun _ => IterOrder.insertion) [[]] [] = none := by
  have hsel : selectBest [] [] = some (-1) := by simp [selectBest, gainLoop]
  refine ⟨hsel, ?_, ?_⟩
  · rw [buildTree]
    simp [collectLabels, hsel]
  · rw [buildTree]
    simp [collectLabels]

/-- C13 as amended.  For headers of length at least 1 and every dataset, the
empty one included, whose rows all have the length of the headers, `buildTree`
returns a node; with exactly one header the node is a Leaf (feature selection
does not run with zero feature columns), and an Internal node is returned only
when the selection loop ended on a feature index in range. -/
theorem buildTree_returns_node (ord : List String → IterOrder) (data : List Row)
    (headers : List String) (hpos : 1 ≤ headers.length)
    (hlen : ∀ row ∈ data, row.length = headers.length) :
    ∃ t, buildTree ord data headers = some t ∧
      (headers.length = 1 → t.IsLeaf = true) ∧
      (t.IsLeaf = false →
        ∃ (b : Nat) (feature : String), selectBest data headers = some (b : Int) ∧
          b < headers.length - 1 ∧ headers[b]? = some feature ∧
          ∀ row ∈ data, b < row.length) := by
  apply buildTree_induction
    (fun _ data headers t => (headers.length = 1 → t.IsLeaf = true) ∧
      (t.IsLeaf = false →
        ∃ (b : Nat) (feature : String), selectBest data headers = some (b : Int) ∧
          b < headers.length - 1 ∧ headers[b]? = some feature ∧
          ∀ row ∈ data, b < row.length))
  · intro _ _ _ label _ _
    exact ⟨fun _ => rfl, fun h => by simp [leafNode, Node.IsLeaf] at h⟩
  · intro _ _ _ l _ _ _ _
    exact ⟨fun _ => rfl, fun h => by simp [leafNode, Node.IsLeaf] at h⟩
  · intro _ data headers b feature children hwf hk _ hsel hb hf _ _
    refine ⟨fun h => by omega, fun _ => ⟨b, feature, hsel, hb, hf, ?_⟩⟩
    intro row hrow
    rw [hwf.2 row hrow]
    omega
  · exact ⟨hpos, hlen⟩

/-- The empty dataset under two headers: a node is returned. -/
theorem buildTree_returns_node_witness :
    ∃ t, buildTree (fun _ => IterOrder.insertion) [] ["weather", "play"] = some t ∧
      ((["weather", "play"] : List String).length = 1 → t.IsLeaf = true) ∧
      (t.IsLeaf = false →
        ∃ (b : Nat) (feature : String),
          selectBest [] ["weather", "play"] = some (b : Int) ∧
          b < (["weather", "play"] : List String).length - 1 ∧
          (["weather", "play"] : List String)[b]? = some feature ∧
          ∀ row ∈ ([] : List Row), b < row.length) :=
  buildTree_returns_node (fun _ => IterOrder.insertion) [] ["weather", "play"]
    (by decide) (by decide)

/-- C14 (selected index is in range).  For headers with at least one feature
column and a dataset whose rows all have the length of the headers, the gain
of the first candidate exceeds the initial best gain -1, the selection loop
ends with `bestIndex` a feature index `b` (not the initial -1), and
`headers[b]`, the slices `row[:b]`, `row[b+1:]` and the corresponding header
slices are in range. -/
theorem selectBest_in_range (data : List Row) (headers : List String)
    (hk : 1 ≤ headers.length - 1) (hlen : ∀ row ∈ data, row.length = headers.length) :
    ∃ (b : Nat) (g0 : ℝ) (feature : String),
      informationGain data 0 = some g0 ∧ (-1 : ℝ) < g0 ∧
      selectBest data headers = some (b : Int) ∧ selectBest data headers ≠ some (-1) ∧
      b < headers.length - 1 ∧ headers[b]? = some feature ∧
      b + 1 ≤ headers.length ∧ (removeAt headers b).length = headers.length - 1 ∧
      ∀ row ∈ data, b + 1 ≤ row.length ∧ (removeAt row b).length = row.length - 1 := by
  obtain ⟨b, hsel, hb, _, _⟩ := selectBest_spec data headers hlen (by omega)
  have hg0 : informationGain data 0 = some (gainValue data 0) := by
    apply informationGain_eq
    intro r hr
    rw [hlen r hr]
    omega
  have hnn := gainValue_nonneg data 0
  have hbl : b < headers.length := by omega
  have hf : headers[b]? = some (headers.getD b "") := by
    simp [List.getD_eq_getElem?_getD, List.getElem?_eq_getElem hbl]
  refine ⟨b, gainValue data 0, headers.getD b "", hg0, by linarith, hsel, ?_, hb, hf,
    by omega, removeAt_length headers b (by omega), ?_⟩
  · rw [hsel]
    intro h
    have := Option.some.inj h
    omega
  · intro row hrow
    have := hlen row hrow
    exact ⟨by omega, removeAt_length row b (by omega)⟩

/-- The weather rows of Scenario A. -/
theorem selectBest_in_range_witness :
    ∃ (b : Nat) (g0 : ℝ) (feature : String),
      informationGain scenarioA 0 = some g0 ∧ (-1 : ℝ) < g0 ∧
      selectBest scenarioA scenarioAHeaders = some (b : Int) ∧
      selectBest scenarioA scenarioAHeaders ≠ some (-1) ∧
      b < scenarioAHeaders.length - 1 ∧ scenarioAHeaders[b]? = some feature ∧
      b + 1 ≤ scenarioAHeaders.length ∧
      (removeAt scenarioAHeaders b).length = scenarioAHeaders.length - 1 ∧
      ∀ row ∈ scenarioA, b + 1 ≤ row.length ∧ (removeAt row b).length = row.length - 1 :=
  selectBest_in_range scenarioA scenarioAHeaders (by decide) (by decide)

end DecisionTree

namespace DecisionTree

/-! ### The traversal with its trace -/

mutual
/-- The traced traversal returns what `predict` returns. -/
theorem predict_eq_traverse : ∀ (t : Node) (headers sample : List String),
    predict t headers sample = (traverse t headers sample).map outcomeValue
  | .mk isLeaf label feature children, headers, sample => by
    cases isLeaf with
    | true => simp [predict, traverse, outcomeValue]
    | false =>
      simp only [predict, traverse, Bool.false_eq_true, if_false]
      cases sample[featureIndex headers feature]? with
      | none => rfl
      | some val =>
        simp only [predictChild_eq_traverseChild children val headers sample]
        cases traverseChild children val headers sample with
        | none => rfl
        | some out => rfl
/-- The child lookup of the traced traversal returns what that of `predict`
returns. -/
theorem predictChild_eq_traverseChild :
    ∀ (children : List (String × Node)) (val : String) (headers sample : List String),
    predictChild children val headers sample =
      (traverseChild children val headers sample).map outcomeValue
  | [], _, _, _ => by simp [predictChild, traverseChild, outcomeValue]
  | (k, child) :: rest, val, headers, sample => by
    by_cases h : val = k
    · simp only [predictChild, traverseChild, h, if_true]
      exact predict_eq_traverse child headers sample
    · simp only [predictChild, traverseChild, h, if_false]
      exact predictChild_eq_traverseChild rest val headers sample
end

end DecisionTree

namespace DecisionTree

theorem traverse_leafNode (label : String) (headers sample : List String) :
    traverse (leafNode label) headers sample = some ([], some label) := by
  simp [leafNode, traverse]

theorem traverseChild_eq_lookup (children : List (String × Node)) (val : String)
    (headers sample : List String) :
    traverseChild children val headers sample =
      match children.lookup val with
      | none => some ([], none)
      | some child => traverse child headers sample := by
  induction children with
  | nil => simp [traverseChild]
  | cons p rest ih =>
    obtain ⟨k, child⟩ := p
    rw [lookup_cons_ite]
    by_cases hk : val = k
    · simp [traverseChild, hk]
    · simp [traverseChild, hk, ih]

/-- The traced traversal at an Internal node whose sample value has a child. -/
theorem traverse_internalNode (feature : String) (children : List (String × Node))
    (headers sample : List String) (val : String) (child : Node)
    (hval : sample[featureIndex headers feature]? = some val)
    (hchild : children.lookup val = some child) :
    traverse (internalNode feature children) headers sample =
      (traverse child headers sample).map
        (fun out => (featureIndex headers feature :: out.1, out.2)) := by
  simp only [internalNode, traverse, Bool.false_eq_true, if_false, hval,
    traverseChild_eq_lookup, hchild]
  cases traverse child headers sample with
  | none => rfl
  | some out => rfl

/-! ### The children of an Internal root -/

/-- On well-formed input, an Internal root carries the name of the selected
column, its children are keyed by the distinct values of that column, and each
child is what `buildTree` returns for the projected group and the headers
without the selected column. -/
theorem buildTree_children (ord : List String → IterOrder) (data : List Row)
    (headers : List String) (hwf : WellFormed data headers) :
    ∃ t, buildTree ord data headers = some t ∧
      (t.IsLeaf = false →
        ∃ b : Nat, selectBest data headers = some (b : Int) ∧ b < headers.length - 1 ∧
          headers[b]? = some t.Feature ∧
          t.Children.map Prod.fst = firstSeen (data.map (fieldOf b)) ∧
          ∀ v c, (v, c) ∈ t.Children →
            buildTree (fun path => ord (v :: path)) (childData data b v) (removeAt headers b)
              = some c) := by
  apply buildTree_induction
    (fun ord data headers t => t.IsLeaf = false →
        ∃ b : Nat, selectBest data headers = some (b : Int) ∧ b < headers.length - 1 ∧
          headers[b]? = some t.Feature ∧
          t.Children.map Prod.fst = firstSeen (data.map (fieldOf b)) ∧
          ∀ v c, (v, c) ∈ t.Children →
            buildTree (fun path => ord (v :: path)) (childData data b v) (removeAt headers b)
              = some c)
  · intro _ _ _ label _ _ h
    simp [leafNode, Node.IsLeaf] at h
  · intro _ _ _ l _ _ _ _ h
    simp [leafNode, Node.IsLeaf] at h
  · intro ord data headers b feature children _ _ _ hsel hb hf hkeys hall _
    exact ⟨b, hsel, hb, hf, hkeys, fun v c hmem => (hall v c hmem).1⟩
  · exact hwf

theorem childData_eq_filter (data : List Row) (b : Nat) (v : String)
    (h : ∀ r ∈ data, b < r.length) :
    childData data b v =
      (data.filter (fun r => decide (r[b]? = some v))).map (fun row => removeAt row b) := by
  rw [childData, rowsWith_eq_filter data b v h]

/-- C15 (recursive split equation).  For headers with at least one feature
column and a dataset whose rows all have the length of the headers, two of them
with different labels: with `b` the index left by the selection loop,
`buildTree` returns a node that is not a leaf, whose feature is `headers[b]`,
whose children keys are pairwise distinct and are exactly the values occurring
in column `b`, and whose child under key `v` is what `buildTree` returns for
the rows holding `v` in column `b` (in the original order, each without field
`b`) and the headers without `headers[b]`. -/
theorem buildTree_split_equation (ord : List String → IterOrder) (data : List Row)
    (headers : List String)
    (hk : 1 ≤ headers.length - 1)
    (hlen : ∀ row ∈ data, row.length = headers.length)
    (hlabels : ∃ r1 ∈ data, ∃ r2 ∈ data, r1.getLast? ≠ r2.getLast?) :
    ∃ (b : Nat) (feature : String) (t : Node),
      selectBest data headers = some (b : Int) ∧ headers[b]? = some feature ∧
      buildTree ord data headers = some t ∧ t.IsLeaf = false ∧ t.Feature = feature ∧
      (t.Children.map Prod.fst).Nodup ∧
      (∀ v, v ∈ t.Children.map Prod.fst ↔ ∃ r ∈ data, r[b]? = some v) ∧
      ∀ v, v ∈ t.Children.map Prod.fst →
        ∃ c, t.Children.lookup v = some c ∧
          buildTree (fun path => ord (v :: path))
            ((data.filter (fun r => decide (r[b]? = some v))).map (fun row => removeAt row b))
            (removeAt headers b) = some c := by
  have hwf : WellFormed data headers := ⟨by omega, hlen⟩
  obtain ⟨b, feature, children, hsel, hb, _, _, hf, hrun, hkeys, hall⟩ :=
    buildTree_step ord data headers (fun _ _ => True) hwf (by omega)
      (labels_not_uniform data hwf.rows_ne_nil hlabels)
      (by
        intro b hb v _
        obtain ⟨c, hc⟩ := buildTree_total (fun path => ord (v :: path)) (childData data b v)
          (removeAt headers b) (wellFormed_childData data headers b v hwf (by omega) (by omega))
        exact ⟨c, hc, trivial⟩)
  have hcols : ∀ r ∈ data, b < r.length := by
    intro r hr
    rw [hlen r hr]
    omega
  have hch : (internalNode feature children).Children = children := rfl
  refine ⟨b, feature, internalNode feature children, hsel, hf, hrun, rfl, rfl, ?_, ?_, ?_⟩
  · rw [hch, hkeys]
    exact nodup_firstSeen _
  · intro v
    rw [hch, hkeys, mem_firstSeen, List.mem_map]
    constructor
    · rintro ⟨r, hr, hv⟩
      exact ⟨r, hr, by rw [getElem?_eq_fieldOf b r (hcols r hr), hv]⟩
    · rintro ⟨r, hr, hv⟩
      rw [getElem?_eq_fieldOf b r (hcols r hr)] at hv
      exact ⟨r, hr, Option.some.inj hv⟩
  · intro v hv
    rw [hch] at hv ⊢
    cases hlook : children.lookup v with
    | none => exact absurd hv ((lookup_eq_none_iff_not_mem children v).1 hlook)
    | some c =>
      refine ⟨c, rfl, ?_⟩
      rw [← childData_eq_filter data b v hcols]
      exact (hall v c (mem_of_lookup _ _ _ hlook)).1

/-- The weather rows of Scenario A. -/
theorem buildTree_split_equation_witness :
    ∃ (b : Nat) (feature : String) (t : Node),
      selectBest scenarioA scenarioAHeaders = some (b : Int) ∧
      scenarioAHeaders[b]? = some feature ∧
      buildTree (fun _ => IterOrder.insertion) scenarioA scenarioAHeaders = some t ∧
      t.IsLeaf = false ∧ t.Feature = feature ∧
      (t.Children.map Prod.fst).Nodup ∧
      (∀ v, v ∈ t.Children.map Prod.fst ↔ ∃ r ∈ scenarioA, r[b]? = some v) ∧
      ∀ v, v ∈ t.Children.map Prod.fst →
        ∃ c, t.Children.lookup v = some c ∧
          buildTree (fun _ => IterOrder.insertion)
            ((scenarioA.filter (fun r => decide (r[b]? = some v))).map
              (fun row => removeAt row b))
            (removeAt scenarioAHeaders b) = some c :=
  buildTree_split_equation (fun _ => IterOrder.insertion) scenarioA scenarioAHeaders
    (by decide) (by decide) (by decide)

end DecisionTree

namespace DecisionTree

/-! ### The row-length invariant along the recursion -/

theorem mem_childData_iff (data : List Row) (b : Nat) (v : String) (row' : Row) :
    row' ∈ childData data b v ↔ ∃ row ∈ data, fieldOf b row = v ∧ row' = removeAt row b := by
  simp only [childData, List.mem_map, mem_rowsWith]
  constructor
  · rintro ⟨row, ⟨hr, hv⟩, rfl⟩
    exact ⟨row, hr, hv, rfl⟩
  · rintro ⟨row, hr, hv, rfl⟩
    exact ⟨row, ⟨hr, hv⟩, rfl⟩

/-- C16 (the row-length invariant is preserved by recursion).  When every row
has the length of the headers and `buildTree` returns an Internal node, each
child of that node is the result of the recursive call on the child dataset
and child headers, where: the child headers are the headers without the
selected position `b`, one shorter, in the same relative order and with the
same last name; every child row is a row of `data` without its field `b`, as
long as the child headers, with its remaining fields in the same relative
order and with the same last field (the label).  The child input thus
satisfies the hypothesis again, so the same holds at every depth. -/
theorem recursion_preserves_rows (ord : List String → IterOrder) (data : List Row)
    (headers : List String) (t : Node)
    (hlen : ∀ row ∈ data, row.length = headers.length)
    (ht : buildTree ord data headers = some t) (hint : t.IsLeaf = false) :
    ∃ b : Nat, selectBest data headers = some (b : Int) ∧ b < headers.length - 1 ∧
      (removeAt headers b).length = headers.length - 1 ∧
      (∀ i, (removeAt headers b)[i]? = if i < b then headers[i]? else headers[i + 1]?) ∧
      (removeAt headers b).getLast? = headers.getLast? ∧
      ∀ v c, (v, c) ∈ t.Children →
        buildTree (fun path => ord (v :: path)) (childData data b v) (removeAt headers b)
          = some c ∧
        ∀ row' ∈ childData data b v,
          row'.length = (removeAt headers b).length ∧
          ∃ row ∈ data, row[b]? = some v ∧ row' = removeAt row b ∧
            (∀ i, row'[i]? = if i < b then row[i]? else row[i + 1]?) ∧
            row'.getLast? = row.getLast? := by
  obtain ⟨b0, _, _, hf0, _, _, _⟩ := buildTree_internal_inv ord data headers t ht hint
  have hpos : 1 ≤ headers.length := by
    rcases Nat.lt_or_ge b0 headers.length with h | h
    · omega
    · rw [List.getElem?_eq_none h] at hf0
      cases hf0
  obtain ⟨t', ht', hp⟩ := buildTree_children ord data headers ⟨hpos, hlen⟩
  rw [ht] at ht'
  cases ht'
  obtain ⟨b, hsel, hb, _, _, hall⟩ := hp hint
  refine ⟨b, hsel, hb, removeAt_length headers b (by omega), getElem?_removeAt headers b,
    getLast?_removeAt headers b (by omega), ?_⟩
  intro v c hmem
  refine ⟨hall v c hmem, ?_⟩
  intro row' hrow'
  obtain ⟨row, hrow, hv, rfl⟩ := (mem_childData_iff data b v row').1 hrow'
  have hl := hlen row hrow
  refine ⟨by rw [removeAt_length row b (by omega), removeAt_length headers b (by omega), hl],
    row, hrow, ?_, rfl, getElem?_removeAt row b, getLast?_removeAt row b (by omega)⟩
  rw [getElem?_eq_fieldOf b row (by omega), hv]

/-- The weather rows of Scenario A and the tree built from them. -/
theorem recursion_preserves_rows_witness :
    ∃ b : Nat, selectBest scenarioA scenarioAHeaders = some (b : Int) ∧
      b < scenarioAHeaders.length - 1 ∧
      (removeAt scenarioAHeaders b).length = scenarioAHeaders.length - 1 ∧
      (∀ i, (removeAt scenarioAHeaders b)[i]? =
        if i < b then scenarioAHeaders[i]? else scenarioAHeaders[i + 1]?) ∧
      (removeAt scenarioAHeaders b).getLast? = scenarioAHeaders.getLast? ∧
      ∀ v c, (v, c) ∈
          (internalNode "temp" [("hot", leafNode "no"), ("cool", leafNode "yes")]).Children →
        buildTree (fun _ => IterOrder.insertion) (childData scenarioA b v)
          (removeAt scenarioAHeaders b) = some c ∧
        ∀ row' ∈ childData scenarioA b v,
          row'.length = (removeAt scenarioAHeaders b).length ∧
          ∃ row ∈ scenarioA, row[b]? = some v ∧ row' = removeAt row b ∧
            (∀ i, row'[i]? = if i < b then row[i]? else row[i + 1]?) ∧
            row'.getLast? = row.getLast? :=
  recursion_preserves_rows (fun _ => IterOrder.insertion) scenarioA scenarioAHeaders
    (internalNode "temp" [("hot", leafNode "no"), ("cool", leafNode "yes")])
    (by decide) (buildTree_scenarioA _) rfl

end DecisionTree

namespace DecisionTree

/-! ### Training rows reach a leaf -/

theorem separated_child (hs H : List String) (b : Nat) (hb : b < hs.length - 1)
    (h : Separated hs H) : Separated (removeAt hs b) H := by
  intro i1 i2 h1 h2 heq
  rw [removeAt_length hs b (by omega)] at h1 h2
  rw [getD_removeAt, getD_removeAt] at heq
  by_cases c1 : i1 < b <;> by_cases c2 : i2 < b
  · simp only [c1, c2, if_true] at heq
    exact h i1 i2 (by omega) (by omega) heq
  · simp only [c1, c2, if_true, if_false] at heq
    have := h i1 (i2 + 1) (by omega) (by omega) heq
    omega
  · simp only [c1, c2, if_true, if_false] at heq
    have := h (i1 + 1) i2 (by omega) (by omega) heq
    omega
  · simp only [c1, c2, if_false] at heq
    have := h (i1 + 1) (i2 + 1) (by omega) (by omega) heq
    omega

/-- On well-formed input, label noise allowed, the traversal for a training
row meets no missing child: it ends at a leaf, every index it tests is the
position found for some feature column, and the label returned is that of a
training row agreeing with the given row on every column tested. -/
theorem buildTree_reaches_leaf (ord : List String → IterOrder) (data : List Row)
    (hs : List String) (hwf : WellFormed data hs) :
    ∃ t, buildTree ord data hs = some t ∧
      ∀ H sample r, r ∈ data → Separated hs H → Agrees hs H sample r →
        ∃ idxs l, traverse t H sample = some (idxs, some l) ∧
          (∀ j ∈ idxs, ∃ i, i < hs.length - 1 ∧ featureIndex H (hs.getD i "") = j) ∧
          ∃ r' ∈ data, labelOf r' = l ∧
            ∀ i, i < hs.length - 1 → featureIndex H (hs.getD i "") ∈ idxs →
              fieldOf i r' = fieldOf i r := by
  apply buildTree_induction
    (fun _ data hs t => ∀ H sample r, r ∈ data → Separated hs H → Agrees hs H sample r →
        ∃ idxs l, traverse t H sample = some (idxs, some l) ∧
          (∀ j ∈ idxs, ∃ i, i < hs.length - 1 ∧ featureIndex H (hs.getD i "") = j) ∧
          ∃ r' ∈ data, labelOf r' = l ∧
            ∀ i, i < hs.length - 1 → featureIndex H (hs.getD i "") ∈ idxs →
              fieldOf i r' = fieldOf i r)
  · intro _ data hs label _ hlabel H sample r hr _ _
    have : labelOf r ∈ firstSeen (data.map labelOf) :=
      (mem_firstSeen _ _).2 (List.mem_map_of_mem _ hr)
    rw [hlabel, List.mem_singleton] at this
    exact ⟨[], label, traverse_leafNode _ _ _, by simp, r, hr, this, fun _ _ _ => rfl⟩
  · intro ord data hs l hwf _ _ hm H sample r hr _ _
    obtain ⟨l', _, _, _, hm', hl', _⟩ :=
      mostCommonLabel_spec (ord []) data (List.ne_nil_of_mem hr) hwf.rows_ne_nil
    rw [hm] at hm'
    cases hm'
    obtain ⟨r', hr', hrl⟩ := List.mem_map.1 hl'
    refine ⟨[], l, traverse_leafNode _ _ _, by simp, r', hr', hrl, ?_⟩
    intro i _ hmem
    simp at hmem
  · intro ord data hs b feature children hwf hk _ _ hb hf hkeys hall H sample r hr hsep hag
    have hfeat : hs.getD b "" = feature := by
      simp [List.getD_eq_getElem?_getD, hf]
    have hval := hag b hb
    rw [hfeat] at hval
    cases hlook : children.lookup (fieldOf b r) with
    | none =>
      exfalso
      rw [lookup_eq_none_iff_not_mem, hkeys, mem_firstSeen] at hlook
      exact hlook (List.mem_map_of_mem _ hr)
    | some c =>
      obtain ⟨_, hp⟩ := hall _ c (mem_of_lookup _ _ _ hlook)
      obtain ⟨idxs, l, htr, hidx, r'c, hr'c, hlab, hagree⟩ :=
        hp H sample (removeAt r b) (mem_childData data b r hr)
          (separated_child hs H b hb hsep) (agrees_child hs H sample r b hb hag)
      obtain ⟨r', hr', hv', rfl⟩ := (mem_childData_iff data b _ r'c).1 hr'c
      have hrem : (removeAt hs b).length = hs.length - 1 := removeAt_length hs b (by omega)
      refine ⟨featureIndex H feature :: idxs, l, ?_, ?_, r', hr', ?_, ?_⟩
      · rw [traverse_internalNode feature children H sample _ c hval hlook, htr]
        rfl
      · intro j hj
        rcases List.mem_cons.1 hj with rfl | hj'
        · exact ⟨b, hb, by rw [hfeat]⟩
        · obtain ⟨i, hi, hji⟩ := hidx j hj'
          rw [hrem] at hi
          rw [getD_removeAt] at hji
          by_cases hib : i < b
          · simp only [hib, if_true] at hji
            exact ⟨i, by omega, hji⟩
          · simp only [hib, if_false] at hji
            exact ⟨i + 1, by omega, hji⟩
      · rw [← hlab]
        exact (labelOf_removeAt r' b (by rw [hwf.2 r' hr']; omega)).symm
      · intro i hi hmem
        by_cases hib : i = b
        · rw [hib, hv']
        · have hne : featureIndex H (hs.getD i "") ≠ featureIndex H feature := by
            intro heq
            rw [← hfeat] at heq
            exact hib (hsep i b hi hb heq)
          have hmem' : featureIndex H (hs.getD i "") ∈ idxs := by
            rcases List.mem_cons.1 hmem with h | h
            · exact absurd h hne
            · exact h
          rcases Nat.lt_or_gt_of_ne hib with hlt | hgt
          · have := hagree i (by rw [hrem]; omega)
              (by rw [getD_removeAt]; simpa [hlt] using hmem')
            simpa [fieldOf_removeAt, hlt] using this
          · have hnl : ¬ (i - 1 < b) := by omega
            have hi1 : i - 1 + 1 = i := by omega
            have := hagree (i - 1) (by rw [hrem]; omega)
              (by rw [getD_removeAt]; simpa [hnl, hi1] using hmem')
            simpa [fieldOf_removeAt, hnl, hi1] using this
  · exact hwf

end DecisionTree

namespace DecisionTree

theorem featureIndex_getD (headers : List String) (i : Nat) (hnd : headers.Nodup)
    (hi : i < headers.length) : featureIndex headers (headers.getD i "") = i := by
  apply featureIndex_nodup headers _ i hnd
  simp [List.getD_eq_getElem?_getD, List.getElem?_eq_getElem hi]

theorem separated_self (headers : List String) (hnd : headers.Nodup) :
    Separated headers headers := by
  intro i1 i2 h1 h2 heq
  rw [featureIndex_getD headers i1 hnd (by omega),
    featureIndex_getD headers i2 hnd (by omega)] at heq
  exact heq

theorem agrees_self (headers : List String) (r : Row) (hnd : headers.Nodup)
    (hlen : r.length = headers.length) : Agrees headers headers r.dropLast r := by
  intro i hi
  rw [featureIndex_getD headers i hnd (by omega), List.getElem?_dropLast, hlen]
  simp only [hi, if_true]
  exact getElem?_eq_fieldOf i r (by omega)

/-- C17 (training rows always reach a leaf).  For headers with pairwise
distinct names, a dataset whose rows all have the length of the headers (label
noise allowed) and a non-empty row `r` of it: `buildTree` returns a tree on
which the traversal for the features of `r` meets no missing child and ends at
a leaf; `predict` returns that leaf's label; every index tested is a feature
index; and the label is the label of a training row that agrees with `r` at
every index tested along the path. -/
theorem training_row_reaches_leaf (ord : List String → IterOrder) (data : List Row)
    (headers : List String) (r : Row) (hnd : headers.Nodup)
    (hlen : ∀ row ∈ data, row.length = headers.length) (hr : r ∈ data) (hne : r ≠ []) :
    ∃ t idxs l, buildTree ord data headers = some t ∧
      traverse t headers r.dropLast = some (idxs, some l) ∧
      predict t headers r.dropLast = some l ∧
      (∀ j ∈ idxs, j < headers.length - 1) ∧
      ∃ r' ∈ data, r'.getLast? = some l ∧ ∀ j ∈ idxs, r'[j]? = r[j]? := by
  have hpos : 1 ≤ headers.length := by
    rw [← hlen r hr]
    exact Nat.pos_of_ne_zero (fun h => hne (List.length_eq_zero.1 h))
  have hwf : WellFormed data headers := ⟨hpos, hlen⟩
  obtain ⟨t, ht, hp⟩ := buildTree_reaches_leaf ord data headers hwf
  obtain ⟨idxs, l, htr, hidx, r', hr', hlab, hagree⟩ :=
    hp headers r.dropLast r hr (separated_self headers hnd)
      (agrees_self headers r hnd (hlen r hr))
  have hpos' : ∀ j ∈ idxs, j < headers.length - 1 ∧
      featureIndex headers (headers.getD j "") = j := by
    intro j hj
    obtain ⟨i, hi, hji⟩ := hidx j hj
    have := featureIndex_getD headers i hnd (by omega)
    rw [this] at hji
    subst hji
    exact ⟨hi, this⟩
  refine ⟨t, idxs, l, ht, htr, ?_, fun j hj => (hpos' j hj).1, r', hr', ?_, ?_⟩
  · rw [predict_eq_traverse, htr]
    rfl
  · rw [getLast?_eq_labelOf r' (hwf.rows_ne_nil r' hr'), hlab]
  · intro j hj
    obtain ⟨hjlt, hjj⟩ := hpos' j hj
    have := hagree j hjlt (by rw [hjj]; exact hj)
    rw [getElem?_eq_fieldOf j r' (by rw [hlen r' hr']; omega),
      getElem?_eq_fieldOf j r (by rw [hlen r hr]; omega), this]

/-- Label noise: two rows with the same features and different labels. -/
theorem training_row_reaches_leaf_witness :
    ∃ t idxs l,
      buildTree (fun _ => IterOrder.insertion)
        [["sunny", "no"], ["sunny", "yes"], ["rainy", "yes"]] ["weather", "play"] = some t ∧
      traverse t ["weather", "play"] ["sunny"] = some (idxs, some l) ∧
      predict t ["weather", "play"] ["sunny"] = some l ∧
      (∀ j ∈ idxs, j < 2 - 1) ∧
      ∃ r' ∈ ([["sunny", "no"], ["sunny", "yes"], ["rainy", "yes"]] : List Row),
        r'.getLast? = some l ∧
        ∀ j ∈ idxs, r'[j]? = (["sunny", "no"] : List String)[j]? :=
  training_row_reaches_leaf (fun _ => IterOrder.insertion)
    [["sunny", "no"], ["sunny", "yes"], ["rainy", "yes"]] ["weather", "play"]
    ["sunny", "no"] (by decide) (by decide) (by decide) (by decide)

end DecisionTree

namespace DecisionTree

/-! ### Leaf labels come from the training data -/

mutual
/-- Whatever `predict` returns is a leaf label of the tree or the sentinel. -/
theorem predict_mem_leafLabels : ∀ (t : Node) (headers sample : List String) (s : String),
    predict t headers sample = some s → s = "Unknown" ∨ s ∈ t.leafLabels
  | .mk isLeaf label feature children, headers, sample, s => by
    cases isLeaf with
    | true =>
      intro h
      simp only [predict, if_true, Option.some.injEq] at h
      simp [Node.leafLabels, h]
    | false =>
      intro h
      simp only [predict, Bool.false_eq_true, if_false] at h
      cases hv : sample[featureIndex headers feature]? with
      | none => simp [hv] at h
      | some val =>
        simp only [hv] at h
        simpa [Node.leafLabels] using
          predictChild_mem_leafLabels children val headers sample s h
/-- The child lookup of `predict` returns a leaf label of a child or the
sentinel. -/
theorem predictChild_mem_leafLabels :
    ∀ (children : List (String × Node)) (val : String) (headers sample : List String)
      (s : String),
    predictChild children val headers sample = some s →
      s = "Unknown" ∨ s ∈ Node.leafLabels.leafLabelsChildren children
  | [], _, _, _, s => by
    intro h
    simp only [predictChild, Option.some.injEq] at h
    exact Or.inl h.symm
  | (k, child) :: rest, val, headers, sample, s => by
    intro h
    by_cases hk : val = k
    · simp only [predictChild, hk, if_true] at h
      rcases predict_mem_leafLabels child headers sample s h with h1 | h1
      · exact Or.inl h1
      · exact Or.inr (by simp [Node.leafLabels.leafLabelsChildren, h1])
    · simp only [predictChild, hk, if_false] at h
      rcases predictChild_mem_leafLabels rest val headers sample s h with h1 | h1
      · exact Or.inl h1
      · exact Or.inr (by simp [Node.leafLabels.leafLabelsChildren, h1])
end

/-- On well-formed, non-empty input every leaf label of the tree is the label
of a training row. -/
theorem buildTree_leafLabels (ord : List String → IterOrder) (data : List Row)
    (hs : List String) (hwf : WellFormed data hs) :
    ∃ t, buildTree ord data hs = some t ∧
      (data ≠ [] → ∀ l ∈ t.leafLabels, ∃ r ∈ data, labelOf r = l) := by
  apply buildTree_induction
    (fun _ data _ t => data ≠ [] → ∀ l ∈ t.leafLabels, ∃ r ∈ data, labelOf r = l)
  · intro _ data _ label _ hlabel _ l hl
    rw [leafLabels_leafNode, List.mem_singleton] at hl
    have : label ∈ firstSeen (data.map labelOf) := by rw [hlabel]; simp
    obtain ⟨r, hr, hrl⟩ := List.mem_map.1 ((mem_firstSeen _ _).1 this)
    exact ⟨r, hr, by rw [hrl, hl]⟩
  · intro ord data _ l0 hwf _ _ hm hne l hl
    rw [leafLabels_leafNode, List.mem_singleton] at hl
    obtain ⟨l', _, _, _, hm', hl', _⟩ := mostCommonLabel_spec (ord []) data hne hwf.rows_ne_nil
    rw [hm] at hm'
    cases hm'
    obtain ⟨r, hr, hrl⟩ := List.mem_map.1 hl'
    exact ⟨r, hr, by rw [hrl, hl]⟩
  · intro _ data hs b feature children hwf _ _ _ hb _ hkeys hall _ l hl
    obtain ⟨v, c, hmem, hlc⟩ := (mem_leafLabels_internalNode feature children l).1 hl
    have hv : v ∈ data.map (fieldOf b) := by
      rw [← mem_firstSeen, ← hkeys]
      exact List.mem_map.2 ⟨(v, c), hmem, rfl⟩
    have hne : childData data b v ≠ [] := by
      have := rowsWith_length_pos data b v hv
      intro hnil
      rw [childData, List.map_eq_nil_iff] at hnil
      rw [hnil] at this
      simp at this
    obtain ⟨r'c, hr'c, hlab⟩ := (hall v c hmem).2 hne l hlc
    obtain ⟨r', hr', _, rfl⟩ := (mem_childData_iff data b v r'c).1 hr'c
    refine ⟨r', hr', ?_⟩
    rw [← hlab]
    exact (labelOf_removeAt r' b (by rw [hwf.2 r' hr']; omega)).symm
  · exact hwf

/-- C18 (leaf labels come from the training data).  For a non-empty dataset
whose rows all have the length of the headers, at least 1: `buildTree` returns
a tree each of whose leaf labels is the last field of some row of the dataset
(so the empty default of `mostCommonLabel` is a leaf label only if it is itself
the label of a row), and whatever `predict` returns on that tree is the
sentinel "Unknown" or the label of some row. -/
theorem leaf_labels_from_data (ord : List String → IterOrder) (data : List Row)
    (headers : List String) (hne : data ≠ []) (hpos : 1 ≤ headers.length)
    (hlen : ∀ row ∈ data, row.length = headers.length) :
    ∃ t, buildTree ord data headers = some t ∧
      (∀ l ∈ t.leafLabels, ∃ r ∈ data, r.getLast? = some l) ∧
      ((∀ r ∈ data, r.getLast? ≠ some "") → "" ∉ t.leafLabels) ∧
      ∀ H sample s, predict t H sample = some s →
        s = "Unknown" ∨ ∃ r ∈ data, r.getLast? = some s := by
  have hwf : WellFormed data headers := ⟨hpos, hlen⟩
  obtain ⟨t, ht, hp⟩ := buildTree_leafLabels ord data headers hwf
  have hleaf : ∀ l ∈ t.leafLabels, ∃ r ∈ data, r.getLast? = some l := by
    intro l hl
    obtain ⟨r, hr, hrl⟩ := hp hne l hl
    exact ⟨r, hr, by rw [getLast?_eq_labelOf r (hwf.rows_ne_nil r hr), hrl]⟩
  refine ⟨t, ht, hleaf, ?_, ?_⟩
  · intro hno hmem
    obtain ⟨r, hr, hrl⟩ := hleaf "" hmem
    exact hno r hr hrl
  · intro H sample s hs
    rcases predict_mem_leafLabels t H sample s hs with h | h
    · exact Or.inl h
    · exact Or.inr (hleaf s h)

/-- The weather rows of Scenario A. -/
theorem leaf_labels_from_data_witness :
    ∃ t, buildTree (fun _ => IterOrder.insertion) scenarioA scenarioAHeaders = some t ∧
      (∀ l ∈ t.leafLabels, ∃ r ∈ scenarioA, r.getLast? = some l) ∧
      ((∀ r ∈ scenarioA, r.getLast? ≠ some "") → "" ∉ t.leafLabels) ∧
      ∀ H sample s, predict t H sample = some s →
        s = "Unknown" ∨ ∃ r ∈ scenarioA, r.getLast? = some s :=
  leaf_labels_from_data (fun _ => IterOrder.insertion) scenarioA scenarioAHeaders
    (by decide) (by decide) (by decide)

end DecisionTree

namespace DecisionTree

/-! ### Duplicate feature names -/

theorem gain_dupData :
    informationGain dupData 0 = some 0 ∧ informationGain dupData 1 = some 1 := by
  have he : entropy dupData = some 1 :=
    entropy_balanced dupData "no" "yes" 1 (by decide) (by decide) (by decide)
  have hs0 : splitData dupData 0 = some [("p", [["p", "q", "no"], ["p", "r", "yes"]])] := by
    decide
  have he0 : entropy [["p", "q", "no"], ["p", "r", "yes"]] = some 1 := he
  have hs1 : splitData dupData 1 =
      some [("q", [["p", "q", "no"]]), ("r", [["p", "r", "yes"]])] := by decide
  have h1 : entropy [["p", "q", "no"]] = some 0 :=
    entropy_single _ "no" 1 (by decide) (by decide) (by decide)
  have h2 : entropy [["p", "r", "yes"]] = some 0 :=
    entropy_single _ "yes" 1 (by decide) (by decide) (by decide)
  have hl : dupData.length = 2 := by decide
  constructor
  · unfold informationGain
    simp only [he, hs0, weightedLoop, he0, hl, List.length_cons, List.length_nil]
    norm_num
  · unfold informationGain
    simp only [he, hs1, weightedLoop, h1, h2, hl, List.length_cons, List.length_nil]
    norm_num

theorem selectBest_dupData : selectBest dupData dupHeaders = some 1 := by
  have hk : dupHeaders.length - 1 = 2 := by decide
  unfold selectBest
  rw [hk]
  simp only [gainLoop, gain_dupData.1, gain_dupData.2]
  norm_num

theorem buildTree_dupData (ord : List String → IterOrder) :
    buildTree ord dupData dupHeaders =
      some (internalNode "a" [("q", leafNode "no"), ("r", leafNode "yes")]) := by
  rw [buildTree_split ord dupData dupHeaders ["no", "yes"] 1 "a"
    [("q", [["p", "q", "no"]]), ("r", [["p", "r", "yes"]])]
    (by decide) (by decide) (by decide) selectBest_dupData (by decide) (by decide)]
  have h1 : ∀ o : List String → IterOrder,
      buildTree o [["p", "no"]] ["a", "y"] = some (leafNode "no") :=
    fun o => buildTree_pure o _ _ "no" (by decide)
  have h2 : ∀ o : List String → IterOrder,
      buildTree o [["p", "yes"]] ["a", "y"] = some (leafNode "yes") :=
    fun o => buildTree_pure o _ _ "yes" (by decide)
  simp [attachChildren, removeAt, dupHeaders, h1, h2]

/-- C19 (duplicate feature names break prediction).  With headers "a", "a",
"y" and the rows p, q, no and p, r, yes (rows of one length, features
determining the label), `buildTree` splits on column 1, whose name "a" the
lookup loop of `predict` resolves to position 0, the first match; so for the
training row p, q, no the traversal reads "p", finds no child and returns
"Unknown" instead of the label "no".  A name matching no header resolves to
position 0 as well. -/
theorem duplicate_names_break_prediction (ord : List String → IterOrder) :
    dupHeaders = ["a", "a", "y"] ∧ dupData = [["p", "q", "no"], ["p", "r", "yes"]] ∧
    dupHeaders[0]? = dupHeaders[1]? ∧
    (∀ row ∈ dupData, row.length = dupHeaders.length) ∧
    (∀ r1 ∈ dupData, ∀ r2 ∈ dupData, r1.dropLast = r2.dropLast → r1.getLast? = r2.getLast?) ∧
    selectBest dupData dupHeaders = some 1 ∧
    ∃ t, buildTree ord dupData dupHeaders = some t ∧
      t.Feature = "a" ∧ featureIndex dupHeaders t.Feature = 0 ∧
      featureIndex dupHeaders "none" = 0 ∧
      ∃ r ∈ dupData, r.getLast? = some "no" ∧
        predict t dupHeaders r.dropLast = some "Unknown" ∧
        predict t dupHeaders r.dropLast ≠ r.getLast? := by
  refine ⟨rfl, rfl, by decide, by decide, by decide, selectBest_dupData, _,
    buildTree_dupData ord, rfl, by decide, by decide, ["p", "q", "no"], by decide, by decide,
    by decide, by decide⟩

end DecisionTree

namespace DecisionTree

/-! ### The selection loop on computed gains -/

/-- What the selection loop returns on computed gains that are all defined:
the running best is either untouched or it is the first candidate attaining
the largest computed gain. -/
theorem gainLoopOn_spec {α : Type} [LinearOrder α] (gain : Nat → Option α) (g : Nat → α)
    (n i : Nat) (bg : α) (bi : Int)
    (hg : ∀ j, i ≤ j → j < i + n → gain j = some (g j)) :
    ∃ bg' bi', gainLoopOn gain n i bg bi = some (bg', bi') ∧
      ((bi' = bi ∧ bg' = bg ∧ ∀ j, i ≤ j → j < i + n → g j ≤ bg) ∨
       (∃ b, i ≤ b ∧ b < i + n ∧ bi' = (b : Int) ∧ bg' = g b ∧ bg < g b ∧
          (∀ j, i ≤ j → j < i + n → g j ≤ g b) ∧ (∀ j, i ≤ j → j < b → g j < g b))) := by
  induction n generalizing i bg bi with
  | zero =>
    refine ⟨bg, bi, by simp [gainLoopOn], Or.inl ⟨rfl, rfl, ?_⟩⟩
    intro j h1 h2
    omega
  | succ n ih =>
    have hgi : gain i = some (g i) := hg i (Nat.le_refl _) (by omega)
    have hg' : ∀ j, i + 1 ≤ j → j < i + 1 + n → gain j = some (g j) :=
      fun j h1 h2 => hg j (by omega) (by omega)
    by_cases hgt : g i > bg
    · obtain ⟨bg', bi', hrun, hcase⟩ := ih (i + 1) (g i) (i : Int) hg'
      refine ⟨bg', bi', by simp [gainLoopOn, hgi, hgt, hrun], Or.inr ?_⟩
      rcases hcase with ⟨hbi, hbg, hall⟩ | ⟨b, hb1, hb2, hbi, hbg, hlt, hall, hfirst⟩
      · refine ⟨i, Nat.le_refl _, by omega, hbi, hbg, hgt, ?_, ?_⟩
        · intro j h1 h2
          rcases Nat.eq_or_lt_of_le h1 with h | h
          · rw [← h]
          · exact hall j h (by omega)
        · intro j h1 h2
          omega
      · refine ⟨b, by omega, by omega, hbi, hbg, lt_trans hgt hlt, ?_, ?_⟩
        · intro j h1 h2
          rcases Nat.eq_or_lt_of_le h1 with h | h
          · rw [← h]; exact le_of_lt hlt
          · exact hall j h (by omega)
        · intro j h1 h2
          rcases Nat.eq_or_lt_of_le h1 with h | h
          · rw [← h]; exact hlt
          · exact hfirst j h h2
    · obtain ⟨bg', bi', hrun, hcase⟩ := ih (i + 1) bg bi hg'
      refine ⟨bg', bi', by simp [gainLoopOn, hgi, hgt, hrun], ?_⟩
      rcases hcase with ⟨hbi, hbg, hall⟩ | ⟨b, hb1, hb2, hbi, hbg, hlt, hall, hfirst⟩
      · refine Or.inl ⟨hbi, hbg, ?_⟩
        intro j h1 h2
        rcases Nat.eq_or_lt_of_le h1 with h | h
        · rw [← h]; exact not_lt.1 hgt
        · exact hall j h (by omega)
      · refine Or.inr ⟨b, by omega, by omega, hbi, hbg, hlt, ?_, ?_⟩
        · intro j h1 h2
          rcases Nat.eq_or_lt_of_le h1 with h | h
          · rw [← h]; exact le_trans (not_lt.1 hgt) (le_of_lt hlt)
          · exact hall j h (by omega)
        · intro j h1 h2
          rcases Nat.eq_or_lt_of_le h1 with h | h
          · rw [← h]; exact lt_of_le_of_lt (not_lt.1 hgt) hlt
          · exact hfirst j h h2

/-- When the selection loop completes, every gain it asked for was computed. -/
theorem gainLoopOn_defined {α : Type} [LinearOrder α] (gain : Nat → Option α)
    (n i : Nat) (bg : α) (bi : Int) (out : α × Int)
    (h : gainLoopOn gain n i bg bi = some out) :
    ∀ j, i ≤ j → j < i + n → ∃ g, gain j = some g := by
  induction n generalizing i bg bi with
  | zero =>
    intro j h1 h2
    omega
  | succ n ih =>
    intro j h1 h2
    simp only [gainLoopOn] at h
    cases hg : gain i with
    | none => simp [hg] at h
    | some g =>
      simp only [hg] at h
      rcases Nat.eq_or_lt_of_le h1 with heq | hlt
      · exact ⟨g, by rw [← heq, hg]⟩
      · by_cases hgt : g > bg
        · simp only [hgt, if_true] at h
          exact ih (i + 1) g (i : Int) h j hlt (by omega)
        · simp only [hgt, if_false] at h
          exact ih (i + 1) bg bi h j hlt (by omega)

/-- Whenever the selection loop ends on a feature index, that index is the
first one of largest computed gain, and its gain beats the initial best. -/
theorem selectBestOn_argmax {α : Type} [LinearOrder α] (gain : Nat → Option α) (init : α)
    (headers : List String) (b : Nat)
    (h : selectBestOn gain init headers = some (b : Int)) :
    b < headers.length - 1 ∧
    ∃ gb, gain b = some gb ∧ init < gb ∧
      (∀ j, j < headers.length - 1 → ∃ gj, gain j = some gj ∧ gj ≤ gb) ∧
      (∀ j, j < b → ∃ gj, gain j = some gj ∧ gj < gb) := by
  unfold selectBestOn at h
  cases hrun : gainLoopOn gain (headers.length - 1) 0 init (-1) with
  | none => simp [hrun] at h
  | some out =>
    have hdef := gainLoopOn_defined gain _ 0 init (-1) out hrun
    have hg : ∀ j, 0 ≤ j → j < 0 + (headers.length - 1) →
        gain j = some ((gain j).getD init) := by
      intro j h1 h2
      obtain ⟨g, hgj⟩ := hdef j h1 h2
      rw [hgj]
      rfl
    obtain ⟨bg', bi', hrun', hcase⟩ :=
      gainLoopOn_spec gain (fun j => (gain j).getD init) (headers.length - 1) 0 init (-1) hg
    rw [hrun'] at h
    simp only [Option.map_some', Option.some.injEq] at h
    rcases hcase with ⟨hbi, _, _⟩ | ⟨b', _, hb2, hbi, _, hlt, hall, hfirst⟩
    · rw [hbi] at h
      omega
    · have hbb : b' = b := by
        rw [hbi] at h
        omega
      subst hbb
      refine ⟨by omega, (gain b').getD init, hg b' (Nat.zero_le _) hb2, hlt, ?_, ?_⟩
      · intro j hj
        exact ⟨_, hg j (Nat.zero_le _) (by omega), hall j (Nat.zero_le _) (by omega)⟩
      · intro j hj
        exact ⟨_, hg j (Nat.zero_le _) (by omega), hfirst j (Nat.zero_le _) hj⟩

/-- When every gain the loop asks for is computed and beats the initial best,
the loop ends on a feature index. -/
theorem selectBestOn_total {α : Type} [LinearOrder α] (gain : Nat → Option α) (init : α)
    (headers : List String) (hk : 2 ≤ headers.length)
    (hgain : ∀ j, j < headers.length - 1 → ∃ g, gain j = some g ∧ init < g) :
    ∃ b : Nat, selectBestOn gain init headers = some (b : Int) ∧ b < headers.length - 1 := by
  have hg : ∀ j, 0 ≤ j → j < 0 + (headers.length - 1) →
      gain j = some ((gain j).getD init) := by
    intro j _ h2
    obtain ⟨g, hgj, _⟩ := hgain j (by omega)
    rw [hgj]
    rfl
  obtain ⟨bg', bi', hrun, hcase⟩ :=
    gainLoopOn_spec gain (fun j => (gain j).getD init) (headers.length - 1) 0 init (-1) hg
  rcases hcase with ⟨_, _, hall⟩ | ⟨b, _, hb2, hbi, _, _, _, _⟩
  · exfalso
    obtain ⟨g, hgj, hlt⟩ := hgain 0 (by omega)
    have := hall 0 (Nat.le_refl _) (by omega)
    simp only [hgj, Option.getD_some] at this
    exact absurd hlt (not_lt.2 this)
  · exact ⟨b, by simp [selectBestOn, hrun, hbi], by omega⟩

end DecisionTree

namespace DecisionTree

/-! ### `buildTree` on computed gains -/

theorem buildTreeOn_pure {α : Type} [LinearOrder α] (init : α)
    (gain : List String → List Row → Nat → Option α) (ord : List String → IterOrder)
    (data : List Row) (headers : List String) (label : String)
    (h : collectLabels data [] = some [label]) :
    buildTreeOn init gain ord data headers = some (leafNode label) := by
  rw [buildTreeOn]
  simp [h]

theorem buildTreeOn_majority {α : Type} [LinearOrder α] (init : α)
    (gain : List String → List Row → Nat → Option α) (ord : List String → IterOrder)
    (data : List Row) (headers : List String) (labels : List String)
    (h : collectLabels data [] = some labels) (hl : labels.length ≠ 1)
    (hh : headers.length = 1) :
    buildTreeOn init gain ord data headers = (mostCommonLabel (ord []) data).map leafNode := by
  rw [buildTreeOn]
  simp only [h]
  split
  · simp at hl
  · simp [hh]

theorem buildTreeOn_split {α : Type} [LinearOrder α] (init : α)
    (gain : List String → List Row → Nat → Option α) (ord : List String → IterOrder)
    (data : List Row) (headers : List String) (labels : List String) (b : Nat)
    (feature : String) (splits : List (String × List Row))
    (h : collectLabels data [] = some labels) (hl : labels.length ≠ 1)
    (hh : headers.length ≠ 1)
    (hsel : selectBestOn (gain [] data) init headers = some (b : Int))
    (hf : headers[b]? = some feature) (hs : splitData data b = some splits) :
    buildTreeOn init gain ord data headers =
      (attachChildren
        (fun val newSubset =>
          buildTreeOn init (fun path => gain (val :: path)) (fun path => ord (val :: path))
            newSubset (removeAt headers b))
        b splits).map (internalNode feature) := by
  rw [buildTreeOn]
  simp only [h]
  split
  · simp at hl
  · simp only [hh, if_false, hsel]
    have hnn : ¬ ((b : Int) < 0) := by omega
    simp only [hnn, if_false, Int.toNat_ofNat]
    split
    · rename_i hnone
      rw [hf] at hnone
      cases hnone
    · rename_i f hsome
      rw [hf] at hsome
      cases hsome
      simp [hs]

/-- A node returned on computed gains that is not a leaf comes from the split
branch: the selection loop ended on a column `b` and the node carries the name
of that column. -/
theorem buildTreeOn_internal_inv {α : Type} [LinearOrder α] (init : α)
    (gain : List String → List Row → Nat → Option α) (ord : List String → IterOrder)
    (data : List Row) (headers : List String) (t : Node)
    (h : buildTreeOn init gain ord data headers = some t) (hint : t.IsLeaf = false) :
    ∃ b : Nat, selectBestOn (gain [] data) init headers = some (b : Int) ∧
      headers[b]? = some t.Feature := by
  rw [buildTreeOn] at h
  cases hc : collectLabels data [] with
  | none => simp [hc] at h
  | some labels =>
    simp only [hc] at h
    split at h
    · simp only [Option.some.injEq] at h
      rw [← h] at hint
      simp [leafNode, Node.IsLeaf] at hint
    · by_cases hh : headers.length = 1
      · simp only [hh, if_true] at h
        cases hm : mostCommonLabel (ord []) data with
        | none => simp [hm] at h
        | some l =>
          simp only [hm, Option.map_some', Option.some.injEq] at h
          rw [← h] at hint
          simp [leafNode, Node.IsLeaf] at hint
      · simp only [hh, if_false] at h
        cases hsel : selectBestOn (gain [] data) init headers with
        | none => simp [hsel] at h
        | some bi =>
          simp only [hsel] at h
          by_cases hneg : bi < 0
          · simp [hneg] at h
          · simp only [hneg, if_false] at h
            split at h
            · cases h
            · rename_i feature hf
              cases hs : splitData data bi.toNat with
              | none => simp [hs] at h
              | some splits =>
                simp only [hs] at h
                cases ha : attachChildren
                    (fun val newSubset =>
                      buildTreeOn init (fun path => gain (val :: path))
                        (fun path => ord (val :: path)) newSubset
                        (removeAt headers bi.toNat))
                    bi.toNat splits with
                | none => simp [ha] at h
                | some children =>
                  simp only [ha, Option.map_some', Option.some.injEq] at h
                  have hfeat : t.Feature = feature := by rw [← h]; rfl
                  refine ⟨bi.toNat, ?_, ?_⟩
                  · rw [Int.toNat_of_nonneg (not_lt.1 hneg)]
                  · rw [hfeat]; exact hf

/-- A leaf returned on computed gains comes from one of the two termination
rules. -/
theorem buildTreeOn_leaf_inv {α : Type} [LinearOrder α] (init : α)
    (gain : List String → List Row → Nat → Option α) (ord : List String → IterOrder)
    (data : List Row) (headers : List String) (t : Node)
    (h : buildTreeOn init gain ord data headers = some t) (hleaf : t.IsLeaf = true) :
    (∃ label, collectLabels data [] = some [label]) ∨ headers.length = 1 := by
  rw [buildTreeOn] at h
  cases hc : collectLabels data [] with
  | none => simp [hc] at h
  | some labels =>
    simp only [hc] at h
    split at h
    · rename_i label
      exact Or.inl ⟨label, rfl⟩
    · by_cases hh : headers.length = 1
      · exact Or.inr hh
      · exfalso
        simp only [hh, if_false] at h
        cases hsel : selectBestOn (gain [] data) init headers with
        | none => simp [hsel] at h
        | some bi =>
          simp only [hsel] at h
          by_cases hneg : bi < 0
          · simp [hneg] at h
          · simp only [hneg, if_false] at h
            split at h
            · cases h
            · cases hs : splitData data bi.toNat with
              | none => simp [hs] at h
              | some splits =>
                simp only [hs] at h
                cases ha : attachChildren
                    (fun val newSubset =>
                      buildTreeOn init (fun path => gain (val :: path))
                        (fun path => ord (val :: path)) newSubset
                        (removeAt headers bi.toNat))
                    bi.toNat splits with
                | none => simp [ha] at h
                | some children =>
                  simp only [ha, Option.map_some', Option.some.injEq] at h
                  rw [← h] at hleaf
                  simp [internalNode, Node.IsLeaf] at hleaf

/-- Totality on computed gains: when every gain asked for on rows that have the
column is computed and beats the initial best, `buildTreeOn` returns a node on
well-formed input. -/
theorem buildTreeOn_total {α : Type} [LinearOrder α] (init : α)
    (gain : List String → List Row → Nat → Option α) (ord : List String → IterOrder)
    (data : List Row) (headers : List String) (hwf : WellFormed data headers)
    (hgain : ∀ path d i, (∀ r ∈ d, i < r.length) → ∃ g, gain path d i = some g ∧ init < g) :
    ∃ t, buildTreeOn init gain ord data headers = some t := by
  obtain ⟨n, hn⟩ : ∃ n, headers.length = n + 1 := ⟨headers.length - 1, by have := hwf.1; omega⟩
  induction n generalizing gain ord data headers with
  | zero =>
    by_cases hl : (firstSeen (data.map labelOf)).length = 1
    · obtain ⟨label, hlabel⟩ := List.length_eq_one.1 hl
      exact ⟨leafNode label, buildTreeOn_pure init gain ord data headers label
        (by rw [collectLabels_eq data hwf.rows_ne_nil, hlabel])⟩
    · have hm := mostCommonLabel_eq (ord []) data hwf.rows_ne_nil
      rw [buildTreeOn_majority init gain ord data headers _
        (collectLabels_eq data hwf.rows_ne_nil) hl (by omega), hm]
      exact ⟨_, rfl⟩
  | succ n ih =>
    by_cases hl : (firstSeen (data.map labelOf)).length = 1
    · obtain ⟨label, hlabel⟩ := List.length_eq_one.1 hl
      exact ⟨leafNode label, buildTreeOn_pure init gain ord data headers label
        (by rw [collectLabels_eq data hwf.rows_ne_nil, hlabel])⟩
    · have hk : 2 ≤ headers.length := by omega
      obtain ⟨b, hsel, hb⟩ := selectBestOn_total (gain [] data) init headers hk
        (fun j hj => hgain [] data j (fun r hr => by rw [hwf.2 r hr]; omega))
      have hbl : b < headers.length := by omega
      have hcols : ∀ r ∈ data, b < r.length := by
        intro r hr
        rw [hwf.2 r hr]
        exact hbl
      obtain ⟨children, hrun, _, _⟩ :=
        attachChildren_spec
          (fun val newSubset =>
            buildTreeOn init (fun path => gain (val :: path)) (fun path => ord (val :: path))
              newSubset (removeAt headers b))
          b (rowsWith data b) (fun _ _ => True) (firstSeen (data.map (fieldOf b)))
          (by
            intro v _
            obtain ⟨c, hc⟩ := ih (fun path => gain (v :: path)) (fun path => ord (v :: path))
              (childData data b v) (removeAt headers b)
              (wellFormed_childData data headers b v hwf hk hbl)
              (fun path d i hd => hgain (v :: path) d i hd)
              (by rw [removeAt_length headers b hbl]; omega)
            exact ⟨c, hc, trivial⟩)
      refine ⟨internalNode (headers.getD b "") children, ?_⟩
      rw [buildTreeOn_split init gain ord data headers _ b (headers.getD b "") _
        (collectLabels_eq data hwf.rows_ne_nil) hl (by omega) hsel
        (by simp [List.getD_eq_getElem?_getD, List.getElem?_eq_getElem hbl])
        (splitData_eq data b hcols), hrun]
      rfl

end DecisionTree

namespace DecisionTree

/-! ### The exact reading is an instance of the computed one -/

theorem gainLoop_eq_gainLoopOn (data : List Row) (n i : Nat) (bg : ℝ) (bi : Int) :
    gainLoop data n i bg bi = gainLoopOn (informationGain data) n i bg bi := by
  induction n generalizing i bg bi with
  | zero => simp [gainLoop, gainLoopOn]
  | succ n ih =>
    simp only [gainLoop, gainLoopOn]
    cases informationGain data i with
    | none => rfl
    | some g =>
      by_cases hgt : g > bg
      · simp only [hgt, if_true]
        exact ih _ _ _
      · simp only [hgt, if_false]
        exact ih _ _ _

theorem selectBest_eq_selectBestOn (data : List Row) (headers : List String) :
    selectBest data headers = selectBestOn (informationGain data) (-1) headers := by
  simp [selectBest, selectBestOn, gainLoop_eq_gainLoopOn]

theorem attachChildren_congr (build1 build2 : String → List Row → Option Node) (b : Nat)
    (splits : List (String × List Row)) (h : ∀ v sub, build1 v sub = build2 v sub) :
    attachChildren build1 b splits = attachChildren build2 b splits := by
  induction splits with
  | nil => rfl
  | cons p rest ih =>
    obtain ⟨v, subset⟩ := p
    simp only [attachChildren, h, ih]

/-- `buildTree`, which reads the gains over the reals, is `buildTreeOn` at the
exact gains and the initial best -1. -/
theorem buildTree_eq_buildTreeOn (ord : List String → IterOrder) (data : List Row)
    (headers : List String) :
    buildTree ord data headers =
      buildTreeOn (-1 : ℝ) (fun _ => informationGain) ord data headers := by
  obtain ⟨n, hn⟩ : ∃ n, headers.length = n := ⟨_, rfl⟩
  induction n using Nat.strong_induction_on generalizing ord data headers with
  | _ n ih =>
    rw [buildTree, buildTreeOn, selectBest_eq_selectBestOn]
    cases collectLabels data [] with
    | none => rfl
    | some labels =>
      simp only
      split
      · rfl
      · by_cases hh : headers.length = 1
        · simp only [hh, if_true]
        · simp only [hh, if_false]
          cases selectBestOn (informationGain data) (-1) headers with
          | none => rfl
          | some bi =>
            simp only
            by_cases hneg : bi < 0
            · simp only [hneg, if_true]
            · simp only [hneg, if_false]
              split
              · rfl
              · rename_i f1 hf1
                have hlt : bi.toNat < headers.length := by
                  rcases Nat.lt_or_ge bi.toNat headers.length with h | h
                  · exact h
                  · rw [List.getElem?_eq_none h] at hf1
                    cases hf1
                split
                · rfl
                · rename_i splits _
                  rw [attachChildren_congr _
                    (fun val newSubset =>
                      buildTreeOn (-1 : ℝ) (fun _ => informationGain)
                        (fun path => ord (val :: path)) newSubset
                        (removeAt headers bi.toNat)) bi.toNat splits]
                  intro v sub
                  exact ih (removeAt headers bi.toNat).length
                    (by rw [removeAt_length headers _ hlt]; omega) _ _ _ rfl

end DecisionTree

namespace DecisionTree

/-- Two runs of the selection loop on gains given as integers (in units of
the last place): when both computed gains are equal index 0 is kept, and when
rounding leaves the second one larger by one unit index 1 is taken. -/
theorem selectBestOn_examples :
    selectBestOn (fun _ => some (0 : Int)) (-1) ["f", "g", "y"] = some 0 ∧
    selectBestOn (fun i => some (if i = 1 then (1 : Int) else 0)) (-1) ["f", "g", "y"]
      = some 1 := by
  decide

/-- C5 (gain selection is a first-argmax).  The gains are the values the run
computes: `gain [] data i` is what `informationGain(data, i)` returned to the
selection loop, in any linearly ordered type, so that nothing is assumed about
floating-point rounding.  For a dataset with two rows of different labels and
headers with at least one feature column: every node `buildTreeOn` returns is
Internal, its feature is `headers[b]` for the index `b` left by the selection
loop, `b` is a feature index, and the computed gain of `b` is at least that of
every feature index and strictly larger than that of every smaller index;
hence when all computed gains are equal `b` is 0, and an index whose computed
gain strictly exceeds every other is `b`.  When every row has the length of the
headers and every gain asked for is computed and exceeds the initial best, a
node is returned. -/
theorem buildTreeOn_first_argmax {α : Type} [LinearOrder α] (init : α)
    (gain : List String → List Row → Nat → Option α) (ord : List String → IterOrder)
    (data : List Row) (headers : List String)
    (hk : 1 ≤ headers.length - 1)
    (hlabels : ∃ r1 ∈ data, ∃ r2 ∈ data, r1.getLast? ≠ r2.getLast?) :
    (∀ t, buildTreeOn init gain ord data headers = some t →
      t.IsLeaf = false ∧
      ∃ (b : Nat) (gb : α),
        selectBestOn (gain [] data) init headers = some (b : Int) ∧
        b < headers.length - 1 ∧ headers[b]? = some t.Feature ∧
        gain [] data b = some gb ∧
        (∀ i, i < headers.length - 1 → ∃ gi, gain [] data i = some gi ∧ gi ≤ gb) ∧
        (∀ j, j < b → ∃ gj, gain [] data j = some gj ∧ gj < gb) ∧
        ((∀ i, i < headers.length - 1 → gain [] data i = gain [] data 0) → b = 0) ∧
        (∀ c, c < headers.length - 1 →
          (∀ i, i < headers.length - 1 → i ≠ c →
            ∃ gi gc, gain [] data i = some gi ∧ gain [] data c = some gc ∧ gi < gc) →
          b = c)) ∧
    ((∀ row ∈ data, row.length = headers.length) →
      (∀ path d i, (∀ r ∈ d, i < r.length) → ∃ g, gain path d i = some g ∧ init < g) →
      ∃ t, buildTreeOn init gain ord data headers = some t) := by
  constructor
  · intro t ht
    have hint : t.IsLeaf = false := by
      cases hleaf : t.IsLeaf with
      | false => rfl
      | true =>
        exfalso
        rcases buildTreeOn_leaf_inv init gain ord data headers t ht hleaf with
          ⟨label, hc⟩ | hh
        · have hrows := rows_of_collectLabels data _ hc
          rw [collectLabels_eq data hrows] at hc
          have := labels_not_uniform data hrows hlabels
          rw [Option.some.inj hc] at this
          exact this rfl
        · omega
    refine ⟨hint, ?_⟩
    obtain ⟨b, hsel, hf⟩ := buildTreeOn_internal_inv init gain ord data headers t ht hint
    obtain ⟨hb, gb, hgb, _, hmax, hfirst⟩ :=
      selectBestOn_argmax (gain [] data) init headers b hsel
    refine ⟨b, gb, hsel, hb, hf, hgb, hmax, hfirst, ?_, ?_⟩
    · intro hall
      by_contra hb0
      obtain ⟨g0, hg0, hlt⟩ := hfirst 0 (Nat.pos_of_ne_zero hb0)
      have heq := hall b hb
      rw [hgb, hg0] at heq
      rw [Option.some.inj heq] at hlt
      exact lt_irrefl _ hlt
    · intro c hc hstrict
      by_contra hbc
      obtain ⟨gi, gc, hgi, hgc, hlt⟩ := hstrict b hb hbc
      obtain ⟨gc', hgc', hle⟩ := hmax c hc
      rw [hgb] at hgi
      rw [hgc] at hgc'
      have e1 : gb = gi := Option.some.inj hgi
      have e2 : gc = gc' := Option.some.inj hgc'
      rw [← e1, e2] at hlt
      exact absurd hlt (not_lt.2 hle)
  · intro hlen hgain
    exact buildTreeOn_total init gain ord data headers ⟨by omega, hlen⟩ hgain

/-- Scenario A with the gains read over the reals and the initial best -1: a
tree is returned and its root is the first index of largest gain. -/
theorem buildTreeOn_first_argmax_witness :
    ∃ t, buildTreeOn (-1 : ℝ) (fun _ => informationGain) (fun _ => IterOrder.insertion)
        scenarioA scenarioAHeaders = some t ∧
      t.IsLeaf = false ∧
      ∃ (b : Nat) (gb : ℝ),
        selectBestOn (informationGain scenarioA) (-1) scenarioAHeaders = some (b : Int) ∧
        b < scenarioAHeaders.length - 1 ∧ scenarioAHeaders[b]? = some t.Feature ∧
        informationGain scenarioA b = some gb ∧
        (∀ i, i < scenarioAHeaders.length - 1 →
          ∃ gi, informationGain scenarioA i = some gi ∧ gi ≤ gb) ∧
        (∀ j, j < b → ∃ gj, informationGain scenarioA j = some gj ∧ gj < gb) := by
  have h := buildTreeOn_first_argmax (-1 : ℝ) (fun _ => informationGain)
    (fun _ => IterOrder.insertion) scenarioA scenarioAHeaders (by decide) (by decide)
  obtain ⟨t, ht⟩ := h.2 (by decide) (by
    intro _ d i hd
    refine ⟨gainValue d i, informationGain_eq d i hd, ?_⟩
    have := gainValue_nonneg d i
    linarith)
  obtain ⟨hint, b, gb, hsel, hb, hf, hgb, hmax, hfirst, _, _⟩ := h.1 t ht
  exact ⟨t, ht, hint, b, gb, hsel, hb, hf, hgb, hmax, hfirst⟩

end DecisionTree
